import Mathlib

/-!
# linka-cloud/xlsx: shared strings, boolean properties, text elements, styles

A shallow embedding of xmlSharedStrings.go and of `worksheetFileForSheet` of
xmlWorkbook.go, with the style sheet of xmlStyle.go, which is not among the
sources, next to them.

* A Go `string` is an immutable sequence of bytes: `GoString := List Nat`,
  one list element per byte. `lit` gives the bytes of a string literal.
* The package `encoding/xml` is seen through its token interface: an
  `Encoder` is the sequence of tokens written to it, a `Decoder` is the
  sequence of tokens it will still deliver followed by the error it reports
  afterwards. What turns tokens into bytes and back is not part of the
  repository; of it, the escaping and the reading of character data are
  written out, for the text of an `XLSXT`.
* A struct without decoding or encoding code of its own is read and written
  by `encoding/xml` as its field tags direct; the decoders and encoders of
  those structs below are these tags spelled out.
* A method with a pointer receiver that assigns to the receiver returns the
  new receiver value next to the Go result. A nil pointer is `none`, a nil
  slice is `[]`.
* A Go map is seen through its lookup: the value under a key, or `none` for a
  key it does not have.
-/

namespace Xlsx

/-! ## Go strings and errors -/

/-- A Go string: a sequence of bytes. -/
abbrev GoString := List Nat

/-- The bytes (UTF-8) of a string literal of the Go source. -/
def lit (s : String) : GoString :=
  (s.data.flatMap String.utf8EncodeChar).map UInt8.toNat

/-- Go error values met in this package: `New msg` is `errors.New(msg)`;
`Token msg` is an error returned by `xml.Decoder.Token` (`io.EOF`, a syntax
error, a failure of the underlying reader); `Num input` is the
`*strconv.NumError` for an attribute text that is no number; `Unmarshal msg`
is an error raised by the struct decoder of `encoding/xml` itself. -/
inductive GoError where
  | New (msg : GoString)
  | Token (msg : GoString)
  | Num (input : GoString)
  | Unmarshal (msg : GoString)
  deriving DecidableEq, Repr

/-- Go `strings.ContainsRune(s, r)` for a rune `r` below `utf8.RuneSelf`: such a
rune is a single byte and the search is the byte search `strings.IndexByte`. -/
def ContainsRune (s : GoString) (r : Nat) : Bool :=
  s.any (fun b => b == r)

/-! ## encoding/xml tokens -/

namespace xml

/-- Go `xml.Name`. -/
structure Name where
  Space : GoString := []
  Local : GoString := []
  deriving DecidableEq, Repr

/-- Go `xml.Attr`. -/
structure Attr where
  Name : Name
  Value : GoString
  deriving DecidableEq, Repr

/-- Go `xml.StartElement`. -/
structure StartElement where
  Name : Name
  Attr : List Attr := []
  deriving DecidableEq, Repr

/-- Go `xml.Token`: the token kinds of `encoding/xml`. -/
inductive Token where
  | StartElement (start : StartElement)
  | EndElement (name : Name)
  | CharData (data : GoString)
  | Comment (data : GoString)
  | ProcInst (target : GoString) (inst : GoString)
  | Directive (data : GoString)
  deriving DecidableEq, Repr

/-- Go `xml.Encoder`, as the tokens written to it so far, oldest first. -/
structure Encoder where
  toks : List Token := []
  deriving DecidableEq, Repr

/-- Go `(*xml.Encoder).EncodeToken`: the token is written after those written
before. The encoder is a recorder: a failure of the underlying writer is
outside the embedding. -/
def Encoder.EncodeToken (e : Encoder) (t : Token) : Except GoError Encoder :=
  .ok { toks := e.toks ++ [t] }

/-- Go `xml.Decoder`, positioned somewhere in a document: `toks` are the tokens
`Token` still delivers, in order, and `fail` is the message of the error it
returns once they are used up (`io.EOF` at the end of a document, a syntax
error where the document is malformed or truncated). -/
structure Decoder where
  toks : List Token
  fail : GoString := []
  deriving DecidableEq, Repr

/-- Go `(*xml.Decoder).Token`: the next token, or the error of the decoder. -/
def Decoder.Token (d : Decoder) : Except GoError (Token × Decoder) :=
  match d.toks with
  | [] => .error (.Token d.fail)
  | t :: rest => .ok (t, { d with toks := rest })

/-- The loop of `(*xml.Decoder).Skip`: `depth` counts the start elements read
and not yet closed. Returns the error (or `none` for nil) and the tokens left. -/
def Decoder.skipLoop (fail : GoString) :
    List xml.Token → Nat → Option GoError × List xml.Token
  | [], _ => (some (.Token fail), [])
  | .StartElement _ :: rest, depth => skipLoop fail rest (depth + 1)
  | .EndElement _ :: rest, 0 => (none, rest)
  | .EndElement _ :: rest, depth + 1 => skipLoop fail rest depth
  | _ :: rest, depth => skipLoop fail rest depth

/-- Go `(*xml.Decoder).Skip`: reads tokens until the end element that closes the
element whose start was consumed last; nested elements are skipped whole. -/
def Decoder.Skip (d : Decoder) : Option GoError × Decoder :=
  let r := Decoder.skipLoop d.fail d.toks 0
  (r.1, { d with toks := r.2 })

end xml

/-! ## xmlSharedStrings.go -/

/-- Type `XLSXBoolProp` (xmlSharedStrings.go, l. 61). -/
structure XLSXBoolProp where
  Val : Bool := false
  deriving DecidableEq, Repr

/-- Method `(*XLSXBoolProp).MarshalXML` (l. 66). -/
def XLSXBoolProp.MarshalXML (b : XLSXBoolProp) (e : xml.Encoder) (start : xml.StartElement) :
    Except GoError xml.Encoder :=
  if b.Val then do
    let e ← e.EncodeToken (.StartElement start)
    let e ← e.EncodeToken (.EndElement start.Name)
    pure e
  else
    pure e

/-- The message of the error of `UnmarshalXML` for the attribute text `v`
(l. 90-92); 34 is the double quote that stands before and behind the text. -/
def invalidBoolMsg (v : GoString) : GoString :=
  lit "Cannot unmarshal into XLSXBoolProp: " ++ [34] ++ v ++ [34] ++
    lit " is not a valid boolean value"

/-- The `for _, attr := range start.Attr` loop of `UnmarshalXML` (l. 81-95),
started with the current `boolVal`: the final `boolVal`, or the error of the
`default` case, which returns from the method. -/
def XLSXBoolProp.scanAttrs : List xml.Attr → Bool → Except GoError Bool
  | [], boolVal => .ok boolVal
  | attr :: rest, boolVal =>
    if attr.Name.Space = lit "" ∧ attr.Name.Local = lit "val" then
      if attr.Value = lit "true" ∨ attr.Value = lit "1" then
        scanAttrs rest true
      else if attr.Value = lit "false" ∨ attr.Value = lit "0" then
        scanAttrs rest false
      else
        .error (.New (invalidBoolMsg attr.Value))
    else
      scanAttrs rest boolVal

/-- What a call of `UnmarshalXML` leaves behind: the receiver, the decoder and
the returned error (`none` is nil). -/
structure UnmarshalResult where
  b : XLSXBoolProp
  d : xml.Decoder
  err : Option GoError
  deriving DecidableEq, Repr

/-- Method `(*XLSXBoolProp).UnmarshalXML` (l. 79). On the error of the `default`
case the receiver and the decoder are untouched; otherwise `b.Val` is assigned
and the result is that of `d.Skip()`. -/
def XLSXBoolProp.UnmarshalXML (b : XLSXBoolProp) (d : xml.Decoder) (start : xml.StartElement) :
    UnmarshalResult :=
  match XLSXBoolProp.scanAttrs start.Attr true with
  | .error err => { b := b, d := d, err := some err }
  | .ok boolVal =>
    let r := d.Skip
    { b := { Val := boolVal }, d := r.2, err := r.1 }

/-- Type `XLSXT` (l. 112): a text, held as the character data of its element. -/
structure XLSXT where
  Text : GoString := []
  deriving DecidableEq, Repr

/-- Function `needPreserve` (l. 148): whether `xml:space="preserve"` is needed. `s[0]`
and `s[len(s)-1]` are bytes. -/
def needPreserve (s : GoString) : Bool :=
  if s.length = 0 then
    false
  else
    let c := s.getD 0 0
    if c ≤ 32 ∧ c ≠ 9 ∧ c ≠ 13 then
      true
    else
      let c := s.getD (s.length - 1) 0
      if c ≤ 32 ∧ c ≠ 9 ∧ c ≠ 13 then
        true
      else
        ContainsRune s 0x0a

/-- The attribute built at l. 119-122. -/
def preserveAttr : xml.Attr :=
  { Name := { Local := lit "xml:space" }, Value := lit "preserve" }

/-- Method `(*XLSXT).MarshalXML` (l. 117). -/
def XLSXT.MarshalXML (t : XLSXT) (e : xml.Encoder) (start : xml.StartElement) :
    Except GoError xml.Encoder :=
  let start :=
    if needPreserve t.Text then { start with Attr := start.Attr ++ [preserveAttr] } else start
  do
    let e ← e.EncodeToken (.StartElement start)
    let e ← e.EncodeToken (.CharData t.Text)
    let e ← e.EncodeToken (.EndElement start.Name)
    pure e

/-- Method `(*XLSXT).getText` (l. 140): nil-safe access to the text. -/
def XLSXT.getText : Option XLSXT → GoString
  | none => lit ""
  | some t => t.Text

/-! ## Documents as the decoder reads them

`encoding/xml` fills a struct from the content of its element: the tokens
between the start element and the end element that closes it. That content is
a list of `Node`s; an item that is an element carries its own content. -/

/-- One item of the content of an element. -/
inductive Node where
  | Element (start : xml.StartElement) (content : List Node)
  | CharData (data : GoString)
  | Comment (data : GoString)
  | ProcInst (target : GoString) (inst : GoString)
  | Directive (data : GoString)
  deriving Repr

mutual
/-- The tokens the decoder delivers for an item. -/
def Node.tokens : Node → List xml.Token
  | .Element start content =>
    .StartElement start :: (Node.tokensList content ++ [.EndElement start.Name])
  | .CharData data => [.CharData data]
  | .Comment data => [.Comment data]
  | .ProcInst target inst => [.ProcInst target inst]
  | .Directive data => [.Directive data]
/-- The tokens the decoder delivers for a content. -/
def Node.tokensList : List Node → List xml.Token
  | [] => []
  | n :: rest => n.tokens ++ Node.tokensList rest
end

/-- Reading tokens up to the end element that closes the current element.
`stack` holds the elements entered and not yet closed, innermost first, each
with the items read before it in its parent; `acc` the items read in the
innermost unclosed element, newest first. `none`: the tokens end first. The
decoder has matched the names of start and end elements before it delivers
them, so the names are not compared again. -/
def readContent : List xml.Token → List (xml.StartElement × List Node) → List Node →
    Option (List Node × List xml.Token)
  | [], _, _ => none
  | .StartElement start :: rest, stack, acc => readContent rest ((start, acc) :: stack) []
  | .EndElement _ :: rest, [], acc => some (acc.reverse, rest)
  | .EndElement _ :: rest, (start, outer) :: stack, acc =>
    readContent rest stack (.Element start acc.reverse :: outer)
  | .CharData data :: rest, stack, acc => readContent rest stack (.CharData data :: acc)
  | .Comment data :: rest, stack, acc => readContent rest stack (.Comment data :: acc)
  | .ProcInst target inst :: rest, stack, acc =>
    readContent rest stack (.ProcInst target inst :: acc)
  | .Directive data :: rest, stack, acc => readContent rest stack (.Directive data :: acc)

/-- The content of the element whose start element was read last, and the
decoder after its end element. -/
def xml.Decoder.content (d : xml.Decoder) : Except GoError (List Node × xml.Decoder) :=
  match readContent d.toks [] [] with
  | none => .error (.Token d.fail)
  | some (content, rest) => .ok (content, { d with toks := rest })

/-- The character data directly inside an element: its `CharData` tokens, in
order (what a `,chardata` field receives). -/
def chardata : List Node → GoString
  | [] => []
  | .CharData data :: rest => data ++ chardata rest
  | _ :: rest => chardata rest

/-- The attribute loop of the struct decoder: the fields are offered each
attribute in document order. -/
def unmarshalAttrs {α : Type} (field : α → xml.Attr → Except GoError α) :
    α → List xml.Attr → Except GoError α
  | v, [] => .ok v
  | v, a :: rest =>
    match field v a with
    | .error err => .error err
    | .ok v => unmarshalAttrs field v rest

/-- The token loop of the struct decoder for a struct with no `,chardata`
field: each child element is offered to the fields (`child`), which skip it
when none is tagged with its name; everything else is passed over. -/
def unmarshalChildren {α : Type}
    (child : α → xml.StartElement → List Node → Except GoError α) :
    α → List Node → Except GoError α
  | v, [] => .ok v
  | v, .Element start content :: rest =>
    match child v start content with
    | .error err => .error err
    | .ok v => unmarshalChildren child v rest
  | v, _ :: rest => unmarshalChildren child v rest

/-- A call of the `UnmarshalXML` of a type by the decoder
(`unmarshalInterface`): the method reads from the decoder placed behind the
start element and has to consume the element to its end. -/
def unmarshalInterface (b : XLSXBoolProp) (start : xml.StartElement) (content : List Node) :
    Except GoError XLSXBoolProp :=
  let r := XLSXBoolProp.UnmarshalXML b
    { toks := Node.tokensList content ++ [.EndElement start.Name], fail := lit "EOF" } start
  match r.err with
  | some err => .error err
  | none =>
    if r.d.toks = [] then .ok r.b
    else .error (.Unmarshal
      (lit "xml: *xlsx.XLSXBoolProp.UnmarshalXML did not consume entire <" ++
        start.Name.Local ++ lit "> element"))

/-! ## The shared string table and its decoding

The structs of xmlSharedStrings.go have no decoding code of their own apart
from `XLSXBoolProp`: `encoding/xml` fills them as their field tags direct. A
field tagged with an element name takes every child element with that local
name (the tags name no namespace, so any namespace matches); a field tagged
`,attr` takes the attribute with that local name; a pointer field is
allocated when its element is met first; a slice field grows by one element
for each; child elements no field is tagged with are skipped. -/

/-- A `float64`, as its 64 bits. No arithmetic is done on it here. -/
abbrev Float64 := Nat

/-- The conversions of `strconv` the attribute decoder (`copyValue`) applies to
a non-empty attribute text: `ParseInt s` is
`strconv.ParseInt(strings.TrimSpace(s), 10, 64)` and `ParseFloat s` is
`strconv.ParseFloat(strings.TrimSpace(s), 64)`, `none` being their error. -/
structure Strconv where
  ParseInt : GoString → Option Int
  ParseFloat : GoString → Option Float64

/-- Go `copyValue` into an `int`: an empty text gives 0. -/
def Strconv.copyInt (conv : Strconv) (src : GoString) : Except GoError Int :=
  if src.length = 0 then .ok 0
  else match conv.ParseInt src with
    | none => .error (.Num src)
    | some n => .ok n

/-- Go `copyValue` into a `float64`: an empty text gives 0. -/
def Strconv.copyFloat (conv : Strconv) (src : GoString) : Except GoError Float64 :=
  if src.length = 0 then .ok 0
  else match conv.ParseFloat src with
    | none => .error (.Num src)
    | some x => .ok x

/-- Modelled from the spec: `XLSXVal` is declared in xmlStyle.go, which is not
among the sources. It holds the text of the `val` attribute of an element
(spec §3, TextRun: font name, underline style, vertical-alignment style,
scheme), as `XLSXIntVal` below holds an int. -/
structure XLSXVal where
  Val : GoString := []
  deriving DecidableEq, Repr

/-- Type `XLSXIntVal` (l. 101). -/
structure XLSXIntVal where
  Val : Int := 0
  deriving DecidableEq, Repr

/-- Type `XLSXFloatVal` (l. 106). -/
structure XLSXFloatVal where
  Val : Float64 := 0
  deriving DecidableEq, Repr

/-- Modelled from the spec: `XLSXColor` is declared in xmlStyle.go, which is
not among the sources. Spec §3 ColorSpec: a direct RGB string, an indexed
palette reference, or a theme reference with a tint, each an attribute of the
element. -/
structure XLSXColor where
  RGB : GoString := []
  Theme : Option Int := none
  Tint : Float64 := 0
  Indexed : Option Int := none
  deriving DecidableEq, Repr

/-- Type `XLSXRunProperties` (l. 39). -/
structure XLSXRunProperties where
  RFont : Option XLSXVal := none
  Charset : Option XLSXIntVal := none
  Family : Option XLSXIntVal := none
  B : XLSXBoolProp := {}
  I : XLSXBoolProp := {}
  Strike : XLSXBoolProp := {}
  Outline : XLSXBoolProp := {}
  Shadow : XLSXBoolProp := {}
  Condense : XLSXBoolProp := {}
  Extend : XLSXBoolProp := {}
  Color : Option XLSXColor := none
  Sz : Option XLSXFloatVal := none
  U : Option XLSXVal := none
  VertAlign : Option XLSXVal := none
  Scheme : Option XLSXVal := none
  deriving DecidableEq, Repr

/-- Type `XLSXR` (l. 32). -/
structure XLSXR where
  RPr : Option XLSXRunProperties := none
  T : XLSXT := {}
  deriving DecidableEq, Repr

/-- Type `XLSXSI` (l. 23). -/
structure XLSXSI where
  T : Option XLSXT := none
  R : List XLSXR := []
  deriving DecidableEq, Repr

/-- Type `XLSXSST` (l. 12). -/
structure XLSXSST where
  XMLName : xml.Name := {}
  Count : Int := 0
  UniqueCount : Int := 0
  SI : List XLSXSI := []
  deriving DecidableEq, Repr

/-- Decoding an element into an `XLSXT` (`Text string xml:",chardata"`): the
text is the character data of the element; attributes and child elements are
passed over. -/
def XLSXT.unmarshal (_t : XLSXT) (_start : xml.StartElement) (content : List Node) :
    Except GoError XLSXT :=
  .ok { Text := chardata content }

/-- The attribute step for `XLSXVal` (`val,attr`). -/
def XLSXVal.attr (v : XLSXVal) (a : xml.Attr) : Except GoError XLSXVal :=
  if a.Name.Local = lit "val" then .ok { v with Val := a.Value } else .ok v

/-- Decoding an element into an `XLSXVal`; its content is skipped. -/
def XLSXVal.unmarshal (v : XLSXVal) (start : xml.StartElement) (_content : List Node) :
    Except GoError XLSXVal :=
  unmarshalAttrs XLSXVal.attr v start.Attr

/-- The attribute step for `XLSXIntVal` (`Val int xml:"val,attr"`). -/
def XLSXIntVal.attr (conv : Strconv) (v : XLSXIntVal) (a : xml.Attr) :
    Except GoError XLSXIntVal :=
  if a.Name.Local = lit "val" then (conv.copyInt a.Value).map fun n => { v with Val := n }
  else .ok v

/-- Decoding an element into an `XLSXIntVal`; its content is skipped. -/
def XLSXIntVal.unmarshal (conv : Strconv) (v : XLSXIntVal) (start : xml.StartElement)
    (_content : List Node) : Except GoError XLSXIntVal :=
  unmarshalAttrs (XLSXIntVal.attr conv) v start.Attr

/-- The attribute step for `XLSXFloatVal` (`Val float64 xml:"val,attr"`). -/
def XLSXFloatVal.attr (conv : Strconv) (v : XLSXFloatVal) (a : xml.Attr) :
    Except GoError XLSXFloatVal :=
  if a.Name.Local = lit "val" then (conv.copyFloat a.Value).map fun x => { v with Val := x }
  else .ok v

/-- Decoding an element into an `XLSXFloatVal`; its content is skipped. -/
def XLSXFloatVal.unmarshal (conv : Strconv) (v : XLSXFloatVal) (start : xml.StartElement)
    (_content : List Node) : Except GoError XLSXFloatVal :=
  unmarshalAttrs (XLSXFloatVal.attr conv) v start.Attr

/-- The attribute step for `XLSXColor`: attributes `rgb`, `theme`, `tint`
and `indexed`. -/
def XLSXColor.attr (conv : Strconv) (c : XLSXColor) (a : xml.Attr) : Except GoError XLSXColor :=
  if a.Name.Local = lit "rgb" then .ok { c with RGB := a.Value }
  else if a.Name.Local = lit "theme" then
    (conv.copyInt a.Value).map fun n => { c with Theme := some n }
  else if a.Name.Local = lit "tint" then
    (conv.copyFloat a.Value).map fun x => { c with Tint := x }
  else if a.Name.Local = lit "indexed" then
    (conv.copyInt a.Value).map fun n => { c with Indexed := some n }
  else .ok c

/-- Decoding an element into an `XLSXColor`; its content is skipped. -/
def XLSXColor.unmarshal (conv : Strconv) (c : XLSXColor) (start : xml.StartElement)
    (_content : List Node) : Except GoError XLSXColor :=
  unmarshalAttrs (XLSXColor.attr conv) c start.Attr

/-- The fields of `XLSXRunProperties`, in the order of their declaration
(l. 40-54). -/
inductive RunField where
  | RFont | Charset | Family | B | I | Strike | Outline | Shadow | Condense | Extend
  | Color | Sz | U | VertAlign | Scheme
  deriving DecidableEq, Repr

/-- The fields of `XLSXRunProperties`, in the order of their declaration. -/
def RunField.all : List RunField :=
  [.RFont, .Charset, .Family, .B, .I, .Strike, .Outline, .Shadow, .Condense, .Extend,
   .Color, .Sz, .U, .VertAlign, .Scheme]

/-- The element name in the tag of a field (l. 40-54). -/
def RunField.tag : RunField → GoString
  | .RFont => lit "rFont"
  | .Charset => lit "charset"
  | .Family => lit "family"
  | .B => lit "b"
  | .I => lit "i"
  | .Strike => lit "strike"
  | .Outline => lit "outline"
  | .Shadow => lit "shadow"
  | .Condense => lit "condense"
  | .Extend => lit "extend"
  | .Color => lit "color"
  | .Sz => lit "sz"
  | .U => lit "u"
  | .VertAlign => lit "vertAlign"
  | .Scheme => lit "scheme"

/-- The field that takes a child element: the first one tagged with the
local name of the element. -/
def RunField.find (name : GoString) : Option RunField :=
  RunField.all.find? fun f => f.tag = name

/-- The child step for `XLSXRunProperties`: the field tagged with the local
name of the child element takes it; a pointer field is allocated first, a
boolean property is read by its own `UnmarshalXML`. -/
def XLSXRunProperties.child (conv : Strconv) (p : XLSXRunProperties)
    (start : xml.StartElement) (content : List Node) : Except GoError XLSXRunProperties :=
  match RunField.find start.Name.Local with
  | none => .ok p
  | some .RFont =>
    (XLSXVal.unmarshal (p.RFont.getD {}) start content).map fun v => { p with RFont := some v }
  | some .Charset =>
    (XLSXIntVal.unmarshal conv (p.Charset.getD {}) start content).map fun v =>
      { p with Charset := some v }
  | some .Family =>
    (XLSXIntVal.unmarshal conv (p.Family.getD {}) start content).map fun v =>
      { p with Family := some v }
  | some .B => (unmarshalInterface p.B start content).map fun v => { p with B := v }
  | some .I => (unmarshalInterface p.I start content).map fun v => { p with I := v }
  | some .Strike =>
    (unmarshalInterface p.Strike start content).map fun v => { p with Strike := v }
  | some .Outline =>
    (unmarshalInterface p.Outline start content).map fun v => { p with Outline := v }
  | some .Shadow =>
    (unmarshalInterface p.Shadow start content).map fun v => { p with Shadow := v }
  | some .Condense =>
    (unmarshalInterface p.Condense start content).map fun v => { p with Condense := v }
  | some .Extend =>
    (unmarshalInterface p.Extend start content).map fun v => { p with Extend := v }
  | some .Color =>
    (XLSXColor.unmarshal conv (p.Color.getD {}) start content).map fun v =>
      { p with Color := some v }
  | some .Sz =>
    (XLSXFloatVal.unmarshal conv (p.Sz.getD {}) start content).map fun v =>
      { p with Sz := some v }
  | some .U => (XLSXVal.unmarshal (p.U.getD {}) start content).map fun v => { p with U := some v }
  | some .VertAlign =>
    (XLSXVal.unmarshal (p.VertAlign.getD {}) start content).map fun v =>
      { p with VertAlign := some v }
  | some .Scheme =>
    (XLSXVal.unmarshal (p.Scheme.getD {}) start content).map fun v =>
      { p with Scheme := some v }

/-- Decoding an `rPr` element into an `XLSXRunProperties`. -/
def XLSXRunProperties.unmarshal (conv : Strconv) (p : XLSXRunProperties)
    (_start : xml.StartElement) (content : List Node) : Except GoError XLSXRunProperties :=
  unmarshalChildren (XLSXRunProperties.child conv) p content

/-- The child step for `XLSXR` (l. 33-34). -/
def XLSXR.child (conv : Strconv) (r : XLSXR) (start : xml.StartElement)
    (content : List Node) : Except GoError XLSXR :=
  if start.Name.Local = lit "rPr" then
    (XLSXRunProperties.unmarshal conv (r.RPr.getD {}) start content).map fun v =>
      { r with RPr := some v }
  else if start.Name.Local = lit "t" then
    (XLSXT.unmarshal r.T start content).map fun v => { r with T := v }
  else .ok r

/-- Decoding an `r` element into an `XLSXR`. -/
def XLSXR.unmarshal (conv : Strconv) (r : XLSXR) (_start : xml.StartElement)
    (content : List Node) : Except GoError XLSXR :=
  unmarshalChildren (XLSXR.child conv) r content

/-- The child step for `XLSXSI` (l. 24-25): a `t` element goes to the pointer
field `T`, each `r` element is appended to the slice `R`. -/
def XLSXSI.child (conv : Strconv) (si : XLSXSI) (start : xml.StartElement)
    (content : List Node) : Except GoError XLSXSI :=
  if start.Name.Local = lit "t" then
    (XLSXT.unmarshal (si.T.getD {}) start content).map fun v => { si with T := some v }
  else if start.Name.Local = lit "r" then
    (XLSXR.unmarshal conv {} start content).map fun v => { si with R := si.R ++ [v] }
  else .ok si

/-- Decoding an `si` element into an `XLSXSI`. -/
def XLSXSI.unmarshal (conv : Strconv) (si : XLSXSI) (_start : xml.StartElement)
    (content : List Node) : Except GoError XLSXSI :=
  unmarshalChildren (XLSXSI.child conv) si content

/-- The namespace of the `XMLName` tag of `XLSXSST` (l. 13). -/
def mainNamespace : GoString :=
  lit "http://schemas.openxmlformats.org/spreadsheetml/2006/main"

/-- The attribute step for `XLSXSST` (l. 14-15). -/
def XLSXSST.attr (conv : Strconv) (sst : XLSXSST) (a : xml.Attr) : Except GoError XLSXSST :=
  if a.Name.Local = lit "count" then
    (conv.copyInt a.Value).map fun n => { sst with Count := n }
  else if a.Name.Local = lit "uniqueCount" then
    (conv.copyInt a.Value).map fun n => { sst with UniqueCount := n }
  else .ok sst

/-- The child step for `XLSXSST` (l. 16). The tag of the field `SI` names no
namespace, so an `si` element is taken in whatever namespace it is. -/
def XLSXSST.child (conv : Strconv) (sst : XLSXSST) (start : xml.StartElement)
    (content : List Node) : Except GoError XLSXSST :=
  if start.Name.Local = lit "si" then
    (XLSXSI.unmarshal conv {} start content).map fun v => { sst with SI := sst.SI ++ [v] }
  else .ok sst

/-- Decoding an element into an `XLSXSST`: the element has to be `sst` of
the main namespace (the `XMLName` tag, l. 13); then the attributes, then the
children. Neither `count` nor `uniqueCount` is compared with the entries. -/
def XLSXSST.unmarshal (conv : Strconv) (sst : XLSXSST) (start : xml.StartElement)
    (content : List Node) : Except GoError XLSXSST :=
  if start.Name.Local ≠ lit "sst" then
    .error (.Unmarshal (lit "expected element type <sst> but have <" ++ start.Name.Local ++
      lit ">"))
  else if start.Name.Space ≠ mainNamespace then
    .error (.Unmarshal (lit "expected element <sst> in name space " ++ mainNamespace ++
      lit " but have " ++
      (if start.Name.Space = lit "" then lit "no name space" else start.Name.Space)))
  else
    match unmarshalAttrs (XLSXSST.attr conv) { sst with XMLName := start.Name } start.Attr with
    | .error err => .error err
    | .ok sst => unmarshalChildren (XLSXSST.child conv) sst content

/-- Reading an `XLSXT` from a decoder placed behind the start element of
its element. -/
def XLSXT.DecodeElement (t : XLSXT) (d : xml.Decoder) (start : xml.StartElement) :
    Except GoError (XLSXT × xml.Decoder) :=
  match d.content with
  | .error err => .error err
  | .ok (content, d) => (XLSXT.unmarshal t start content).map fun t => (t, d)

/-- Reading a value from a decoder placed in front of its element
(`(*xml.Decoder).Decode`): the tokens before the first start element are
passed over. -/
def XLSXT.Decode (t : XLSXT) (d : xml.Decoder) : Except GoError (XLSXT × xml.Decoder) :=
  match d.toks.dropWhile (fun tok => match tok with | .StartElement _ => false | _ => true) with
  | .StartElement start :: rest => XLSXT.DecodeElement t { d with toks := rest } start
  | _ => .error (.Token d.fail)

/-! ## Character data in the markup

Between the tokens and the bytes of a document stands `encoding/xml`: the
encoder writes the text of a `CharData` token escaped (`escapeText`), and the
decoder reads character data from the bytes up to the next `<` (`text`),
resolves the entities and refuses what XML does not allow. Both are code of
the Go library, not of the repository; they are written out here for the
text of an `XLSXT`, which the markup does not always give back. -/

namespace utf8

/-- Go `utf8.RuneError`, U+FFFD. -/
def RuneError : Nat := 0xFFFD

/-- Go `utf8.DecodeRune`: the first rune of the bytes and its width. The
result is `(RuneError, 0)` for no bytes and `(RuneError, 1)` for bytes that
do not start with a valid encoding: a wrong or missing continuation byte, an
encoding longer than needed, a surrogate, a rune above U+10FFFF. -/
def DecodeRune : GoString → Nat × Nat
  | [] => (RuneError, 0)
  | p0 :: rest =>
    if p0 < 0x80 then (p0, 1)
    else if p0 < 0xC2 then (RuneError, 1)
    else if p0 < 0xE0 then
      match rest with
      | b1 :: _ =>
        if 0x80 ≤ b1 ∧ b1 ≤ 0xBF then ((p0 - 0xC0) * 64 + (b1 - 0x80), 2)
        else (RuneError, 1)
      | _ => (RuneError, 1)
    else if p0 < 0xF0 then
      match rest with
      | b1 :: b2 :: _ =>
        if (if p0 = 0xE0 then 0xA0 else 0x80) ≤ b1 ∧ b1 ≤ (if p0 = 0xED then 0x9F else 0xBF) ∧
            0x80 ≤ b2 ∧ b2 ≤ 0xBF then
          ((p0 - 0xE0) * 4096 + (b1 - 0x80) * 64 + (b2 - 0x80), 3)
        else (RuneError, 1)
      | _ => (RuneError, 1)
    else if p0 < 0xF5 then
      match rest with
      | b1 :: b2 :: b3 :: _ =>
        if (if p0 = 0xF0 then 0x90 else 0x80) ≤ b1 ∧ b1 ≤ (if p0 = 0xF4 then 0x8F else 0xBF) ∧
            0x80 ≤ b2 ∧ b2 ≤ 0xBF ∧ 0x80 ≤ b3 ∧ b3 ≤ 0xBF then
          ((p0 - 0xF0) * 262144 + (b1 - 0x80) * 4096 + (b2 - 0x80) * 64 + (b3 - 0x80), 4)
        else (RuneError, 1)
      | _ => (RuneError, 1)
    else (RuneError, 1)

/-- Go `string(rune(r))`: the UTF-8 encoding of a rune, that of U+FFFD for a
surrogate and for a rune above U+10FFFF. -/
def runeBytes (r : Nat) : GoString :=
  if r < 0x80 then [r]
  else if r < 0x800 then [0xC0 + r / 64, 0x80 + r % 64]
  else if 0xD800 ≤ r ∧ r ≤ 0xDFFF then [0xEF, 0xBF, 0xBD]
  else if r < 0x10000 then [0xE0 + r / 4096, 0x80 + r / 64 % 64, 0x80 + r % 64]
  else if r ≤ 0x10FFFF then
    [0xF0 + r / 262144, 0x80 + r / 4096 % 64, 0x80 + r / 64 % 64, 0x80 + r % 64]
  else [0xEF, 0xBF, 0xBD]

end utf8

namespace xml

/-- Go `isInCharacterRange` of `encoding/xml`: the runes XML allows in a
document. -/
def isInCharacterRange (r : Nat) : Bool :=
  r = 0x09 || r = 0x0A || r = 0x0D || (0x20 ≤ r && r ≤ 0xD7FF) ||
    (0xE000 ≤ r && r ≤ 0xFFFD) || (0x10000 ≤ r && r ≤ 0x10FFFF)

/-- The `switch` of `escapeText` of `encoding/xml` for one rune of the given
width: the bytes written in its place, `none` where the rune is written as it
is. A rune XML does not allow, and a byte that is no valid UTF-8 (`RuneError`
of width 1), is replaced by U+FFFD. -/
def escapeRune (r width : Nat) (escapeNewline : Bool) : Option GoString :=
  if r = 34 then some (lit "&#34;")
  else if r = 39 then some (lit "&#39;")
  else if r = 38 then some (lit "&amp;")
  else if r = 60 then some (lit "&lt;")
  else if r = 62 then some (lit "&gt;")
  else if r = 9 then some (lit "&#x9;")
  else if r = 10 then (if escapeNewline then some (lit "&#xA;") else none)
  else if r = 13 then some (lit "&#xD;")
  else if !isInCharacterRange r || (r = 0xFFFD && width = 1) then some [0xEF, 0xBF, 0xBD]
  else none

/-- The loop of `escapeText`, rune by rune; `fuel` bounds the number of the
runes, which is at most the number of the bytes. -/
def escapeLoop (escapeNewline : Bool) : Nat → GoString → GoString
  | 0, _ => []
  | _ + 1, [] => []
  | fuel + 1, b :: rest =>
    let rw := utf8.DecodeRune (b :: rest)
    (match escapeRune rw.1 rw.2 escapeNewline with
      | some esc => esc
      | none => (b :: rest).take rw.2) ++
    escapeLoop escapeNewline fuel ((b :: rest).drop rw.2)

/-- Go `escapeText` of `encoding/xml`: the bytes written for a text.
`EncodeToken` writes a `CharData` token with `escapeNewline` false. -/
def escapeText (s : GoString) (escapeNewline : Bool) : GoString :=
  escapeLoop escapeNewline s.length s

/-- Go `isNameByte` of `encoding/xml`. -/
def isNameByte (c : Nat) : Bool :=
  (65 ≤ c && c ≤ 90) || (97 ≤ c && c ≤ 122) || (48 ≤ c && c ≤ 57) ||
    c = 95 || c = 58 || c = 46 || c = 45

/-- The map `entity` of `encoding/xml`: the names a decoder knows with no
declaration. -/
def entity (name : GoString) : Option Nat :=
  if name = lit "lt" then some 60
  else if name = lit "gt" then some 62
  else if name = lit "amp" then some 38
  else if name = lit "apos" then some 39
  else if name = lit "quot" then some 34
  else none

/-- The value of a byte as a digit of the base 10 or 16, if it is one. -/
def digitValue (base b : Nat) : Option Nat :=
  if 48 ≤ b ∧ b ≤ 57 then some (b - 48)
  else if base = 16 ∧ 97 ≤ b ∧ b ≤ 102 then some (b - 87)
  else if base = 16 ∧ 65 ≤ b ∧ b ≤ 70 then some (b - 55)
  else none

/-- The leading bytes that are digits of the base, and the bytes behind
them. -/
def spanDigits (base : Nat) : List Nat → List Nat × List Nat
  | [] => ([], [])
  | b :: rest =>
    if (digitValue base b).isSome then
      let r := spanDigits base rest
      (b :: r.1, r.2)
    else ([], b :: rest)

/-- The bytes `readName` of the decoder takes, and the bytes behind them: a
byte of 128 or more and a name byte are taken. -/
def spanName : List Nat → List Nat × List Nat
  | [] => ([], [])
  | b :: rest =>
    if 128 ≤ b ∨ isNameByte b = true then
      let r := spanName rest
      (b :: r.1, r.2)
    else ([], b :: rest)

/-- Go `strconv.ParseUint(s, base, 64)` on digits of the base: `none` is an
error, for no digit and for a value of 2^64 or more. -/
def parseUint (base : Nat) (digits : List Nat) : Option Nat :=
  if digits = [] then none
  else
    let n := digits.foldl (fun acc d => acc * base + (digitValue base d).getD 0) 0
    if n < 2 ^ 64 then some n else none

/-- The error of a decoder for a document that ends too early. -/
def unexpectedEOF : GoError := .Token (lit "unexpected EOF")

/-- The error of a strict decoder for an entity it cannot resolve; `ent` is
the text of the entity as far as it was read. -/
def invalidEntity (ent : GoString) : GoError :=
  .Token (lit "invalid character entity " ++ ent ++
    (if ent.getLast? = some 59 then [] else lit " (no semicolon)"))

/-- The part of `(*Decoder).text` that reads an entity, the bytes given being
those behind `&`: the text of the entity and the bytes behind it. The decoder
is strict and has no entities of its own (`Strict` true, `Entity` nil, as
`xml.NewDecoder` makes it), so that an entity that is not resolved is an
error. The errors are `*xml.SyntaxError`s, held as their message. -/
def Decoder.readEntity : List Nat → Except GoError (GoString × List Nat)
  | [] => .error unexpectedEOF
  | 35 :: rest =>
    match rest with
    | [] => .error unexpectedEOF
    | b :: rest1 =>
      let base := if b = 120 then 16 else 10
      let input := if b = 120 then rest1 else b :: rest1
      match input with
      | [] => .error unexpectedEOF
      | _ =>
        let r := spanDigits base input
        let ent := [38, 35] ++ (if b = 120 then [120] else []) ++ r.1
        match r.2 with
        | [] => .error unexpectedEOF
        | 59 :: rest2 =>
          match parseUint base r.1 with
          | some n =>
            if n ≤ 0x10FFFF then .ok (utf8.runeBytes n, rest2)
            else .error (invalidEntity (ent ++ [59]))
          | none => .error (invalidEntity (ent ++ [59]))
        | _ => .error (invalidEntity ent)
  | b :: rest =>
    let r := spanName (b :: rest)
    match r.2 with
    | [] => .error unexpectedEOF
    | 59 :: rest2 =>
      match entity r.1 with
      | some c => .ok (utf8.runeBytes c, rest2)
      | none => .error (invalidEntity ([38] ++ r.1 ++ [59]))
    | _ => .error (invalidEntity ([38] ++ r.1))

/-- The loop `Input` of `(*Decoder).text` for character data outside quotes
and outside a CDATA section: `b0` and `b1` are the two bytes read last, `buf`
the text read so far. The loop ends in front of a `<` and at the end of
the input; the result is the text and the bytes left. `fuel` bounds the
number of the rounds, which is at most the number of the bytes. -/
def Decoder.textLoop : Nat → List Nat → Nat → Nat → GoString →
    Except GoError (GoString × List Nat)
  | 0, input, _, _, buf => .ok (buf, input)
  | _ + 1, [], _, _, buf => .ok (buf, [])
  | fuel + 1, b :: rest, b0, b1, buf =>
    if b0 = 93 ∧ b1 = 93 ∧ b = 62 then
      .error (.Token (lit "unescaped ]]> not in CDATA section"))
    else if b = 60 then .ok (buf, b :: rest)
    else if b = 38 then
      match Decoder.readEntity rest with
      | .error err => .error err
      | .ok (text, rest1) => textLoop fuel rest1 0 0 (buf ++ text)
    else if b = 13 then textLoop fuel rest b1 b (buf ++ [10])
    else if b1 = 13 ∧ b = 10 then textLoop fuel rest b1 b buf
    else textLoop fuel rest b1 b (buf ++ [b])

/-- The digits of a number in the base 16, in upper case. -/
def hexDigits : Nat → Nat → List Nat
  | 0, _ => []
  | fuel + 1, n =>
    (if n < 16 then [] else hexDigits fuel (n / 16)) ++
      [if n % 16 < 10 then 48 + n % 16 else 55 + n % 16]

/-- Go `fmt.Sprintf("%U", r)`: `U+` and the rune in the base 16, with four
digits at least. -/
def formatU (r : Nat) : GoString :=
  let ds := hexDigits 8 r
  lit "U+" ++ List.replicate (4 - ds.length) 48 ++ ds

/-- The last loop of `(*Decoder).text`, which inspects each rune of the text
read: the error for the first byte that is no valid UTF-8 and for the first
rune XML does not allow, `none` for a text without. -/
def checkRunes : Nat → GoString → Option GoError
  | 0, _ => none
  | _ + 1, [] => none
  | fuel + 1, b :: rest =>
    let rw := utf8.DecodeRune (b :: rest)
    if rw.1 = utf8.RuneError ∧ rw.2 = 1 then some (.Token (lit "invalid UTF-8"))
    else if isInCharacterRange rw.1 = false then
      some (.Token (lit "illegal character code " ++ formatU rw.1))
    else checkRunes fuel ((b :: rest).drop rw.2)

/-- The check of `(*Decoder).text` on a whole text: `none` exactly for a text
that is valid UTF-8 and holds runes of the XML character range only. -/
def checkText (s : GoString) : Option GoError :=
  checkRunes s.length s

/-- Go `(*Decoder).text(-1, false)`: the character data read from the bytes
of a document up to the next `<`, and the bytes left. -/
def Decoder.text (input : List Nat) : Except GoError (GoString × List Nat) :=
  match Decoder.textLoop input.length input 0 0 [] with
  | .error err => .error err
  | .ok (data, rest) =>
    match checkText data with
    | some err => .error err
    | none => .ok (data, rest)

/-- What a decoder delivers for the bytes an encoder wrote for a `CharData`
token, a tag standing behind them in the document. No byte is written for an
empty text, and the decoder, which meets the `<` of the tag at once,
delivers no character data; otherwise it delivers the text it reads up to
the `<` as one `CharData` token. -/
def readBack (data : GoString) : Except GoError (List Token) :=
  match escapeText data false with
  | [] => .ok []
  | b :: markup =>
    match Decoder.text (b :: markup ++ [60]) with
    | .error err => .error err
    | .ok (text, _) => .ok [.CharData text]

end xml

/-! ## Encoding the shared string table

No struct of the table but `XLSXBoolProp` and `XLSXT` has encoding code of
its own: `encoding/xml` writes them as their field tags direct. An element
is named by the tag of the field it comes from; a `,attr` field without
`omitempty` is always written, with the text of its value; a nil pointer
field is left out; a slice field gives one element for each of its items. -/

/-- Go `strconv.Itoa`, the text written for an `int` attribute. -/
def Itoa (n : Int) : GoString :=
  lit (toString n)

/-- The start element written for an `XLSXSST`: named by the `XMLName` tag
(l. 13), with the attributes `count` and `uniqueCount` (l. 14-15) holding the
fields `Count` and `UniqueCount`. -/
def XLSXSST.start (sst : XLSXSST) : xml.StartElement :=
  { Name := { Space := mainNamespace, Local := lit "sst" }
    Attr := [{ Name := { Local := lit "count" }, Value := Itoa sst.Count },
             { Name := { Local := lit "uniqueCount" }, Value := Itoa sst.UniqueCount }] }

/-- The encoding of the items of a slice field, one after the other. -/
def marshalEach {α : Type} (item : α → xml.Encoder → Except GoError xml.Encoder) :
    List α → xml.Encoder → Except GoError xml.Encoder
  | [], e => .ok e
  | x :: rest, e =>
    match item x e with
    | .error err => .error err
    | .ok e => marshalEach item rest e

/-- The encoding of a pointer field: nothing is written for a nil pointer. -/
def marshalPointer {α : Type} (item : α → xml.Encoder → Except GoError xml.Encoder) :
    Option α → xml.Encoder → Except GoError xml.Encoder
  | none, e => .ok e
  | some x, e => item x e

/-- The encoding of an `XLSXR` as an `r` element (l. 33-34). `rPr` gives
the tokens of the `rPr` element of a run that has run properties; they depend
on xmlStyle.go and on the text of floats and are left open. -/
def XLSXR.marshal (rPr : XLSXRunProperties → List xml.Token)
    (r : XLSXR) (e : xml.Encoder) : Except GoError xml.Encoder := do
  let e ← e.EncodeToken (.StartElement { Name := { Local := lit "r" } })
  let e ← marshalPointer (fun p e => .ok { toks := e.toks ++ rPr p }) r.RPr e
  let e ← r.T.MarshalXML e { Name := { Local := lit "t" } }
  e.EncodeToken (.EndElement { Local := lit "r" })

/-- The encoding of an entry of `XLSXSST.SI` as an `si` element (l. 16,
l. 24-25). The element is named by the tag of the field `SI`, which names no
namespace. -/
def XLSXSI.marshal (rPr : XLSXRunProperties → List xml.Token)
    (si : XLSXSI) (e : xml.Encoder) : Except GoError xml.Encoder := do
  let e ← e.EncodeToken (.StartElement { Name := { Local := lit "si" } })
  let e ← marshalPointer (fun t e => XLSXT.MarshalXML t e { Name := { Local := lit "t" } }) si.T e
  let e ← marshalEach (XLSXR.marshal rPr) si.R e
  e.EncodeToken (.EndElement { Local := lit "si" })

/-- The encoding of an `XLSXSST` (l. 12-17): the `sst` element with its two
attributes, holding one `si` element for each entry. -/
def XLSXSST.marshal (rPr : XLSXRunProperties → List xml.Token)
    (sst : XLSXSST) (e : xml.Encoder) : Except GoError xml.Encoder := do
  let e ← e.EncodeToken (.StartElement sst.start)
  let e ← marshalEach (XLSXSI.marshal rPr) sst.SI e
  e.EncodeToken (.EndElement sst.start.Name)

/-- The value of the attribute with the given local name on a start element,
if it has one. -/
def attrValue (start : xml.StartElement) (name : GoString) : Option GoString :=
  (start.Attr.find? fun a => a.Name.Local = name).map fun a => a.Value

/-! ## The document of `TestUnmarshallSharedStrings` -/

/-- A decimal numeral without sign, for the conversions of the tests. -/
def parseDecimal : GoString → Option Int
  | [] => none
  | s => if s.all (fun b => 48 ≤ b ∧ b ≤ 57) then
      some (s.foldl (fun (n : Int) b => 10 * n + (b - 48 : Nat)) 0)
    else none

/-- Conversions that cover the numerals of the test document: decimal ints,
and `13.5`, whose float64 is `0x402B000000000000`. -/
def testConv : Strconv where
  ParseInt := parseDecimal
  ParseFloat := fun s => if s = lit "13.5" then some 0x402B000000000000 else none

/-- An element of the main namespace with the given attributes. -/
def el (name : String) (attrs : List (String × String)) (content : List Node) : Node :=
  .Element
    { Name := { Space := mainNamespace, Local := lit name }
      Attr := attrs.map fun a => { Name := { Local := lit a.1 }, Value := lit a.2 } }
    content

/-- The white space between two elements of the test document. -/
def ws : Node := .CharData ([10] ++ lit "          ")

/-- The content of the `rPr` element of the fourth run of the test
document (l. 55). -/
def fontSpecXML : List Node :=
  [ws, el "sz" [("val", "13.5")] [], el "color" [("theme", "1")] [],
   el "rFont" [("val", "FontZ")] [], el "family" [("val", "2")] [],
   el "charset" [("val", "128")] [], el "scheme" [("val", "minor")] [], ws]

/-- The start element of the root of the test document (l. 19-21). -/
def sharedStringsStart : xml.StartElement :=
  { Name := { Space := mainNamespace, Local := lit "sst" }
    Attr := [{ Name := { Local := lit "xmlns" }, Value := mainNamespace },
             { Name := { Local := lit "count" }, Value := lit "5" },
             { Name := { Local := lit "uniqueCount" }, Value := lit "5" }] }

/-- The content of the fifth `si` element of the test document (l. 35-65):
five runs. -/
def richEntryXML : List Node :=
  [ws,
   el "r" [] [ws, el "t" [] [.CharData (lit "Normal")], ws], ws,
   el "r" [] [ws, el "rPr" [] [ws], ws, el "t" [] [.CharData (lit "Normal2")], ws], ws,
   el "r" [] [ws,
     el "rPr" [] [ws, el "b" [("val", "true")] [], ws, el "i" [("val", "false")] [], ws,
       el "strike" [] [], ws, el "condense" [("val", "1")] [], ws,
       el "extend" [("val", "0")] [], ws], ws,
     el "t" [] [.CharData (lit "Bools")], ws], ws,
   el "r" [] [ws, el "rPr" [] fontSpecXML, ws,
     el "t" [] [.CharData (lit "Font Spec")], ws], ws,
   el "r" [] [ws,
     el "rPr" [] [ws, el "u" [("val", "single")] [], ws,
       el "vertAlign" [("val", "superscript")] [], ws], ws,
     el "t" [] [.CharData (lit "Misc")], ws], ws]

/-- The content of the root of the test document (xmlSharedStrings_test.go,
l. 22-66). The white space between elements is kept as one item each. -/
def sharedStringsXML : List Node :=
  [ws, el "si" [] [ws, el "t" [] [.CharData (lit "Foo")], ws],
   ws, el "si" [] [ws, el "t" [] [.CharData (lit "Bar")], ws],
   ws, el "si" [] [ws,
     .Element { Name := { Space := mainNamespace, Local := lit "t" }
                Attr := [{ Name := { Space := lit "http://www.w3.org/XML/1998/namespace",
                                     Local := lit "space" },
                           Value := lit "preserve" }] }
       [.CharData (lit "Baz ")], ws],
   ws, el "si" [] [ws, el "t" [] [.CharData (lit "Quuk")], ws],
   ws, el "si" [] richEntryXML,
   ws]

/-- The run properties the assertions of the test expect of the fourth run
(l. 123-130); `0x402B000000000000` is 13.5. -/
def fontSpecExpected : XLSXRunProperties :=
  { RFont := some { Val := lit "FontZ" }
    Sz := some { Val := 0x402B000000000000 }
    Color := some { Theme := some 1 }
    Family := some { Val := 2 }
    Charset := some { Val := 128 }
    Scheme := some { Val := lit "minor" } }

/-- The runs the assertions of the test expect of the fifth entry
(l. 92-134). -/
def richEntryExpected : List XLSXR :=
  [{ T := { Text := lit "Normal" } },
   { RPr := some {}, T := { Text := lit "Normal2" } },
   { RPr := some { B := { Val := true }, Strike := { Val := true },
                   Condense := { Val := true } },
     T := { Text := lit "Bools" } },
   { RPr := some fontSpecExpected, T := { Text := lit "Font Spec" } },
   { RPr := some { U := some { Val := lit "single" }
                   VertAlign := some { Val := lit "superscript" } },
     T := { Text := lit "Misc" } }]

/-- What the assertions of `TestUnmarshallSharedStrings` (l. 76-134) expect. -/
def sharedStringsExpected : XLSXSST :=
  { XMLName := { Space := mainNamespace, Local := lit "sst" }
    Count := 5
    UniqueCount := 5
    SI := [
      { T := some { Text := lit "Foo" } },
      { T := some { Text := lit "Bar" } },
      { T := some { Text := lit "Baz " } },
      { T := some { Text := lit "Quuk" } },
      { R := richEntryExpected }] }

/-! ## Style resolution

xmlStyle.go is not among the sources: the records are those the tests of
xmlStyle_test.go build, and `getStyle` follows §4.5 of the specification, and
the tests where a test fixes a result. -/

/-- Modelled from the spec: `XLSXAlignment` is declared in xmlStyle.go, which
is not among the sources; the alignment record embedded in a format record
(spec §3 CellFormat), with the fields the tests set. -/
structure XLSXAlignment where
  Horizontal : GoString := []
  Indent : Int := 0
  ShrinkToFit : Bool := false
  TextRotation : Int := 0
  Vertical : GoString := []
  WrapText : Bool := false
  deriving DecidableEq, Repr

/-- Modelled from the spec: `XLSXXf` is declared in xmlStyle.go, which is not
among the sources. Spec §3 CellFormat: a font id, fill id, border id and
number-format id, the apply-flags, an embedded alignment record and an
optional reference to a named-style format record. -/
structure XLSXXf where
  ApplyAlignment : Bool := false
  ApplyBorder : Bool := false
  ApplyFont : Bool := false
  ApplyFill : Bool := false
  ApplyNumberFormat : Bool := false
  ApplyProtection : Bool := false
  BorderId : Int := 0
  FillId : Int := 0
  FontId : Int := 0
  NumFmtId : Int := 0
  XfId : Option Int := none
  Alignment : XLSXAlignment := {}
  deriving DecidableEq, Repr

/-- Modelled from the spec: `XLSXNumFmt` is declared in xmlStyle.go, which is
not among the sources. Spec §3 NumberFormat: a number-format id and its format
code, in the order of the fields of the literals of the tests
(`XLSXNumFmt{164, "hh:mm:ss"}`). -/
structure XLSXNumFmt where
  NumFmtId : Int := 0
  FormatCode : GoString := []
  deriving DecidableEq, Repr

/-- Modelled from the spec: `XLSXNumFmts` is declared in xmlStyle.go, which is
not among the sources. The custom number formats of a style sheet (spec §4.3),
with the fields the tests read: the stored `Count` and the entries in
insertion order. -/
structure XLSXNumFmts where
  Count : Int := 0
  NumFmt : List XLSXNumFmt := []
  deriving DecidableEq, Repr

/-- Modelled from the spec: `XLSXStyleSheet` is declared in xmlStyle.go, which
is not among the sources. Spec §3 StyleSheet, restricted to the sequences
style resolution reads: the cell format records (`cellXfs`) and the
named-style format records (`cellStyleXfs`, absent or present), the position
of a record being its id; and the custom number formats, which the tests
allocate before they register a format. -/
structure XLSXStyleSheet where
  CellStyleXfs : Option (List XLSXXf) := none
  CellXfs : List XLSXXf := []
  NumFmts : XLSXNumFmts := {}
  deriving DecidableEq, Repr

/-- Modelled from the spec: `Style`, the result of `getStyle`, is declared
outside the sources. Spec §3 ResolvedStyle: the effective apply-flags, the
effective value of each attribute group (`none` where the group is
unresolved) and the named-style id in effect. -/
structure Style where
  ApplyFont : Bool := false
  ApplyFill : Bool := false
  ApplyBorder : Bool := false
  ApplyNumberFormat : Bool := false
  ApplyAlignment : Bool := false
  FontId : Option Int := none
  FillId : Option Int := none
  BorderId : Option Int := none
  NumFmtId : Option Int := none
  Alignment : Option XLSXAlignment := none
  NamedStyleIndex : Option Int := none
  deriving DecidableEq, Repr

/-- The errors of style resolution (spec §7). -/
inductive StyleError where
  | OutOfRange
  | DanglingReference
  deriving DecidableEq, Repr

/-- The record at a 0-based id of an ordered sequence, if there is one. -/
def recordAt {α : Type} (records : List α) (id : Int) : Option α :=
  if id < 0 then none else records[id.toNat]?

/-- Modelled from the spec: step 3 of §4.5 for one attribute group. The value
is that of the cell record if the flag of the cell record is set, otherwise
that of the base record if its flag is set, otherwise unresolved. -/
def effective {α : Type} (cellFlag : Bool) (cell : α) (base : Option (Bool × α)) : Option α :=
  if cellFlag then some cell
  else match base with
    | some (true, v) => some v
    | _ => none

/-- Modelled from the spec: steps 3 and 4 of §4.5, the cascade of a cell
format record over an optional base record. Each effective apply-flag is the
logical OR of the flags of the two records; the named-style id is the
reference of the cell record, unchanged. -/
def cascade (xf : XLSXXf) (base : Option XLSXXf) : Style :=
  let b : XLSXXf := base.getD {}
  { ApplyFont := b.ApplyFont || xf.ApplyFont
    ApplyFill := b.ApplyFill || xf.ApplyFill
    ApplyBorder := b.ApplyBorder || xf.ApplyBorder
    ApplyNumberFormat := b.ApplyNumberFormat || xf.ApplyNumberFormat
    ApplyAlignment := b.ApplyAlignment || xf.ApplyAlignment
    FontId := effective xf.ApplyFont xf.FontId (base.map fun r => (r.ApplyFont, r.FontId))
    FillId := effective xf.ApplyFill xf.FillId (base.map fun r => (r.ApplyFill, r.FillId))
    BorderId :=
      effective xf.ApplyBorder xf.BorderId (base.map fun r => (r.ApplyBorder, r.BorderId))
    NumFmtId := effective xf.ApplyNumberFormat xf.NumFmtId
      (base.map fun r => (r.ApplyNumberFormat, r.NumFmtId))
    Alignment := effective xf.ApplyAlignment xf.Alignment
      (base.map fun r => (r.ApplyAlignment, r.Alignment))
    NamedStyleIndex := xf.XfId }

/-- Modelled from the spec: `getStyle` of the style sheet, declared in
xmlStyle.go, which is not among the sources. Spec §4.5: fetch the cell format
at the id; if its named-style reference is set, fetch the referenced
named-style format record as the base record (`DanglingReference` if it does
not resolve), otherwise there is no base record; then cascade. Where no cell
format is at the id the result is the zero `Style` and no failure: the test
`GetStyle/NoNamedStyleIndex` (xmlStyle_test.go l. 402-406) calls `getStyle(0)`
on a new style sheet, which has no cell format, takes the one value it
returns and reads the `NamedStyleIndex` of it, which is nil. The specification
has `OutOfRange` for this case. -/
def XLSXStyleSheet.getStyle (styles : XLSXStyleSheet) (cellFormatId : Int) :
    Except StyleError Style :=
  match recordAt styles.CellXfs cellFormatId with
  | none => .ok {}
  | some xf =>
    match xf.XfId with
    | none => .ok (cascade xf none)
    | some ref =>
      match recordAt (styles.CellStyleXfs.getD []) ref with
      | none => .error .DanglingReference
      | some base => .ok (cascade xf (some base))

/-! ## Style fragments

The fragments of a style sheet, their `Equals`, the `add` functions, the
number formats, the indexed colours and the markup of a border are declared
in xmlStyle.go, which is not among the sources. The records are those the
tests of xmlStyle_test.go build; the functions follow §4.3, §4.4, §4.6 and §6
of the specification, and the tests where a test fixes a result. -/

/-- Modelled from the spec: `XLSXFont` is declared in xmlStyle.go, which is not
among the sources. Spec §3 Font, with the fields the tests set (l. 209-215,
l. 577-587): `B`, `I`, `U` and `Strike` are pointers, nil when unset. -/
structure XLSXFont where
  Sz : XLSXVal := {}
  Name : XLSXVal := {}
  Family : XLSXVal := {}
  Charset : XLSXVal := {}
  Color : XLSXColor := {}
  B : Option XLSXVal := none
  I : Option XLSXVal := none
  U : Option XLSXVal := none
  Strike : Option XLSXVal := none
  deriving DecidableEq, Repr

/-- Modelled from the spec: `XLSXPatternFill` is declared in xmlStyle.go, which
is not among the sources; the fields the tests set (l. 65-68). -/
structure XLSXPatternFill where
  PatternType : GoString := []
  FgColor : XLSXColor := {}
  BgColor : XLSXColor := {}
  deriving DecidableEq, Repr

/-- Modelled from the spec: `XLSXFill` is declared in xmlStyle.go, which is not
among the sources. Spec §3 Fill, with the field the tests set (l. 251). -/
structure XLSXFill where
  PatternFill : XLSXPatternFill := {}
  deriving DecidableEq, Repr

/-- Modelled from the spec: `XLSXLine` is declared in xmlStyle.go, which is not
among the sources; one side of a border, with the fields the tests set
(l. 507). -/
structure XLSXLine where
  Style : GoString := []
  Color : XLSXColor := {}
  deriving DecidableEq, Repr

/-- Modelled from the spec: `XLSXBorder` is declared in xmlStyle.go, which is
not among the sources. Spec §3 Border, with the four sides the tests set
(l. 274-277). -/
structure XLSXBorder where
  Left : XLSXLine := {}
  Right : XLSXLine := {}
  Top : XLSXLine := {}
  Bottom : XLSXLine := {}
  deriving DecidableEq, Repr

/-- Modelled from the spec: `XLSXRgbColor` is declared in xmlStyle.go, which is
not among the sources; an entry of the override palette (l. 19). -/
structure XLSXRgbColor where
  Rgb : GoString := []
  deriving DecidableEq, Repr

/-- Modelled from the spec: `XLSXColors` is declared in xmlStyle.go, which is
not among the sources; the override palette of the indexed colours (spec
§4.6), nil or empty when the workbook has none (l. 13, l. 19). -/
structure XLSXColors where
  IndexedColors : List XLSXRgbColor := []
  deriving DecidableEq, Repr

/-! ### Structural equality (spec §4.4) -/

/-- Modelled from the spec: the comparison of an optional field, spec §4.4:
an unset optional field is only equal to another unset optional field; two
set fields are compared by the values they hold. -/
def optionalEquals {α : Type} (equals : α → α → Bool) : Option α → Option α → Bool
  | none, none => true
  | some a, some b => equals a b
  | _, _ => false

/-- Modelled from the spec: `Equals` of `XLSXVal`, field by field (§4.4). -/
def XLSXVal.Equals (val other : XLSXVal) : Bool :=
  decide (val.Val = other.Val)

/-- Modelled from the spec: `Equals` of `XLSXColor`, field by field (§4.4);
the tint is compared as the value it holds. -/
def XLSXColor.Equals (color other : XLSXColor) : Bool :=
  decide (color.RGB = other.RGB) &&
  optionalEquals (fun a b => decide (a = b)) color.Theme other.Theme &&
  decide (color.Tint = other.Tint) &&
  optionalEquals (fun a b => decide (a = b)) color.Indexed other.Indexed

/-- Modelled from the spec: `Equals` of `XLSXFont`, declared in xmlStyle.go,
which is not among the sources. Spec §4.4: every corresponding field is
equal, an unset `B`, `I`, `U` or `Strike` only to an unset one. -/
def XLSXFont.Equals (font other : XLSXFont) : Bool :=
  font.Sz.Equals other.Sz &&
  font.Name.Equals other.Name &&
  font.Family.Equals other.Family &&
  font.Charset.Equals other.Charset &&
  font.Color.Equals other.Color &&
  optionalEquals XLSXVal.Equals font.B other.B &&
  optionalEquals XLSXVal.Equals font.I other.I &&
  optionalEquals XLSXVal.Equals font.U other.U &&
  optionalEquals XLSXVal.Equals font.Strike other.Strike

/-- Modelled from the spec: `Equals` of `XLSXPatternFill`, field by field
(§4.4). -/
def XLSXPatternFill.Equals (fill other : XLSXPatternFill) : Bool :=
  decide (fill.PatternType = other.PatternType) &&
  fill.FgColor.Equals other.FgColor &&
  fill.BgColor.Equals other.BgColor

/-- Modelled from the spec: `Equals` of `XLSXFill`, declared in xmlStyle.go,
which is not among the sources. Spec §4.4: every corresponding field is
equal. -/
def XLSXFill.Equals (fill other : XLSXFill) : Bool :=
  fill.PatternFill.Equals other.PatternFill

/-- Modelled from the spec: `Equals` of `XLSXLine`, field by field (§4.4). -/
def XLSXLine.Equals (line other : XLSXLine) : Bool :=
  decide (line.Style = other.Style) && line.Color.Equals other.Color

/-- Modelled from the spec: `Equals` of `XLSXBorder`, declared in xmlStyle.go,
which is not among the sources. Spec §4.4: every corresponding field is
equal. -/
def XLSXBorder.Equals (border other : XLSXBorder) : Bool :=
  border.Left.Equals other.Left &&
  border.Right.Equals other.Right &&
  border.Top.Equals other.Top &&
  border.Bottom.Equals other.Bottom

/-- Modelled from the spec: `Equals` of `XLSXAlignment`, field by field
(§4.4). -/
def XLSXAlignment.Equals (alignment other : XLSXAlignment) : Bool :=
  decide (alignment.Horizontal = other.Horizontal) &&
  decide (alignment.Indent = other.Indent) &&
  decide (alignment.ShrinkToFit = other.ShrinkToFit) &&
  decide (alignment.TextRotation = other.TextRotation) &&
  decide (alignment.Vertical = other.Vertical) &&
  decide (alignment.WrapText = other.WrapText)

/-- Modelled from the spec: `Equals` of `XLSXXf`, declared in xmlStyle.go,
which is not among the sources. Spec §4.4: every corresponding field is
equal, an unset `XfId` only to an unset one, two set ones by the ids they
hold (l. 351-364). -/
def XLSXXf.Equals (xf other : XLSXXf) : Bool :=
  decide (xf.ApplyAlignment = other.ApplyAlignment) &&
  decide (xf.ApplyBorder = other.ApplyBorder) &&
  decide (xf.ApplyFont = other.ApplyFont) &&
  decide (xf.ApplyFill = other.ApplyFill) &&
  decide (xf.ApplyNumberFormat = other.ApplyNumberFormat) &&
  decide (xf.ApplyProtection = other.ApplyProtection) &&
  decide (xf.BorderId = other.BorderId) &&
  decide (xf.FillId = other.FillId) &&
  decide (xf.FontId = other.FontId) &&
  decide (xf.NumFmtId = other.NumFmtId) &&
  optionalEquals (fun a b => decide (a = b)) xf.XfId other.XfId &&
  xf.Alignment.Equals other.Alignment

/-! ### Interning (spec §4.4) -/

/-- Modelled from the spec: the search of `intern` (§4.4): the position of the
first entry of a sequence that the comparison holds equal to the value, if
there is one. -/
def position {α : Type} (equals : α → α → Bool) (value : α) : List α → Option Nat
  | [] => none
  | entry :: rest =>
    if equals entry value then some 0
    else (position equals value rest).map (· + 1)

/-- Modelled from the spec: `intern` of §4.4, which the four `add` functions
of xmlStyle.go share. If an existing entry of the owning ordered sequence is
structurally equal to the value, its position is returned; otherwise the
value is appended and the new position is returned. The result is the id and
the sequence after the call. -/
def intern {α : Type} (equals : α → α → Bool) (entries : List α) (value : α) :
    Int × List α :=
  match position equals value entries with
  | some i => (i, entries)
  | none => (entries.length, entries ++ [value])

/-- Modelled from the spec: `addFont` of the font list, declared in
xmlStyle.go, which is not among the sources (§4.4). -/
def addFont (fonts : List XLSXFont) (font : XLSXFont) : Int × List XLSXFont :=
  intern XLSXFont.Equals fonts font

/-- Modelled from the spec: `addFill` of the fill list, declared in
xmlStyle.go, which is not among the sources (§4.4). -/
def addFill (fills : List XLSXFill) (fill : XLSXFill) : Int × List XLSXFill :=
  intern XLSXFill.Equals fills fill

/-- Modelled from the spec: `addBorder` of the border list, declared in
xmlStyle.go, which is not among the sources (§4.4). -/
def addBorder (borders : List XLSXBorder) (border : XLSXBorder) : Int × List XLSXBorder :=
  intern XLSXBorder.Equals borders border

/-- Modelled from the spec: `addXf` of the lists of format records, declared in
xmlStyle.go, which is not among the sources (§4.4). -/
def addXf (xfs : List XLSXXf) (xf : XLSXXf) : Int × List XLSXXf :=
  intern XLSXXf.Equals xfs xf

/-! ### Number formats (spec §4.3) -/

/-- Modelled from the spec: the first id of a custom number format; spec §4.3
has the custom ids at 164 or above, the ids below are built in. -/
def firstCustomNumFmtId : Int := 164

/-- Modelled from the spec: `addNumFmt` of the style sheet, declared in
xmlStyle.go, which is not among the sources. Spec §4.3 names it the insertion
primitive of the custom number formats; the test `AddNumFmt` (l. 384-399)
shows what it takes: an entry with a built-in id (1, 14) and an entry whose id
is registered (165, the second time) leave `Count` as it is, each other entry
is appended and counted. -/
def XLSXStyleSheet.addNumFmt (styles : XLSXStyleSheet) (xNumFmt : XLSXNumFmt) :
    XLSXStyleSheet :=
  if xNumFmt.NumFmtId < firstCustomNumFmtId then styles
  else if styles.NumFmts.NumFmt.any (fun e => decide (e.NumFmtId = xNumFmt.NumFmtId)) then
    styles
  else
    { styles with
      NumFmts :=
        { Count := styles.NumFmts.Count + 1
          NumFmt := styles.NumFmts.NumFmt ++ [xNumFmt] } }

/-- Modelled from the spec: the lookup of a format code of §4.3, by exact
match of the code: the entry of the list with the code, the first one if
there are several. -/
def findFormatCode (entries : List XLSXNumFmt) (formatCode : GoString) : Option XLSXNumFmt :=
  entries.find? fun e => decide (e.FormatCode = formatCode)

/-- Modelled from the spec: the id of a new custom number format, spec §4.3:
max(164, previous-max-custom-id + 1), which is 164 where there is no custom
entry yet. -/
def nextNumFmtId (entries : List XLSXNumFmt) : Int :=
  match entries.map (fun e => e.NumFmtId) with
  | [] => firstCustomNumFmtId
  | id :: ids => max firstCustomNumFmtId (ids.foldl max id + 1)

/-- Modelled from the spec: `newNumFmt` of the style sheet, declared in
xmlStyle.go, which is not among the sources. Spec §4.3 `idFor`: the code is
looked up, by exact match, in the fixed table of the built-in codes and the
built-in id is returned if it matches; otherwise it is looked up in the custom
entries and the existing entry is returned if found; otherwise a new entry
with the next id is added through `addNumFmt`. The table of the built-in
codes is declared in xmlStyle.go as well and is taken as the parameter
`builtIn`. The result is the number format and the style sheet after the
call. -/
def XLSXStyleSheet.newNumFmt (builtIn : List XLSXNumFmt) (styles : XLSXStyleSheet)
    (formatCode : GoString) : XLSXNumFmt × XLSXStyleSheet :=
  match findFormatCode builtIn formatCode with
  | some b => ({ NumFmtId := b.NumFmtId, FormatCode := formatCode }, styles)
  | none =>
    match findFormatCode styles.NumFmts.NumFmt formatCode with
    | some e => (e, styles)
    | none =>
      let numFmt : XLSXNumFmt :=
        { NumFmtId := nextNumFmtId styles.NumFmts.NumFmt, FormatCode := formatCode }
      (numFmt, styles.addNumFmt numFmt)

/-- Modelled from the spec: the entries of the table of the built-in codes
that the specification names (§4.3): "0" is 1, "0.00e+00" is 11, "mm-dd-yy"
is 14. The table itself is declared in xmlStyle.go, which is not among the
sources. -/
def namedBuiltInNumFmts : List XLSXNumFmt :=
  [{ NumFmtId := 1, FormatCode := lit "0" },
   { NumFmtId := 11, FormatCode := lit "0.00e+00" },
   { NumFmtId := 14, FormatCode := lit "mm-dd-yy" }]

/-- The style sheet after `addNumFmt` of each entry of a list, in order. -/
def addNumFmts (styles : XLSXStyleSheet) (entries : List XLSXNumFmt) : XLSXStyleSheet :=
  entries.foldl XLSXStyleSheet.addNumFmt styles

/-- The style sheet after `newNumFmt` of each format code of a list, in
order. -/
def newNumFmts (builtIn : List XLSXNumFmt) (styles : XLSXStyleSheet)
    (formatCodes : List GoString) : XLSXStyleSheet :=
  formatCodes.foldl (fun s code => (s.newNumFmt builtIn code).2) styles

/-! ### Indexed colours (spec §4.6) -/

/-- Modelled from the spec: the fixed default of §4.6, the colour of an index
that the override palette does not answer. -/
def defaultIndexedColor : GoString := lit "FF000000"

/-- Modelled from the spec: `indexedColor` of `XLSXColors`, declared in
xmlStyle.go, which is not among the sources. Spec §4.6: the index is looked up
in the override palette if it is present and the index is in range; if the
palette is empty or the index is out of range, the result is the fixed default
"FF000000". The index counts the entries from 1: the test `TestIndexedColor`
(l. 18-21) has the palette of the one entry "00FF00FF" answer the index 1 with
that entry. The specification has the palette 0-based. -/
def XLSXColors.indexedColor (c : XLSXColors) (index : Int) : GoString :=
  match recordAt c.IndexedColors (index - 1) with
  | some color => color.Rgb
  | none => defaultIndexedColor

/-! ### The markup of a border (spec §6) -/

/-- Modelled from the spec: the element of one side of a border in the output
of `Marshal`, declared in xmlStyle.go, which is not among the sources. The
test `MarshalXLSXStyleSheetWithABorder` (l. 81-96) shows the two forms: a side
with a style is an element with the attribute `style`, a side with no style
is an empty element with no attribute. `color` gives the content of a side
with a style, which the tests do not show for a side that has a colour. -/
def XLSXLine.Marshal (color : XLSXColor → List xml.Token) (name : GoString)
    (line : XLSXLine) : List xml.Token :=
  if line.Style = [] then
    [.StartElement { Name := { Local := name } }, .EndElement { Local := name }]
  else
    [xml.Token.StartElement
      { Name := { Local := name }
        Attr := [{ Name := { Local := lit "style" }, Value := line.Style }] }] ++
    color line.Color ++
    [xml.Token.EndElement { Local := name }]

/-- Modelled from the spec: the element of a border in the output of
`Marshal`, declared in xmlStyle.go, which is not among the sources. Spec §6:
the four sides of a border are always all four emitted, even when a side has
no style; the test (l. 91) has them in the order left, right, top, bottom. -/
def XLSXBorder.Marshal (color : XLSXColor → List xml.Token) (border : XLSXBorder) :
    List xml.Token :=
  [xml.Token.StartElement { Name := { Local := lit "border" } }] ++
  XLSXLine.Marshal color (lit "left") border.Left ++
  XLSXLine.Marshal color (lit "right") border.Right ++
  XLSXLine.Marshal color (lit "top") border.Top ++
  XLSXLine.Marshal color (lit "bottom") border.Bottom ++
  [xml.Token.EndElement { Local := lit "border" }]

/-- Modelled from the spec: the content of the `borders` element in the output
of `Marshal`: the elements of the borders of the style sheet, in order (spec
§6). -/
def marshalBorders (color : XLSXColor → List xml.Token) : List XLSXBorder → List xml.Token
  | [] => []
  | border :: rest => border.Marshal color ++ marshalBorders color rest

/-! ## xmlWorkbook.go -/

/-- Type `XLSXSheet` (xmlWorkbook.go, l. 113): the attributes of a `sheet`
element of the workbook. -/
structure XLSXSheet where
  Name : GoString := []
  SheetId : GoString := []
  Id : GoString := []
  State : GoString := []
  deriving DecidableEq, Repr

/-- A Go `map[string]V` as it is read: the value stored under a key, `none`
for a key the map does not have. -/
abbrev GoMap (V : Type) : Type := GoString → Option V

/-- The index expression `m[key]` on a map of pointers: the pointer stored
under the key, and the zero value nil (`none`) for a key the map does not
have. -/
def GoMap.index {V : Type} (m : GoMap (Option V)) (key : GoString) : Option V :=
  (m key).getD none

/-- The local `sheetName` of `worksheetFileForSheet` at its return (l. 168-175):
the name `sheetXMLMap` has for `sheet.Id` if `sheet.Id` is a key of it;
otherwise `fmt.Sprintf("sheet%s", ...)` of `sheet.SheetId` if that is not
empty, else of `sheet.Id`. -/
def sheetNameForSheet (sheet : XLSXSheet) (sheetXMLMap : GoMap GoString) : GoString :=
  match sheetXMLMap sheet.Id with
  | some sheetName => sheetName
  | none =>
    if sheet.SheetId ≠ lit "" then lit "sheet" ++ sheet.SheetId
    else lit "sheet" ++ sheet.Id

/-- Function `worksheetFileForSheet` (xmlWorkbook.go, l. 167): the file of the
`worksheets` map for a sheet of the workbook, nil (`none`) if there is none.
`File` stands for `zip.File`. -/
def worksheetFileForSheet {File : Type} (sheet : XLSXSheet)
    (worksheets : GoMap (Option File)) (sheetXMLMap : GoMap GoString) : Option File :=
  worksheets.index (sheetNameForSheet sheet sheetXMLMap)

/-! ## Vocabulary of the statements -/

/-- The texts of the attributes named `val` with an empty namespace, the
attributes `UnmarshalXML` of a boolean property looks at (l. 82), in order. -/
def valAttrs (attrs : List xml.Attr) : List GoString :=
  attrs.filterMap fun a =>
    if a.Name.Space = lit "" ∧ a.Name.Local = lit "val" then some a.Value else none

/-- One of the four literals `true`, `1`, `false`, `0`. -/
def isBoolLiteral (v : GoString) : Bool :=
  v = lit "true" ∨ v = lit "1" ∨ v = lit "false" ∨ v = lit "0"

/-- The `switch` of `UnmarshalXML` (l. 84-93) run over attribute texts. -/
def scanVals : List GoString → Bool → Except GoError Bool
  | [], boolVal => .ok boolVal
  | v :: rest, _ =>
    if v = lit "true" ∨ v = lit "1" then scanVals rest true
    else if v = lit "false" ∨ v = lit "0" then scanVals rest false
    else .error (.New (invalidBoolMsg v))

/-- The bytes of one character in UTF-8. -/
def charBytes (c : Char) : GoString :=
  (String.utf8EncodeChar c).map UInt8.toNat

/-! ## Reading a content as markup -/

/-- The child elements of a content, in document order, each with its
start element and its own content. -/
def elements : List Node → List (xml.StartElement × List Node)
  | [] => []
  | .Element start content :: rest => (start, content) :: elements rest
  | _ :: rest => elements rest

/-- The child elements of a content with the given local name. -/
def named (name : GoString) (content : List Node) : List (xml.StartElement × List Node) :=
  (elements content).filter fun el => el.1.Name.Local = name

/-- The texts of the attributes of a start element with the given local name. -/
def attrValues (name : GoString) (start : xml.StartElement) : List GoString :=
  start.Attr.filterMap fun a => if a.Name.Local = name then some a.Value else none

/-! ## Vocabulary of the statements on styles -/

/-- What it is for an `add` function to intern idempotently under a
comparison. Adding a value that the comparison holds equal to an entry of the
list leaves the list as it is and returns the position of such an entry, the
first one; and adding a value a second time, to the list the first call left,
returns the same id and the same list as the first call. -/
def InternsIdempotently {α : Type} (equals : α → α → Bool)
    (add : List α → α → Int × List α) : Prop :=
  (∀ (entries : List α) (value : α), (∃ e ∈ entries, equals e value = true) →
    (add entries value).2 = entries ∧
    ∃ i : Nat, (add entries value).1 = (i : Int) ∧
      (∃ e, entries[i]? = some e ∧ equals e value = true) ∧
      ∀ j e, j < i → entries[j]? = some e → equals e value = false) ∧
  (∀ (entries : List α) (value : α),
    add (add entries value).2 value = add entries value ∧
    (add (add entries value).2 value).2.length = (add entries value).2.length)

/-- What it is for a list of tokens to be the element of one side of a border:
a start element and an end element of the name of the side around a content;
with a style the start element carries the attribute `style` and nothing
else, with no style the element is empty, with no attribute and no
content. -/
def IsSideElement (name : GoString) (line : XLSXLine) (toks : List xml.Token) : Prop :=
  ∃ (attrs : List xml.Attr) (content : List xml.Token),
    toks = [xml.Token.StartElement { Name := { Local := name }, Attr := attrs }] ++ content ++
      [xml.Token.EndElement { Local := name }] ∧
    (line.Style ≠ [] → attrs = [{ Name := { Local := lit "style" }, Value := line.Style }]) ∧
    (line.Style = [] → attrs = [] ∧ content = [])

/-- The decoding of the tokens written for a field of type `XLSXBoolProp`, as
the struct decoder of `encoding/xml` does it: with no element for the field
the field keeps its zero value; an element is handed to `UnmarshalXML`, with
the decoder placed behind the start element. The result is the field and the
tokens left, or the error of `UnmarshalXML`. -/
def decodeBoolField (toks : List xml.Token) (fail : GoString) :
    Except GoError (XLSXBoolProp × List xml.Token) :=
  match toks with
  | .StartElement start :: rest =>
    let r := XLSXBoolProp.UnmarshalXML {} { toks := rest, fail := fail } start
    match r.err with
    | some err => .error err
    | none => .ok (r.b, r.d.toks)
  | _ => .ok ({}, toks)

/-! ## Theorems -/

theorem getD_last_eq (s : GoString) (c : Nat) (h : s.getLast? = some c) :
    s.getD (s.length - 1) 0 = c := by
  rw [List.getLast?_eq_getElem?] at h
  rw [List.getD_eq_getElem?_getD, h]
  rfl

theorem ContainsRune_iff (s : GoString) (r : Nat) : ContainsRune s r = true ↔ r ∈ s := by
  simp only [ContainsRune, List.any_eq_true, beq_iff_eq]
  constructor
  · rintro ⟨x, hx, rfl⟩; exact hx
  · intro h; exact ⟨r, h, rfl⟩

/-- The rule of `needPreserve` on the bytes of a string. -/
theorem needPreserve_bytes (s : GoString) :
    needPreserve s = true ↔
      s ≠ [] ∧ ((∃ c, s.head? = some c ∧ c ≤ 32 ∧ c ≠ 9 ∧ c ≠ 13) ∨
        (∃ c, s.getLast? = some c ∧ c ≤ 32 ∧ c ≠ 9 ∧ c ≠ 13) ∨ 10 ∈ s) := by
  cases hs : s with
  | nil => simp [needPreserve]
  | cons a t =>
    obtain ⟨l, hl⟩ : ∃ l, (a :: t).getLast? = some l := by
      cases h : (a :: t).getLast? with
      | none => simp at h
      | some l => exact ⟨l, rfl⟩
    have h0 : (a :: t).getD 0 0 = a := by simp
    have h1 : (a :: t).getD ((a :: t).length - 1) 0 = l := getD_last_eq _ _ hl
    have hc : ContainsRune (a :: t) 10 = true ↔ 10 ∈ (a :: t) := ContainsRune_iff _ _
    unfold needPreserve
    rw [h0, h1]
    simp only [hl, List.head?_cons, Option.some.injEq]
    by_cases ha : a ≤ 32 ∧ a ≠ 9 ∧ a ≠ 13
    · simp [ha]
    · by_cases hl2 : l ≤ 32 ∧ l ≠ 9 ∧ l ≠ 13
      · simp [ha, hl2]
      · simp only [List.length_cons, Nat.add_one_ne_zero, if_false, ha, hl2, hc]
        constructor
        · intro h; exact ⟨by simp, Or.inr (Or.inr h)⟩
        · rintro ⟨_, h | h | h⟩
          · obtain ⟨c, rfl, hc⟩ := h; exact absurd hc ha
          · obtain ⟨c, rfl, hc⟩ := h; exact absurd hc hl2
          · exact h

set_option maxRecDepth 100000 in
theorem or_high_fin (m : UInt8) (hm : m = 0x80 ∨ m = 0xc0 ∨ m = 0xe0 ∨ m = 0xf0) :
    ∀ x : Fin 256, 128 ≤ (UInt8.mk (BitVec.ofFin x) ||| m).toNat := by
  rcases hm with rfl | rfl | rfl | rfl <;> decide

theorem or_high (x m : UInt8) (hm : m = 0x80 ∨ m = 0xc0 ∨ m = 0xe0 ∨ m = 0xf0) :
    128 ≤ (x ||| m).toNat := by
  cases x with
  | mk v =>
    cases v with
    | ofFin f => exact or_high_fin m hm f

/-- A character below 128 is its own single byte; every byte of another
character is 128 or more. -/
theorem charBytes_cases (c : Char) :
    (c.toNat < 128 ∧ charBytes c = [c.toNat]) ∨
    (128 ≤ c.toNat ∧ ∀ b ∈ charBytes c, 128 ≤ b) := by
  unfold charBytes String.utf8EncodeChar
  simp only
  by_cases h1 : c.val ≤ 0x7f
  · left
    have h2 : c.val.toNat ≤ 127 := h1
    have h3 : (c.val.toUInt8).toNat = c.toNat := by
      show c.val.toNat % 256 = c.val.toNat
      omega
    refine ⟨by show c.val.toNat < 128; omega, ?_⟩
    simp only [h1, if_true, List.map_cons, List.map_nil, h3]
  · right
    have h2 : ¬ c.val.toNat ≤ 127 := h1
    refine ⟨by show 128 ≤ c.val.toNat; omega, ?_⟩
    simp only [h1, if_false]
    split_ifs <;> simp [or_high]

theorem charBytes_ne_nil (c : Char) : charBytes c ≠ [] := by
  unfold charBytes String.utf8EncodeChar
  simp only
  split_ifs <;> simp

theorem lit_eq_flatMap (s : String) : lit s = s.data.flatMap charBytes := by
  unfold lit charBytes
  rw [List.map_flatMap]

theorem edge_byte_iff (c : Char) (pick : GoString → Option Nat)
    (hpick : ∀ l : GoString, l ≠ [] → ∃ b, pick l = some b ∧ b ∈ l) :
    (∃ b, pick (charBytes c) = some b ∧ b ≤ 32 ∧ b ≠ 9 ∧ b ≠ 13) ↔
      (c.toNat ≤ 32 ∧ c.toNat ≠ 9 ∧ c.toNat ≠ 13) := by
  obtain ⟨b0, hb0, hmem⟩ := hpick (charBytes c) (charBytes_ne_nil c)
  rcases charBytes_cases c with ⟨_, hc⟩ | ⟨hge, hall⟩
  · rw [hc] at hmem
    have : b0 = c.toNat := by simpa using hmem
    subst this
    constructor
    · rintro ⟨b, hb, h⟩
      rw [hb0] at hb
      cases hb
      exact h
    · intro h; exact ⟨_, hb0, h⟩
  · constructor
    · rintro ⟨b, hb, h, _⟩
      rw [hb0] at hb
      cases hb
      have := hall _ hmem
      omega
    · intro h; omega

/-- The rule of `needPreserve` on the characters of a text in UTF-8: a byte
of 32 or less is a character of its own. -/
theorem needPreserve_text (s : String) :
    needPreserve (lit s) = true ↔
      s.data ≠ [] ∧
      ((∃ c, s.data.head? = some c ∧ c.toNat ≤ 32 ∧ c.toNat ≠ 9 ∧ c.toNat ≠ 13) ∨
       (∃ c, s.data.getLast? = some c ∧ c.toNat ≤ 32 ∧ c.toNat ≠ 9 ∧ c.toNat ≠ 13) ∨
       Char.ofNat 10 ∈ s.data) := by
  rw [needPreserve_bytes, lit_eq_flatMap]
  have hnil : s.data.flatMap charBytes ≠ [] ↔ s.data ≠ [] := by
    cases s.data with
    | nil => simp
    | cons c cs => simp [List.flatMap_cons, charBytes_ne_nil]
  have hhead : (∃ b, (s.data.flatMap charBytes).head? = some b ∧ b ≤ 32 ∧ b ≠ 9 ∧ b ≠ 13) ↔
      (∃ c, s.data.head? = some c ∧ c.toNat ≤ 32 ∧ c.toNat ≠ 9 ∧ c.toNat ≠ 13) := by
    cases s.data with
    | nil => simp
    | cons c cs =>
      have h1 : ((c :: cs).flatMap charBytes).head? = (charBytes c).head? := by
        rw [List.flatMap_cons]
        cases h : charBytes c with
        | nil => exact absurd h (charBytes_ne_nil c)
        | cons b bs => rfl
      rw [h1, edge_byte_iff c List.head? (by
        intro l hl
        cases l with
        | nil => exact absurd rfl hl
        | cons b bs => exact ⟨b, rfl, List.mem_cons_self _ _⟩)]
      simp
  have hlast : (∃ b, (s.data.flatMap charBytes).getLast? = some b ∧ b ≤ 32 ∧ b ≠ 9 ∧ b ≠ 13) ↔
      (∃ c, s.data.getLast? = some c ∧ c.toNat ≤ 32 ∧ c.toNat ≠ 9 ∧ c.toNat ≠ 13) := by
    rcases List.eq_nil_or_concat s.data with h | ⟨cs, c, h⟩
    · rw [h]; simp
    · rw [h, List.concat_eq_append]
      have h1 : ((cs ++ [c]).flatMap charBytes).getLast? = (charBytes c).getLast? := by
        rw [List.flatMap_append]
        simp only [List.flatMap_cons, List.flatMap_nil, List.append_nil]
        rw [List.getLast?_append]
        cases hl : (charBytes c).getLast? with
        | none => exact absurd (List.getLast?_eq_none_iff.1 hl) (charBytes_ne_nil c)
        | some b => rfl
      rw [h1, edge_byte_iff c List.getLast? (by
        intro l hl
        cases hg : l.getLast? with
        | none => exact absurd (List.getLast?_eq_none_iff.1 hg) hl
        | some b => exact ⟨b, rfl, List.mem_of_getLast?_eq_some hg⟩)]
      simp
  have hlf : 10 ∈ s.data.flatMap charBytes ↔ Char.ofNat 10 ∈ s.data := by
    rw [List.mem_flatMap]
    constructor
    · rintro ⟨c, hc, h10⟩
      rcases charBytes_cases c with ⟨_, hb⟩ | ⟨_, hall⟩
      · rw [hb] at h10
        have h : c.toNat = 10 := by
          have := List.mem_singleton.1 h10
          exact this.symm
        have : c = Char.ofNat 10 := by
          apply Char.ext
          apply UInt32.ext
          exact h
        rwa [← this]
      · have := hall 10 h10
        omega
    · intro h
      exact ⟨Char.ofNat 10, h, by decide⟩
  rw [hnil, hhead, hlast, hlf]

/-- C1: `needPreserve s` is true exactly when `s` is not empty and its first
byte is a control or space byte (32 or less) other than tab (9) and carriage
return (13), or its last byte is one, or `s` contains a line feed (10). Read
on the characters of a text in UTF-8 the rule is the same, with the code of
the first and of the last character. The empty string needs no marker, nor
does a string without a line feed whose first and last byte are each a tab, a
carriage return or above 32. -/
theorem needPreserve_iff :
    (∀ s : GoString, needPreserve s = true ↔
      s ≠ [] ∧ ((∃ c, s.head? = some c ∧ c ≤ 32 ∧ c ≠ 9 ∧ c ≠ 13) ∨
        (∃ c, s.getLast? = some c ∧ c ≤ 32 ∧ c ≠ 9 ∧ c ≠ 13) ∨ 10 ∈ s)) ∧
    (∀ s : String, needPreserve (lit s) = true ↔
      s.data ≠ [] ∧
      ((∃ c, s.data.head? = some c ∧ c.toNat ≤ 32 ∧ c.toNat ≠ 9 ∧ c.toNat ≠ 13) ∨
       (∃ c, s.data.getLast? = some c ∧ c.toNat ≤ 32 ∧ c.toNat ≠ 9 ∧ c.toNat ≠ 13) ∨
       Char.ofNat 10 ∈ s.data)) ∧
    needPreserve (lit "") = false ∧
    (∀ s : GoString, 10 ∉ s →
      (∀ c, s.head? = some c → c = 9 ∨ c = 13 ∨ 32 < c) →
      (∀ c, s.getLast? = some c → c = 9 ∨ c = 13 ∨ 32 < c) →
      needPreserve s = false) := by
  refine ⟨needPreserve_bytes, needPreserve_text, by decide, ?_⟩
  intro s hlf hfirst hlast
  cases h : needPreserve s with
  | false => rfl
  | true =>
    exfalso
    obtain ⟨_, h1 | h1 | h1⟩ := (needPreserve_bytes s).1 h
    · obtain ⟨c, hc, h32, h9, h13⟩ := h1
      rcases hfirst c hc with h2 | h2 | h2 <;> omega
    · obtain ⟨c, hc, h32, h9, h13⟩ := h1
      rcases hlast c hc with h2 | h2 | h2 <;> omega
    · exact hlf h1

theorem scanAttrs_eq_scanVals (attrs : List xml.Attr) (bv : Bool) :
    XLSXBoolProp.scanAttrs attrs bv = scanVals (valAttrs attrs) bv := by
  induction attrs generalizing bv with
  | nil => rfl
  | cons a rest ih =>
    unfold XLSXBoolProp.scanAttrs valAttrs
    by_cases h : a.Name.Space = lit "" ∧ a.Name.Local = lit "val"
    · simp only [h, and_self, if_true, List.filterMap_cons, scanVals]
      split
      · exact ih _
      · split
        · exact ih _
        · rfl
    · simp only [h, if_false, List.filterMap_cons]
      exact ih _

/-- The tokens `XLSXT.MarshalXML` writes. -/
theorem XLSXT_MarshalXML_tokens (t : XLSXT) (e : xml.Encoder) (start : xml.StartElement) :
    XLSXT.MarshalXML t e start = .ok { toks := e.toks ++
      [.StartElement { Name := start.Name,
                       Attr := start.Attr ++ (if needPreserve t.Text then [preserveAttr] else []) },
       .CharData t.Text, .EndElement start.Name] } := by
  unfold XLSXT.MarshalXML
  cases h : needPreserve t.Text <;>
    simp [xml.Encoder.EncodeToken, bind, Except.bind, pure, Except.pure]

/-- C2: `XLSXT.MarshalXML` writes exactly three tokens: the start element,
the character data `t.Text` and the end element with the name of the start
element. The start element keeps its attributes, and `xml:space="preserve"`
is appended behind them exactly when `needPreserve t.Text` holds; otherwise
no attribute is added. -/
theorem XLSXT_MarshalXML_emits (t : XLSXT) (e : xml.Encoder) (start : xml.StartElement) :
    XLSXT.MarshalXML t e start = .ok { toks := e.toks ++
      [.StartElement { Name := start.Name,
                       Attr := start.Attr ++ (if needPreserve t.Text then [preserveAttr] else []) },
       .CharData t.Text, .EndElement start.Name] } ∧
    preserveAttr = { Name := { Space := lit "", Local := lit "xml:space" },
                     Value := lit "preserve" } ∧
    (needPreserve t.Text = false → XLSXT.MarshalXML t e start = .ok { toks := e.toks ++
      [.StartElement start, .CharData t.Text, .EndElement start.Name] }) :=
  ⟨XLSXT_MarshalXML_tokens t e start, rfl, fun h => by
    rw [XLSXT_MarshalXML_tokens, h]; simp⟩

/-- C5: `XLSXBoolProp.MarshalXML` writes no token for a false property, and
for a true one exactly the given start element followed by its end element:
an empty element, with no attribute added and no character data. -/
theorem XLSXBoolProp_MarshalXML_tokens (e : xml.Encoder) (start : xml.StartElement) :
    XLSXBoolProp.MarshalXML { Val := false } e start = .ok e ∧
    XLSXBoolProp.MarshalXML { Val := true } e start =
      .ok { toks := e.toks ++ [.StartElement start, .EndElement start.Name] } := by
  constructor <;>
    simp [XLSXBoolProp.MarshalXML, xml.Encoder.EncodeToken, bind, Except.bind, pure, Except.pure]

theorem scanVals_error (vs : List GoString) (bv : Bool) (v : GoString)
    (h : vs.find? (fun v => !isBoolLiteral v) = some v) :
    scanVals vs bv = .error (.New (invalidBoolMsg v)) := by
  induction vs generalizing bv with
  | nil => simp at h
  | cons w rest ih =>
    unfold scanVals
    by_cases h1 : w = lit "true" ∨ w = lit "1"
    · have hw : isBoolLiteral w = true := by
        rcases h1 with h1 | h1 <;> simp [isBoolLiteral, h1]
      simp only [h1, if_true]
      apply ih
      simpa [List.find?_cons, hw] using h
    · by_cases h2 : w = lit "false" ∨ w = lit "0"
      · have hw : isBoolLiteral w = true := by
          rcases h2 with h2 | h2 <;> simp [isBoolLiteral, h2]
        simp only [h1, h2, if_true, if_false]
        apply ih
        simpa [List.find?_cons, hw] using h
      · have hw : isBoolLiteral w = false := by
          simp only [not_or] at h1 h2
          simp [isBoolLiteral, h1.1, h1.2, h2.1, h2.2]
        simp only [h1, h2, if_false]
        simp [List.find?_cons, hw] at h
        rw [h]

theorem scanVals_ok (vs : List GoString) (bv : Bool)
    (h : ∀ v ∈ vs, isBoolLiteral v = true) :
    ∃ r, scanVals vs bv = .ok r := by
  induction vs generalizing bv with
  | nil => exact ⟨bv, rfl⟩
  | cons w rest ih =>
    have hw := h w (List.mem_cons_self _ _)
    have hr : ∀ v ∈ rest, isBoolLiteral v = true := fun v hv => h v (List.mem_cons_of_mem _ hv)
    unfold scanVals
    by_cases h1 : w = lit "true" ∨ w = lit "1"
    · simp only [h1, if_true]; exact ih _ hr
    · by_cases h2 : w = lit "false" ∨ w = lit "0"
      · simp only [h1, h2, if_true, if_false]; exact ih _ hr
      · simp only [not_or] at h1 h2
        simp [isBoolLiteral, h1.1, h1.2, h2.1, h2.2] at hw

theorem skipLoop_err (fail : GoString) (toks : List xml.Token) (depth : Nat) :
    (xml.Decoder.skipLoop fail toks depth).1 = none ∨
      (xml.Decoder.skipLoop fail toks depth).1 = some (.Token fail) := by
  induction toks generalizing depth with
  | nil => right; rfl
  | cons t rest ih =>
    cases t with
    | EndElement n =>
      cases depth with
      | zero => left; rfl
      | succ k => simpa [xml.Decoder.skipLoop] using ih k
    | StartElement s => simpa [xml.Decoder.skipLoop] using ih (depth + 1)
    | CharData c => simpa [xml.Decoder.skipLoop] using ih depth
    | Comment c => simpa [xml.Decoder.skipLoop] using ih depth
    | ProcInst a c => simpa [xml.Decoder.skipLoop] using ih depth
    | Directive c => simpa [xml.Decoder.skipLoop] using ih depth

/-- C3: `XLSXBoolProp.UnmarshalXML` on an element whose `val` attribute is
`true` or `1` sets the property to true; on one whose `val` attribute is
`false` or `0`, to false; on one with no `val` attribute, to true. The value
the property held before plays no part, and the method then returns what
`d.Skip()` returns. -/
theorem XLSXBoolProp_UnmarshalXML_value (b : XLSXBoolProp) (d : xml.Decoder)
    (start : xml.StartElement) :
    (∀ v, valAttrs start.Attr = [v] → (v = lit "true" ∨ v = lit "1") →
      XLSXBoolProp.UnmarshalXML b d start =
        { b := { Val := true }, d := d.Skip.2, err := d.Skip.1 }) ∧
    (∀ v, valAttrs start.Attr = [v] → (v = lit "false" ∨ v = lit "0") →
      XLSXBoolProp.UnmarshalXML b d start =
        { b := { Val := false }, d := d.Skip.2, err := d.Skip.1 }) ∧
    (valAttrs start.Attr = [] →
      XLSXBoolProp.UnmarshalXML b d start =
        { b := { Val := true }, d := d.Skip.2, err := d.Skip.1 }) := by
  have key : XLSXBoolProp.scanAttrs start.Attr true = scanVals (valAttrs start.Attr) true :=
    scanAttrs_eq_scanVals _ _
  refine ⟨?_, ?_, ?_⟩
  · intro v hv hlit
    simp [XLSXBoolProp.UnmarshalXML, key, hv, scanVals, hlit]
  · intro v hv hlit
    have hne : ¬ (v = lit "true" ∨ v = lit "1") := by
      rcases hlit with h | h <;> (subst h; decide)
    simp [XLSXBoolProp.UnmarshalXML, key, hv, scanVals, hlit, hne]
  · intro hv
    simp [XLSXBoolProp.UnmarshalXML, key, hv, scanVals]

/-- The error of `UnmarshalXML` names the first `val` attribute that is no
literal, and leaves the property and the decoder as they were. -/
theorem UnmarshalXML_first_invalid (b : XLSXBoolProp) (d : xml.Decoder)
    (start : xml.StartElement) (v : GoString)
    (h : (valAttrs start.Attr).find? (fun v => !isBoolLiteral v) = some v) :
    XLSXBoolProp.UnmarshalXML b d start =
      { b := b, d := d, err := some (.New (invalidBoolMsg v)) } := by
  have key : XLSXBoolProp.scanAttrs start.Attr true = scanVals (valAttrs start.Attr) true :=
    scanAttrs_eq_scanVals _ _
  simp [XLSXBoolProp.UnmarshalXML, key, scanVals_error _ true v h]

/-- C4: `XLSXBoolProp.UnmarshalXML` returns the error `Cannot unmarshal into
XLSXBoolProp` exactly when the element has a `val` attribute whose text is
none of `true`, `1`, `false`, `0`; the message then holds the text of the
first such attribute between double quotes, and the property and the decoder
are left as they were. The comparison is exact: `val` attributes with the
texts `TRUE`, `True`, a padded ` true` and the empty text all give the error. -/
theorem XLSXBoolProp_UnmarshalXML_error (b : XLSXBoolProp) (d : xml.Decoder)
    (start : xml.StartElement) :
    ((∃ v, (XLSXBoolProp.UnmarshalXML b d start).err = some (.New
        (lit "Cannot unmarshal into XLSXBoolProp: " ++ [34] ++ v ++ [34] ++
          lit " is not a valid boolean value"))) ↔
      ∃ v ∈ valAttrs start.Attr,
        v ≠ lit "true" ∧ v ≠ lit "1" ∧ v ≠ lit "false" ∧ v ≠ lit "0") ∧
    (∀ v, (valAttrs start.Attr).find? (fun v => !isBoolLiteral v) = some v →
      XLSXBoolProp.UnmarshalXML b d start =
        { b := b, d := d, err := some (.New
            (lit "Cannot unmarshal into XLSXBoolProp: " ++ [34] ++ v ++ [34] ++
              lit " is not a valid boolean value")) }) ∧
    (∀ v ∈ [lit "TRUE", lit "True", lit " true", lit ""],
      XLSXBoolProp.UnmarshalXML b d
          { Name := start.Name, Attr := [{ Name := { Local := lit "val" }, Value := v }] } =
        { b := b, d := d, err := some (.New
            (lit "Cannot unmarshal into XLSXBoolProp: " ++ [34] ++ v ++ [34] ++
              lit " is not a valid boolean value")) }) := by
  have key : XLSXBoolProp.scanAttrs start.Attr true = scanVals (valAttrs start.Attr) true :=
    scanAttrs_eq_scanVals _ _
  have second := UnmarshalXML_first_invalid b d start
  refine ⟨⟨?_, ?_⟩, second, ?_⟩
  · rintro ⟨v, hv⟩
    by_cases hall : ∀ w ∈ valAttrs start.Attr, isBoolLiteral w = true
    · obtain ⟨r, hr⟩ := scanVals_ok (valAttrs start.Attr) true hall
      simp only [XLSXBoolProp.UnmarshalXML, key, hr, xml.Decoder.Skip] at hv
      rcases skipLoop_err d.fail d.toks 0 with h | h <;> simp [h] at hv
    · simp only [not_forall] at hall
      obtain ⟨w, hw, hlit⟩ := hall
      refine ⟨w, hw, ?_⟩
      simp only [isBoolLiteral, Bool.not_eq_true, decide_eq_false_iff_not, not_or] at hlit
      exact hlit
  · rintro ⟨w, hw, h1, h2, h3, h4⟩
    have hlit : (!isBoolLiteral w) = true := by simp [isBoolLiteral, h1, h2, h3, h4]
    cases hf : (valAttrs start.Attr).find? (fun v => !isBoolLiteral v) with
    | none =>
      rw [List.find?_eq_none] at hf
      exact absurd hlit (hf w hw)
    | some v => exact ⟨v, by rw [second v hf]; rfl⟩
  · intro v hv
    simp only [List.mem_cons, List.mem_singleton, List.not_mem_nil, or_false] at hv
    rcases hv with rfl | rfl | rfl | rfl <;>
      exact UnmarshalXML_first_invalid b d _ _ (by rfl)

theorem readContent_tokens (n : Node) :
    ∀ (rest : List xml.Token) (stack : List (xml.StartElement × List Node)) (acc : List Node),
      readContent (n.tokens ++ rest) stack acc = readContent rest stack (n :: acc) := by
  induction n using Node.rec
    (motive_2 := fun ns => ∀ (rest : List xml.Token)
      (stack : List (xml.StartElement × List Node)) (acc : List Node),
      readContent (Node.tokensList ns ++ rest) stack acc =
        readContent rest stack (ns.reverse ++ acc)) with
  | Element start content ih =>
    intro rest stack acc
    have h : (Node.Element start content).tokens ++ rest =
        .StartElement start :: (Node.tokensList content ++ (.EndElement start.Name :: rest)) := by
      simp [Node.tokens]
    rw [h, readContent, ih]
    simp [readContent]
  | CharData data => intro rest stack acc; simp [Node.tokens, readContent]
  | Comment data => intro rest stack acc; simp [Node.tokens, readContent]
  | ProcInst target inst => intro rest stack acc; simp [Node.tokens, readContent]
  | Directive data => intro rest stack acc; simp [Node.tokens, readContent]
  | nil => simp [Node.tokensList]
  | cons n ns ihn ihns =>
    simp only [Node.tokensList, List.append_assoc]
    rw [ihn, ihns]
    simp

theorem readContent_tokensList (ns : List Node) (rest : List xml.Token)
    (stack : List (xml.StartElement × List Node)) (acc : List Node) :
    readContent (Node.tokensList ns ++ rest) stack acc =
      readContent rest stack (ns.reverse ++ acc) := by
  induction ns generalizing acc with
  | nil => simp [Node.tokensList]
  | cons n ns ih =>
    simp only [Node.tokensList, List.append_assoc]
    rw [readContent_tokens, ih]
    simp

/-- A decoder placed behind a start element delivers the content of the
element and stops behind its end element. -/
theorem content_tokensList (ns : List Node) (name : xml.Name) (rest : List xml.Token)
    (fail : GoString) :
    xml.Decoder.content { toks := Node.tokensList ns ++ .EndElement name :: rest, fail := fail } =
      .ok (ns, { toks := rest, fail := fail }) := by
  simp [xml.Decoder.content, readContent_tokensList, readContent]

theorem skipLoop_tokens (fail : GoString) (n : Node) :
    ∀ (rest : List xml.Token) (depth : Nat),
      xml.Decoder.skipLoop fail (n.tokens ++ rest) depth =
        xml.Decoder.skipLoop fail rest depth := by
  induction n using Node.rec
    (motive_2 := fun ns => ∀ (rest : List xml.Token) (depth : Nat),
      xml.Decoder.skipLoop fail (Node.tokensList ns ++ rest) depth =
        xml.Decoder.skipLoop fail rest depth) with
  | Element start content ih =>
    intro rest depth
    have h : (Node.Element start content).tokens ++ rest =
        .StartElement start :: (Node.tokensList content ++ (.EndElement start.Name :: rest)) := by
      simp [Node.tokens]
    rw [h, xml.Decoder.skipLoop, ih]
    simp [xml.Decoder.skipLoop]
  | CharData data => intro rest depth; simp [Node.tokens, xml.Decoder.skipLoop]
  | Comment data => intro rest depth; simp [Node.tokens, xml.Decoder.skipLoop]
  | ProcInst target inst => intro rest depth; simp [Node.tokens, xml.Decoder.skipLoop]
  | Directive data => intro rest depth; simp [Node.tokens, xml.Decoder.skipLoop]
  | nil => simp [Node.tokensList]
  | cons n ns ihn ihns =>
    simp only [Node.tokensList, List.append_assoc]
    rw [ihn, ihns]

theorem skipLoop_tokensList (fail : GoString) (ns : List Node) (rest : List xml.Token)
    (depth : Nat) :
    xml.Decoder.skipLoop fail (Node.tokensList ns ++ rest) depth =
      xml.Decoder.skipLoop fail rest depth := by
  induction ns with
  | nil => simp [Node.tokensList]
  | cons n ns ih =>
    simp only [Node.tokensList, List.append_assoc]
    rw [skipLoop_tokens, ih]

/-- `Skip` behind a start element consumes the element to its end. -/
theorem Skip_tokensList (ns : List Node) (name : xml.Name) (rest : List xml.Token)
    (fail : GoString) :
    xml.Decoder.Skip { toks := Node.tokensList ns ++ .EndElement name :: rest, fail := fail } =
      (none, { toks := rest, fail := fail }) := by
  simp [xml.Decoder.Skip, skipLoop_tokensList, xml.Decoder.skipLoop]

/-- The call of `UnmarshalXML` by the decoder on a boolean property yields what
the attribute loop yields: `Skip` consumes the element. -/
theorem unmarshalInterface_eq (b : XLSXBoolProp) (start : xml.StartElement)
    (content : List Node) :
    unmarshalInterface b start content =
      (XLSXBoolProp.scanAttrs start.Attr true).map fun v => { Val := v } := by
  unfold unmarshalInterface XLSXBoolProp.UnmarshalXML
  cases h : XLSXBoolProp.scanAttrs start.Attr true with
  | error err => rfl
  | ok v =>
    have hs := Skip_tokensList content start.Name [] (lit "EOF")
    simp only [hs]
    rfl

theorem chardata_append (a b : List Node) : chardata (a ++ b) = chardata a ++ chardata b := by
  induction a with
  | nil => rfl
  | cons n a ih => cases n <;> simp [chardata, ih]

theorem chardata_map (chunks : List GoString) :
    chardata (chunks.map Node.CharData) = chunks.flatten := by
  induction chunks with
  | nil => rfl
  | cons c cs ih => simp [chardata, ih]

theorem tokensList_chardata (chunks : List GoString) :
    Node.tokensList (chunks.map Node.CharData) = chunks.map xml.Token.CharData := by
  induction chunks with
  | nil => rfl
  | cons c cs ih => simp [Node.tokensList, Node.tokens, ih]

/-- At the token interface the text of an `XLSXT` comes back, whatever the
text: the tokens `XLSXT.MarshalXML` wrote, handed to a decoder as they were
written, decode to the text, and so does the text behind any start element,
in front of any end element and in any split of the character data into
tokens, the attributes playing no part in decoding. What the markup between
encoder and decoder does to the character data is not in this statement. -/
theorem XLSXT_roundtrip_tokens (t : XLSXT) (e : xml.Encoder) (start : xml.StartElement)
    (t0 : XLSXT) (fail : GoString) :
    (∃ e1, XLSXT.MarshalXML t e start = .ok e1 ∧
      XLSXT.Decode t0 { toks := e1.toks.drop e.toks.length, fail := fail } =
        .ok (t, { toks := [], fail := fail })) ∧
    (∀ (start1 : xml.StartElement) (name1 : xml.Name) (chunks : List GoString)
        (rest : List xml.Token), chunks.flatten = t.Text →
      XLSXT.DecodeElement t0
          { toks := chunks.map xml.Token.CharData ++ .EndElement name1 :: rest, fail := fail }
          start1 =
        .ok (t, { toks := rest, fail := fail })) := by
  have second : ∀ (start1 : xml.StartElement) (name1 : xml.Name) (chunks : List GoString)
      (rest : List xml.Token), chunks.flatten = t.Text →
      XLSXT.DecodeElement t0
          { toks := chunks.map xml.Token.CharData ++ .EndElement name1 :: rest, fail := fail }
          start1 =
        .ok (t, { toks := rest, fail := fail }) := by
    intro start1 name1 chunks rest h
    unfold XLSXT.DecodeElement
    rw [← tokensList_chardata, content_tokensList]
    simp [XLSXT.unmarshal, chardata_map, h, Except.map]
  refine ⟨?_, second⟩
  refine ⟨_, XLSXT_MarshalXML_tokens t e start, ?_⟩
  have h := second
    ⟨start.Name, start.Attr ++ (if needPreserve t.Text then [preserveAttr] else [])⟩
    start.Name [t.Text] [] (by simp)
  simpa [XLSXT.Decode] using h

/-- The token loop of a struct sees the child elements only. -/
theorem unmarshalChildren_elements {α : Type}
    (child : α → xml.StartElement → List Node → Except GoError α) (content : List Node) :
    ∀ v : α, unmarshalChildren child v content =
      unmarshalChildren child v ((elements content).map fun el => Node.Element el.1 el.2) := by
  induction content with
  | nil => intro v; rfl
  | cons n rest ih =>
    intro v
    cases n with
    | Element start content =>
      simp only [elements, List.map_cons, unmarshalChildren]
      cases child v start content with
      | error err => rfl
      | ok w => exact ih w
    | CharData data => simpa [elements, unmarshalChildren] using ih v
    | Comment data => simpa [elements, unmarshalChildren] using ih v
    | ProcInst target inst => simpa [elements, unmarshalChildren] using ih v
    | Directive data => simpa [elements, unmarshalChildren] using ih v

/-- Child elements that no field takes drop out of the token loop. -/
theorem unmarshalChildren_filter {α : Type}
    (child : α → xml.StartElement → List Node → Except GoError α)
    (keep : xml.StartElement × List Node → Bool)
    (hskip : ∀ v el, keep el = false → child v el.1 el.2 = .ok v)
    (els : List (xml.StartElement × List Node)) :
    ∀ v : α, unmarshalChildren child v (els.map fun el => Node.Element el.1 el.2) =
      unmarshalChildren child v ((els.filter keep).map fun el => Node.Element el.1 el.2) := by
  induction els with
  | nil => intro v; rfl
  | cons el rest ih =>
    intro v
    cases hk : keep el with
    | false =>
      simp only [List.map_cons, unmarshalChildren, hskip v el hk, List.filter_cons, hk]
      exact ih v
    | true =>
      simp only [List.map_cons, unmarshalChildren, List.filter_cons, hk, if_true]
      cases child v el.1 el.2 with
      | error err => rfl
      | ok w => exact ih w

theorem filter_or_of_right_nil {α : Type} (a b : α → Bool) (l : List α)
    (hb : l.filter b = []) : l.filter (fun x => a x || b x) = l.filter a := by
  apply List.filter_congr
  intro x hx
  have : b x = false := by
    cases h : b x with
    | false => rfl
    | true => exact absurd (List.mem_filter.2 ⟨hx, h⟩) (by simp [hb])
  simp [this]

theorem filter_or_of_left_nil {α : Type} (a b : α → Bool) (l : List α)
    (ha : l.filter a = []) : l.filter (fun x => a x || b x) = l.filter b := by
  apply List.filter_congr
  intro x hx
  have : a x = false := by
    cases h : a x with
    | false => rfl
    | true => exact absurd (List.mem_filter.2 ⟨hx, h⟩) (by simp [ha])
  simp [this]

theorem filter_or_two {α : Type} (a b : α → Bool) (hdisj : ∀ x, a x = true → b x = false)
    (l : List α) (x y : α) (ha : l.filter a = [x]) (hb : l.filter b = [y]) :
    l.filter (fun z => a z || b z) = [x, y] ∨ l.filter (fun z => a z || b z) = [y, x] := by
  induction l with
  | nil => simp at ha
  | cons z rest ih =>
    cases haz : a z with
    | true =>
      have hbz : b z = false := hdisj z haz
      simp only [List.filter_cons, haz, hbz, if_true, List.cons.injEq, Bool.false_eq_true,
        if_false] at ha hb
      obtain ⟨rfl, ha⟩ := ha
      left
      simp [List.filter_cons, haz, filter_or_of_left_nil a b rest ha, hb]
    | false =>
      cases hbz : b z with
      | true =>
        simp only [List.filter_cons, haz, hbz, if_true, List.cons.injEq, Bool.false_eq_true,
          if_false] at ha hb
        obtain ⟨rfl, hb⟩ := hb
        right
        simp [List.filter_cons, haz, hbz, filter_or_of_right_nil a b rest hb, ha]
      | false =>
        simp only [List.filter_cons, haz, hbz] at ha hb
        simpa [List.filter_cons, haz, hbz] using ih ha hb

theorem XLSXSI_unmarshal_runs (conv : Strconv) (runs : List (xml.StartElement × List Node))
    (out : List XLSXR)
    (hname : ∀ r ∈ runs, r.1.Name.Local = lit "r")
    (hout : List.Forall₂ (fun r o => XLSXR.unmarshal conv {} r.1 r.2 = .ok o) runs out) :
    ∀ si : XLSXSI, unmarshalChildren (XLSXSI.child conv) si
        (runs.map fun el => Node.Element el.1 el.2) = .ok { si with R := si.R ++ out } := by
  induction hout with
  | nil => intro si; simp [unmarshalChildren]
  | @cons r o runs out hr _ ih =>
    intro si
    have hn : r.1.Name.Local = lit "r" := hname r (List.mem_cons_self _ _)
    have hnt : ¬ (lit "r" = lit "t") := by decide
    simp only [List.map_cons, unmarshalChildren, XLSXSI.child, hn, hnt, if_true, if_false, hr,
      Except.map]
    rw [ih (fun r hr => hname r (List.mem_cons_of_mem _ hr))]
    simp

theorem XLSXSI_child_skip (conv : Strconv) (si : XLSXSI) (el : xml.StartElement × List Node)
    (h : (decide (el.1.Name.Local = lit "t") || decide (el.1.Name.Local = lit "r")) = false) :
    XLSXSI.child conv si el.1 el.2 = .ok si := by
  simp only [Bool.or_eq_false_iff, decide_eq_false_iff_not] at h
  simp [XLSXSI.child, h.1, h.2]

theorem XLSXR_child_skip (conv : Strconv) (r : XLSXR) (el : xml.StartElement × List Node)
    (h : (decide (el.1.Name.Local = lit "rPr") || decide (el.1.Name.Local = lit "t")) = false) :
    XLSXR.child conv r el.1 el.2 = .ok r := by
  simp only [Bool.or_eq_false_iff, decide_eq_false_iff_not] at h
  simp [XLSXR.child, h.1, h.2]

/-- C7: decoding keeps the shape of a shared-string entry. An `si` element
with one `t` child and no `r` child decodes to `T` holding the text and `R`
empty; one with `r` children and no `t` child decodes to `T` nil and `R`
holding the decoded runs, one for each `r` child, in document order. A run
with no `rPr` child decodes to `RPr` nil and the text of its `t` child; a run
with an `rPr` child decodes to those run properties and the text. -/
theorem XLSXSI_unmarshal_shape (conv : Strconv) :
    (∀ start content tstart tcontent,
      named (lit "t") content = [(tstart, tcontent)] → named (lit "r") content = [] →
      XLSXSI.unmarshal conv {} start content =
        .ok { T := some { Text := chardata tcontent }, R := [] }) ∧
    (∀ start content out,
      named (lit "t") content = [] → named (lit "r") content ≠ [] →
      List.Forall₂ (fun r o => XLSXR.unmarshal conv {} r.1 r.2 = .ok o)
        (named (lit "r") content) out →
      XLSXSI.unmarshal conv {} start content = .ok { T := none, R := out } ∧
        out.length = (named (lit "r") content).length) ∧
    (∀ start content tstart tcontent,
      named (lit "rPr") content = [] → named (lit "t") content = [(tstart, tcontent)] →
      XLSXR.unmarshal conv {} start content =
        .ok { RPr := none, T := { Text := chardata tcontent } }) ∧
    (∀ start content pstart pcontent tstart tcontent p,
      named (lit "rPr") content = [(pstart, pcontent)] →
      named (lit "t") content = [(tstart, tcontent)] →
      XLSXRunProperties.unmarshal conv {} pstart pcontent = .ok p →
      XLSXR.unmarshal conv {} start content =
        .ok { RPr := some p, T := { Text := chardata tcontent } }) := by
  have hrt : ¬ (lit "r" = lit "t") := by decide
  have htp : ¬ (lit "t" = lit "rPr") := by decide
  refine ⟨?_, ?_, ?_, ?_⟩
  · intro start content tstart tcontent ht hr
    have hname : tstart.Name.Local = lit "t" := by
      have := List.mem_filter.1 (by rw [named] at ht; rw [ht]; exact List.mem_singleton.2 rfl :
        (tstart, tcontent) ∈ (elements content).filter _)
      simpa using this.2
    unfold XLSXSI.unmarshal
    rw [unmarshalChildren_elements,
      unmarshalChildren_filter _ _ (fun v el h => XLSXSI_child_skip conv v el h),
      filter_or_of_right_nil _ _ _ hr]
    unfold named at ht
    rw [ht]
    simp [unmarshalChildren, XLSXSI.child, hname, XLSXT.unmarshal, Except.map]
  · intro start content out ht _ hout
    refine ⟨?_, hout.length_eq.symm⟩
    have hname : ∀ r ∈ named (lit "r") content, r.1.Name.Local = lit "r" := by
      intro r hr
      simpa using (List.mem_filter.1 hr).2
    unfold XLSXSI.unmarshal
    rw [unmarshalChildren_elements,
      unmarshalChildren_filter _ _ (fun v el h => XLSXSI_child_skip conv v el h),
      filter_or_of_left_nil _ _ _ ht]
    have := XLSXSI_unmarshal_runs conv _ out hname hout {}
    unfold named at this
    rw [this]
    simp
  · intro start content tstart tcontent hp ht
    have hname : tstart.Name.Local = lit "t" := by
      have := List.mem_filter.1 (by rw [named] at ht; rw [ht]; exact List.mem_singleton.2 rfl :
        (tstart, tcontent) ∈ (elements content).filter _)
      simpa using this.2
    unfold XLSXR.unmarshal
    rw [unmarshalChildren_elements,
      unmarshalChildren_filter _ _ (fun v el h => XLSXR_child_skip conv v el h),
      filter_or_of_left_nil _ _ _ hp]
    unfold named at ht
    rw [ht]
    simp [unmarshalChildren, XLSXR.child, hname, htp, XLSXT.unmarshal, Except.map]
  · intro start content pstart pcontent tstart tcontent p hp ht hdec
    have hnamet : tstart.Name.Local = lit "t" := by
      have := List.mem_filter.1 (by rw [named] at ht; rw [ht]; exact List.mem_singleton.2 rfl :
        (tstart, tcontent) ∈ (elements content).filter _)
      simpa using this.2
    have hnamep : pstart.Name.Local = lit "rPr" := by
      have := List.mem_filter.1 (by rw [named] at hp; rw [hp]; exact List.mem_singleton.2 rfl :
        (pstart, pcontent) ∈ (elements content).filter _)
      simpa using this.2
    unfold XLSXR.unmarshal
    rw [unmarshalChildren_elements,
      unmarshalChildren_filter _ _ (fun v el h => XLSXR_child_skip conv v el h)]
    unfold named at hp ht
    have hdisj : ∀ el : xml.StartElement × List Node,
        decide (el.1.Name.Local = lit "rPr") = true → decide (el.1.Name.Local = lit "t") = false := by
      intro el h
      simp only [decide_eq_true_eq] at h
      simp only [h, decide_eq_false_iff_not]
      decide
    rcases filter_or_two _ _ hdisj _ _ _ hp ht with h | h <;> rw [h] <;>
      simp [unmarshalChildren, XLSXR.child, hnamet, hnamep, htp, XLSXT.unmarshal, Except.map,
        hdec]

/-- The fifth entry of the test document: five runs, no bare text. -/
theorem XLSXSI_unmarshal_shape_witness :
    XLSXSI.unmarshal testConv {} { Name := { Space := mainNamespace, Local := lit "si" } }
        richEntryXML = .ok { T := none, R := richEntryExpected } ∧
      richEntryExpected.length = (named (lit "r") richEntryXML).length :=
  (XLSXSI_unmarshal_shape testConv).2.1
    { Name := { Space := mainNamespace, Local := lit "si" } } richEntryXML richEntryExpected
    (by rfl) (List.ne_nil_of_length_pos (by decide))
    (.cons rfl (.cons rfl (.cons rfl (.cons rfl (.cons rfl .nil)))))

theorem map_ok {α β : Type} {f : α → β} {x : Except GoError α} {y : β}
    (h : Except.map f x = .ok y) : ∃ v, x = .ok v ∧ f v = y := by
  cases x with
  | error err => simp [Except.map] at h
  | ok v => exact ⟨v, rfl, by simpa [Except.map] using h⟩

/-- A field that only the child elements named `name` touch keeps its value
when there is no such child. -/
theorem children_absent {α β : Type}
    (child : α → xml.StartElement → List Node → Except GoError α) (get : α → β)
    (name : GoString)
    (frame : ∀ q s c q1, s.Name.Local ≠ name → child q s c = .ok q1 → get q1 = get q)
    (content : List Node) :
    ∀ q p, unmarshalChildren child q content = .ok p → named name content = [] →
      get p = get q := by
  induction content with
  | nil => intro q p h _; simp only [unmarshalChildren, Except.ok.injEq] at h; rw [h]
  | cons n rest ih =>
    intro q p h hn
    cases n with
    | Element s c =>
      simp only [unmarshalChildren] at h
      have hne : s.Name.Local ≠ name := by
        intro heq
        simp [named, elements, List.filter_cons, heq] at hn
      have hrest : named name rest = [] := by
        simpa [named, elements, List.filter_cons, hne] using hn
      cases hc : child q s c with
      | error err => simp [hc] at h
      | ok q1 =>
        simp only [hc] at h
        rw [ih q1 p h hrest, frame q s c q1 hne hc]
    | CharData d => exact ih q p (by simpa [unmarshalChildren] using h) (by simpa [named, elements] using hn)
    | Comment d => exact ih q p (by simpa [unmarshalChildren] using h) (by simpa [named, elements] using hn)
    | ProcInst t i => exact ih q p (by simpa [unmarshalChildren] using h) (by simpa [named, elements] using hn)
    | Directive d => exact ih q p (by simpa [unmarshalChildren] using h) (by simpa [named, elements] using hn)

/-- A field that only the child elements named `name` touch holds, when
there is one such child, what that child makes of the first value of the
field. -/
theorem children_single {α β : Type}
    (child : α → xml.StartElement → List Node → Except GoError α) (get : α → β)
    (name : GoString) (R : β → xml.StartElement → List Node → β → Prop)
    (frame : ∀ q s c q1, s.Name.Local ≠ name → child q s c = .ok q1 → get q1 = get q)
    (hit : ∀ q s c q1, s.Name.Local = name → child q s c = .ok q1 → R (get q) s c (get q1))
    (content : List Node) :
    ∀ q p s c, unmarshalChildren child q content = .ok p → named name content = [(s, c)] →
      R (get q) s c (get p) := by
  induction content with
  | nil => intro q p s c _ hn; simp [named, elements] at hn
  | cons n rest ih =>
    intro q p s c h hn
    cases n with
    | Element s1 c1 =>
      simp only [unmarshalChildren] at h
      cases hc : child q s1 c1 with
      | error err => simp [hc] at h
      | ok q1 =>
        simp only [hc] at h
        by_cases heq : s1.Name.Local = name
        · simp only [named, elements, List.filter_cons, heq, decide_True, if_true,
            List.cons.injEq, Prod.mk.injEq] at hn
          obtain ⟨⟨rfl, rfl⟩, hrest⟩ := hn
          have := children_absent child get name frame rest q1 p h hrest
          rw [this]
          exact hit q s1 c1 q1 heq hc
        · have hrest : named name rest = [(s, c)] := by
            simpa [named, elements, List.filter_cons, heq] using hn
          have := ih q1 p s c h hrest
          rwa [frame q s1 c1 q1 heq hc] at this
    | CharData d => exact ih q p s c (by simpa [unmarshalChildren] using h) (by simpa [named, elements] using hn)
    | Comment d => exact ih q p s c (by simpa [unmarshalChildren] using h) (by simpa [named, elements] using hn)
    | ProcInst t i => exact ih q p s c (by simpa [unmarshalChildren] using h) (by simpa [named, elements] using hn)
    | Directive d => exact ih q p s c (by simpa [unmarshalChildren] using h) (by simpa [named, elements] using hn)

/-- The attribute loop, for a field that only the attributes named `name`
touch, when there is one such attribute. -/
theorem attrs_single {α β : Type} (field : α → xml.Attr → Except GoError α) (get : α → β)
    (name : GoString) (R : GoString → β → Prop)
    (frame : ∀ q a q1, a.Name.Local ≠ name → field q a = .ok q1 → get q1 = get q)
    (hit : ∀ q a q1, a.Name.Local = name → field q a = .ok q1 → R a.Value (get q1))
    (attrs : List xml.Attr) :
    ∀ q p x, unmarshalAttrs field q attrs = .ok p →
      (attrs.filterMap fun a => if a.Name.Local = name then some a.Value else none) = [x] →
      R x (get p) := by
  induction attrs with
  | nil => intro q p x _ hn; simp at hn
  | cons a rest ih =>
    intro q p x h hn
    simp only [unmarshalAttrs] at h
    cases hc : field q a with
    | error err => simp [hc] at h
    | ok q1 =>
      simp only [hc] at h
      by_cases heq : a.Name.Local = name
      · simp only [List.filterMap_cons, heq, if_true, List.cons.injEq] at hn
        obtain ⟨rfl, hrest⟩ := hn
        have hkeep : ∀ (l : List xml.Attr) (u v : α), unmarshalAttrs field u l = .ok v →
            (l.filterMap fun a => if a.Name.Local = name then some a.Value else none) = [] →
            get v = get u := by
          intro l
          induction l with
          | nil => intro u v hu _; simp only [unmarshalAttrs, Except.ok.injEq] at hu; rw [hu]
          | cons b l ihl =>
            intro u v hu hl
            simp only [unmarshalAttrs] at hu
            have hb : b.Name.Local ≠ name := by
              intro hb; simp [List.filterMap_cons, hb] at hl
            cases hf : field u b with
            | error err => simp [hf] at hu
            | ok u1 =>
              simp only [hf] at hu
              rw [ihl u1 v hu (by simpa [List.filterMap_cons, hb] using hl), frame u b u1 hb hf]
        rw [hkeep rest q1 p h hrest]
        exact hit q a q1 heq hc
      · exact ih q1 p x h (by simpa [List.filterMap_cons, heq] using hn)

theorem XLSXVal_unmarshal_val (v0 v : XLSXVal) (s : xml.StartElement) (c : List Node)
    (x : GoString) (h : XLSXVal.unmarshal v0 s c = .ok v) (hx : attrValues (lit "val") s = [x]) :
    v = { Val := x } := by
  have := attrs_single XLSXVal.attr (fun v => v.Val) (lit "val") (fun x val => val = x)
    (by
      intro q a q1 hne h
      simp only [XLSXVal.attr, hne, if_false, Except.ok.injEq] at h
      rw [← h])
    (by
      intro q a q1 heq h
      simp only [XLSXVal.attr, heq, if_true, Except.ok.injEq] at h
      rw [← h])
    s.Attr v0 v x h hx
  cases v
  simpa using this

theorem XLSXIntVal_unmarshal_val (conv : Strconv) (v0 v : XLSXIntVal) (s : xml.StartElement)
    (c : List Node) (x : GoString) (h : XLSXIntVal.unmarshal conv v0 s c = .ok v)
    (hx : attrValues (lit "val") s = [x]) :
    ∃ n, conv.copyInt x = .ok n ∧ v = { Val := n } := by
  have := attrs_single (XLSXIntVal.attr conv) (fun v => v.Val) (lit "val")
    (fun x val => conv.copyInt x = .ok val)
    (by
      intro q a q1 hne h
      simp only [XLSXIntVal.attr, hne, if_false, Except.ok.injEq] at h
      rw [← h])
    (by
      intro q a q1 heq h
      simp only [XLSXIntVal.attr, heq, if_true] at h
      obtain ⟨n, hn, rfl⟩ := map_ok h
      exact hn)
    s.Attr v0 v x h hx
  exact ⟨v.Val, this, rfl⟩

theorem XLSXFloatVal_unmarshal_val (conv : Strconv) (v0 v : XLSXFloatVal)
    (s : xml.StartElement) (c : List Node) (x : GoString)
    (h : XLSXFloatVal.unmarshal conv v0 s c = .ok v) (hx : attrValues (lit "val") s = [x]) :
    ∃ n, conv.copyFloat x = .ok n ∧ v = { Val := n } := by
  have := attrs_single (XLSXFloatVal.attr conv) (fun v => v.Val) (lit "val")
    (fun x val => conv.copyFloat x = .ok val)
    (by
      intro q a q1 hne h
      simp only [XLSXFloatVal.attr, hne, if_false, Except.ok.injEq] at h
      rw [← h])
    (by
      intro q a q1 heq h
      simp only [XLSXFloatVal.attr, heq, if_true] at h
      obtain ⟨n, hn, rfl⟩ := map_ok h
      exact hn)
    s.Attr v0 v x h hx
  exact ⟨v.Val, this, rfl⟩

theorem XLSXColor_unmarshal_rgb (conv : Strconv) (c0 col : XLSXColor) (s : xml.StartElement)
    (c : List Node) (x : GoString) (h : XLSXColor.unmarshal conv c0 s c = .ok col)
    (hx : attrValues (lit "rgb") s = [x]) : col.RGB = x := by
  exact attrs_single (XLSXColor.attr conv) (fun v => v.RGB) (lit "rgb") (fun x val => val = x)
    (by
      intro q a q1 hne h
      unfold XLSXColor.attr at h
      split_ifs at h <;>
        first
        | contradiction
        | (obtain ⟨v, _, rfl⟩ := map_ok h; rfl)
        | (cases h; rfl))
    (by
      intro q a q1 heq h
      simp only [XLSXColor.attr, heq, if_true, Except.ok.injEq] at h
      rw [← h])
    s.Attr c0 col x h hx

theorem XLSXColor_unmarshal_theme (conv : Strconv) (c0 col : XLSXColor) (s : xml.StartElement)
    (c : List Node) (x : GoString) (h : XLSXColor.unmarshal conv c0 s c = .ok col)
    (hx : attrValues (lit "theme") s = [x]) :
    ∃ n, conv.copyInt x = .ok n ∧ col.Theme = some n := by
  exact attrs_single (XLSXColor.attr conv) (fun v => v.Theme) (lit "theme")
    (fun x val => ∃ n, conv.copyInt x = .ok n ∧ val = some n)
    (by
      intro q a q1 hne h
      unfold XLSXColor.attr at h
      split_ifs at h <;>
        first
        | contradiction
        | (obtain ⟨v, _, rfl⟩ := map_ok h; rfl)
        | (cases h; rfl))
    (by
      intro q a q1 heq h
      simp +decide only [XLSXColor.attr, heq, if_true, if_false] at h
      obtain ⟨n, hn, rfl⟩ := map_ok h
      exact ⟨n, hn, rfl⟩)
    s.Attr c0 col x h hx

theorem XLSXColor_unmarshal_indexed (conv : Strconv) (c0 col : XLSXColor)
    (s : xml.StartElement) (c : List Node) (x : GoString)
    (h : XLSXColor.unmarshal conv c0 s c = .ok col)
    (hx : attrValues (lit "indexed") s = [x]) :
    ∃ n, conv.copyInt x = .ok n ∧ col.Indexed = some n := by
  exact attrs_single (XLSXColor.attr conv) (fun v => v.Indexed) (lit "indexed")
    (fun x val => ∃ n, conv.copyInt x = .ok n ∧ val = some n)
    (by
      intro q a q1 hne h
      unfold XLSXColor.attr at h
      split_ifs at h <;>
        first
        | contradiction
        | (obtain ⟨v, _, rfl⟩ := map_ok h; rfl)
        | (cases h; rfl))
    (by
      intro q a q1 heq h
      simp +decide only [XLSXColor.attr, heq, if_true, if_false] at h
      obtain ⟨n, hn, rfl⟩ := map_ok h
      exact ⟨n, hn, rfl⟩)
    s.Attr c0 col x h hx

theorem RunField_find_tag (name : GoString) (f : RunField) (h : RunField.find name = some f) :
    f.tag = name := by
  have := List.find?_some h
  simpa using this

theorem rPr_field_RFont (conv : Strconv) (content : List Node) (q p : XLSXRunProperties)
    (h : unmarshalChildren (XLSXRunProperties.child conv) q content = .ok p) :
    (named (lit "rFont") content = [] → p.RFont = q.RFont) ∧
    (∀ s c, named (lit "rFont") content = [(s, c)] →
      ∃ v, XLSXVal.unmarshal (q.RFont.getD {}) s c = .ok v ∧ p.RFont = some v) := by
  have frame : ∀ (q : XLSXRunProperties) s c q1, s.Name.Local ≠ lit "rFont" →
      XLSXRunProperties.child conv q s c = .ok q1 → q1.RFont = q.RFont := by
    intro q s c q1 hne h
    unfold XLSXRunProperties.child at h
    cases hf : RunField.find s.Name.Local with
    | none => simp only [hf, Except.ok.injEq] at h; rw [h]
    | some f =>
      have htag := RunField_find_tag _ _ hf
      cases f <;> simp only [hf] at h <;>
        first
        | exact absurd htag.symm hne
        | (obtain ⟨v, _, rfl⟩ := map_ok h; rfl)
  have hit : ∀ (q : XLSXRunProperties) s c q1, s.Name.Local = lit "rFont" →
      XLSXRunProperties.child conv q s c = .ok q1 →
      ∃ v, XLSXVal.unmarshal (q.RFont.getD {}) s c = .ok v ∧ q1.RFont = some v := by
    intro q s c q1 heq h
    have hf : RunField.find s.Name.Local = some .RFont := by rw [heq]; decide
    unfold XLSXRunProperties.child at h
    simp only [hf] at h
    obtain ⟨v, hv, rfl⟩ := map_ok h
    exact ⟨v, hv, rfl⟩
  refine ⟨fun hn => children_absent _ (fun r => r.RFont) _ frame content q p h hn, ?_⟩
  intro s c hn
  exact children_single _ (fun r => r.RFont) (lit "rFont")
    (fun old s c new => ∃ v, XLSXVal.unmarshal (old.getD {}) s c = .ok v ∧ new = some v)
    frame hit content q p s c h hn

theorem rPr_field_Charset (conv : Strconv) (content : List Node) (q p : XLSXRunProperties)
    (h : unmarshalChildren (XLSXRunProperties.child conv) q content = .ok p) :
    (named (lit "charset") content = [] → p.Charset = q.Charset) ∧
    (∀ s c, named (lit "charset") content = [(s, c)] →
      ∃ v, XLSXIntVal.unmarshal conv (q.Charset.getD {}) s c = .ok v ∧ p.Charset = some v) := by
  have frame : ∀ (q : XLSXRunProperties) s c q1, s.Name.Local ≠ lit "charset" →
      XLSXRunProperties.child conv q s c = .ok q1 → q1.Charset = q.Charset := by
    intro q s c q1 hne h
    unfold XLSXRunProperties.child at h
    cases hf : RunField.find s.Name.Local with
    | none => simp only [hf, Except.ok.injEq] at h; rw [h]
    | some f =>
      have htag := RunField_find_tag _ _ hf
      cases f <;> simp only [hf] at h <;>
        first
        | exact absurd htag.symm hne
        | (obtain ⟨v, _, rfl⟩ := map_ok h; rfl)
  have hit : ∀ (q : XLSXRunProperties) s c q1, s.Name.Local = lit "charset" →
      XLSXRunProperties.child conv q s c = .ok q1 →
      ∃ v, XLSXIntVal.unmarshal conv (q.Charset.getD {}) s c = .ok v ∧ q1.Charset = some v := by
    intro q s c q1 heq h
    have hf : RunField.find s.Name.Local = some .Charset := by rw [heq]; decide
    unfold XLSXRunProperties.child at h
    simp only [hf] at h
    obtain ⟨v, hv, rfl⟩ := map_ok h
    exact ⟨v, hv, rfl⟩
  refine ⟨fun hn => children_absent _ (fun r => r.Charset) _ frame content q p h hn, ?_⟩
  intro s c hn
  exact children_single _ (fun r => r.Charset) (lit "charset")
    (fun old s c new => ∃ v, XLSXIntVal.unmarshal conv (old.getD {}) s c = .ok v ∧ new = some v)
    frame hit content q p s c h hn

theorem rPr_field_Family (conv : Strconv) (content : List Node) (q p : XLSXRunProperties)
    (h : unmarshalChildren (XLSXRunProperties.child conv) q content = .ok p) :
    (named (lit "family") content = [] → p.Family = q.Family) ∧
    (∀ s c, named (lit "family") content = [(s, c)] →
      ∃ v, XLSXIntVal.unmarshal conv (q.Family.getD {}) s c = .ok v ∧ p.Family = some v) := by
  have frame : ∀ (q : XLSXRunProperties) s c q1, s.Name.Local ≠ lit "family" →
      XLSXRunProperties.child conv q s c = .ok q1 → q1.Family = q.Family := by
    intro q s c q1 hne h
    unfold XLSXRunProperties.child at h
    cases hf : RunField.find s.Name.Local with
    | none => simp only [hf, Except.ok.injEq] at h; rw [h]
    | some f =>
      have htag := RunField_find_tag _ _ hf
      cases f <;> simp only [hf] at h <;>
        first
        | exact absurd htag.symm hne
        | (obtain ⟨v, _, rfl⟩ := map_ok h; rfl)
  have hit : ∀ (q : XLSXRunProperties) s c q1, s.Name.Local = lit "family" →
      XLSXRunProperties.child conv q s c = .ok q1 →
      ∃ v, XLSXIntVal.unmarshal conv (q.Family.getD {}) s c = .ok v ∧ q1.Family = some v := by
    intro q s c q1 heq h
    have hf : RunField.find s.Name.Local = some .Family := by rw [heq]; decide
    unfold XLSXRunProperties.child at h
    simp only [hf] at h
    obtain ⟨v, hv, rfl⟩ := map_ok h
    exact ⟨v, hv, rfl⟩
  refine ⟨fun hn => children_absent _ (fun r => r.Family) _ frame content q p h hn, ?_⟩
  intro s c hn
  exact children_single _ (fun r => r.Family) (lit "family")
    (fun old s c new => ∃ v, XLSXIntVal.unmarshal conv (old.getD {}) s c = .ok v ∧ new = some v)
    frame hit content q p s c h hn

theorem rPr_field_Color (conv : Strconv) (content : List Node) (q p : XLSXRunProperties)
    (h : unmarshalChildren (XLSXRunProperties.child conv) q content = .ok p) :
    (named (lit "color") content = [] → p.Color = q.Color) ∧
    (∀ s c, named (lit "color") content = [(s, c)] →
      ∃ v, XLSXColor.unmarshal conv (q.Color.getD {}) s c = .ok v ∧ p.Color = some v) := by
  have frame : ∀ (q : XLSXRunProperties) s c q1, s.Name.Local ≠ lit "color" →
      XLSXRunProperties.child conv q s c = .ok q1 → q1.Color = q.Color := by
    intro q s c q1 hne h
    unfold XLSXRunProperties.child at h
    cases hf : RunField.find s.Name.Local with
    | none => simp only [hf, Except.ok.injEq] at h; rw [h]
    | some f =>
      have htag := RunField_find_tag _ _ hf
      cases f <;> simp only [hf] at h <;>
        first
        | exact absurd htag.symm hne
        | (obtain ⟨v, _, rfl⟩ := map_ok h; rfl)
  have hit : ∀ (q : XLSXRunProperties) s c q1, s.Name.Local = lit "color" →
      XLSXRunProperties.child conv q s c = .ok q1 →
      ∃ v, XLSXColor.unmarshal conv (q.Color.getD {}) s c = .ok v ∧ q1.Color = some v := by
    intro q s c q1 heq h
    have hf : RunField.find s.Name.Local = some .Color := by rw [heq]; decide
    unfold XLSXRunProperties.child at h
    simp only [hf] at h
    obtain ⟨v, hv, rfl⟩ := map_ok h
    exact ⟨v, hv, rfl⟩
  refine ⟨fun hn => children_absent _ (fun r => r.Color) _ frame content q p h hn, ?_⟩
  intro s c hn
  exact children_single _ (fun r => r.Color) (lit "color")
    (fun old s c new => ∃ v, XLSXColor.unmarshal conv (old.getD {}) s c = .ok v ∧ new = some v)
    frame hit content q p s c h hn

theorem rPr_field_Sz (conv : Strconv) (content : List Node) (q p : XLSXRunProperties)
    (h : unmarshalChildren (XLSXRunProperties.child conv) q content = .ok p) :
    (named (lit "sz") content = [] → p.Sz = q.Sz) ∧
    (∀ s c, named (lit "sz") content = [(s, c)] →
      ∃ v, XLSXFloatVal.unmarshal conv (q.Sz.getD {}) s c = .ok v ∧ p.Sz = some v) := by
  have frame : ∀ (q : XLSXRunProperties) s c q1, s.Name.Local ≠ lit "sz" →
      XLSXRunProperties.child conv q s c = .ok q1 → q1.Sz = q.Sz := by
    intro q s c q1 hne h
    unfold XLSXRunProperties.child at h
    cases hf : RunField.find s.Name.Local with
    | none => simp only [hf, Except.ok.injEq] at h; rw [h]
    | some f =>
      have htag := RunField_find_tag _ _ hf
      cases f <;> simp only [hf] at h <;>
        first
        | exact absurd htag.symm hne
        | (obtain ⟨v, _, rfl⟩ := map_ok h; rfl)
  have hit : ∀ (q : XLSXRunProperties) s c q1, s.Name.Local = lit "sz" →
      XLSXRunProperties.child conv q s c = .ok q1 →
      ∃ v, XLSXFloatVal.unmarshal conv (q.Sz.getD {}) s c = .ok v ∧ q1.Sz = some v := by
    intro q s c q1 heq h
    have hf : RunField.find s.Name.Local = some .Sz := by rw [heq]; decide
    unfold XLSXRunProperties.child at h
    simp only [hf] at h
    obtain ⟨v, hv, rfl⟩ := map_ok h
    exact ⟨v, hv, rfl⟩
  refine ⟨fun hn => children_absent _ (fun r => r.Sz) _ frame content q p h hn, ?_⟩
  intro s c hn
  exact children_single _ (fun r => r.Sz) (lit "sz")
    (fun old s c new => ∃ v, XLSXFloatVal.unmarshal conv (old.getD {}) s c = .ok v ∧ new = some v)
    frame hit content q p s c h hn

theorem rPr_field_U (conv : Strconv) (content : List Node) (q p : XLSXRunProperties)
    (h : unmarshalChildren (XLSXRunProperties.child conv) q content = .ok p) :
    (named (lit "u") content = [] → p.U = q.U) ∧
    (∀ s c, named (lit "u") content = [(s, c)] →
      ∃ v, XLSXVal.unmarshal (q.U.getD {}) s c = .ok v ∧ p.U = some v) := by
  have frame : ∀ (q : XLSXRunProperties) s c q1, s.Name.Local ≠ lit "u" →
      XLSXRunProperties.child conv q s c = .ok q1 → q1.U = q.U := by
    intro q s c q1 hne h
    unfold XLSXRunProperties.child at h
    cases hf : RunField.find s.Name.Local with
    | none => simp only [hf, Except.ok.injEq] at h; rw [h]
    | some f =>
      have htag := RunField_find_tag _ _ hf
      cases f <;> simp only [hf] at h <;>
        first
        | exact absurd htag.symm hne
        | (obtain ⟨v, _, rfl⟩ := map_ok h; rfl)
  have hit : ∀ (q : XLSXRunProperties) s c q1, s.Name.Local = lit "u" →
      XLSXRunProperties.child conv q s c = .ok q1 →
      ∃ v, XLSXVal.unmarshal (q.U.getD {}) s c = .ok v ∧ q1.U = some v := by
    intro q s c q1 heq h
    have hf : RunField.find s.Name.Local = some .U := by rw [heq]; decide
    unfold XLSXRunProperties.child at h
    simp only [hf] at h
    obtain ⟨v, hv, rfl⟩ := map_ok h
    exact ⟨v, hv, rfl⟩
  refine ⟨fun hn => children_absent _ (fun r => r.U) _ frame content q p h hn, ?_⟩
  intro s c hn
  exact children_single _ (fun r => r.U) (lit "u")
    (fun old s c new => ∃ v, XLSXVal.unmarshal (old.getD {}) s c = .ok v ∧ new = some v)
    frame hit content q p s c h hn

theorem rPr_field_VertAlign (conv : Strconv) (content : List Node) (q p : XLSXRunProperties)
    (h : unmarshalChildren (XLSXRunProperties.child conv) q content = .ok p) :
    (named (lit "vertAlign") content = [] → p.VertAlign = q.VertAlign) ∧
    (∀ s c, named (lit "vertAlign") content = [(s, c)] →
      ∃ v, XLSXVal.unmarshal (q.VertAlign.getD {}) s c = .ok v ∧ p.VertAlign = some v) := by
  have frame : ∀ (q : XLSXRunProperties) s c q1, s.Name.Local ≠ lit "vertAlign" →
      XLSXRunProperties.child conv q s c = .ok q1 → q1.VertAlign = q.VertAlign := by
    intro q s c q1 hne h
    unfold XLSXRunProperties.child at h
    cases hf : RunField.find s.Name.Local with
    | none => simp only [hf, Except.ok.injEq] at h; rw [h]
    | some f =>
      have htag := RunField_find_tag _ _ hf
      cases f <;> simp only [hf] at h <;>
        first
        | exact absurd htag.symm hne
        | (obtain ⟨v, _, rfl⟩ := map_ok h; rfl)
  have hit : ∀ (q : XLSXRunProperties) s c q1, s.Name.Local = lit "vertAlign" →
      XLSXRunProperties.child conv q s c = .ok q1 →
      ∃ v, XLSXVal.unmarshal (q.VertAlign.getD {}) s c = .ok v ∧ q1.VertAlign = some v := by
    intro q s c q1 heq h
    have hf : RunField.find s.Name.Local = some .VertAlign := by rw [heq]; decide
    unfold XLSXRunProperties.child at h
    simp only [hf] at h
    obtain ⟨v, hv, rfl⟩ := map_ok h
    exact ⟨v, hv, rfl⟩
  refine ⟨fun hn => children_absent _ (fun r => r.VertAlign) _ frame content q p h hn, ?_⟩
  intro s c hn
  exact children_single _ (fun r => r.VertAlign) (lit "vertAlign")
    (fun old s c new => ∃ v, XLSXVal.unmarshal (old.getD {}) s c = .ok v ∧ new = some v)
    frame hit content q p s c h hn

theorem rPr_field_Scheme (conv : Strconv) (content : List Node) (q p : XLSXRunProperties)
    (h : unmarshalChildren (XLSXRunProperties.child conv) q content = .ok p) :
    (named (lit "scheme") content = [] → p.Scheme = q.Scheme) ∧
    (∀ s c, named (lit "scheme") content = [(s, c)] →
      ∃ v, XLSXVal.unmarshal (q.Scheme.getD {}) s c = .ok v ∧ p.Scheme = some v) := by
  have frame : ∀ (q : XLSXRunProperties) s c q1, s.Name.Local ≠ lit "scheme" →
      XLSXRunProperties.child conv q s c = .ok q1 → q1.Scheme = q.Scheme := by
    intro q s c q1 hne h
    unfold XLSXRunProperties.child at h
    cases hf : RunField.find s.Name.Local with
    | none => simp only [hf, Except.ok.injEq] at h; rw [h]
    | some f =>
      have htag := RunField_find_tag _ _ hf
      cases f <;> simp only [hf] at h <;>
        first
        | exact absurd htag.symm hne
        | (obtain ⟨v, _, rfl⟩ := map_ok h; rfl)
  have hit : ∀ (q : XLSXRunProperties) s c q1, s.Name.Local = lit "scheme" →
      XLSXRunProperties.child conv q s c = .ok q1 →
      ∃ v, XLSXVal.unmarshal (q.Scheme.getD {}) s c = .ok v ∧ q1.Scheme = some v := by
    intro q s c q1 heq h
    have hf : RunField.find s.Name.Local = some .Scheme := by rw [heq]; decide
    unfold XLSXRunProperties.child at h
    simp only [hf] at h
    obtain ⟨v, hv, rfl⟩ := map_ok h
    exact ⟨v, hv, rfl⟩
  refine ⟨fun hn => children_absent _ (fun r => r.Scheme) _ frame content q p h hn, ?_⟩
  intro s c hn
  exact children_single _ (fun r => r.Scheme) (lit "scheme")
    (fun old s c new => ∃ v, XLSXVal.unmarshal (old.getD {}) s c = .ok v ∧ new = some v)
    frame hit content q p s c h hn

/-- C8: when an `rPr` element decodes, each of `rFont`, `charset`, `family`,
`color`, `sz`, `u`, `vertAlign`, `scheme` that is not among its children is
nil in the result (so an absent `family` is not 0), and each one that is
there once holds the literal text of its attribute: the text itself for
`rFont`, `u`, `vertAlign`, `scheme` and the `rgb` of `color`, the number the
text converts to for `charset`, `family`, `sz` and the `theme` and `indexed`
of `color`. -/
theorem XLSXRunProperties_unmarshal_optional (conv : Strconv) (start : xml.StartElement)
    (content : List Node) (p : XLSXRunProperties)
    (h : XLSXRunProperties.unmarshal conv {} start content = .ok p) :
    ((named (lit "rFont") content = [] → p.RFont = none) ∧
     (named (lit "charset") content = [] → p.Charset = none) ∧
     (named (lit "family") content = [] → p.Family = none ∧ p.Family ≠ some { Val := 0 }) ∧
     (named (lit "color") content = [] → p.Color = none) ∧
     (named (lit "sz") content = [] → p.Sz = none) ∧
     (named (lit "u") content = [] → p.U = none) ∧
     (named (lit "vertAlign") content = [] → p.VertAlign = none) ∧
     (named (lit "scheme") content = [] → p.Scheme = none)) ∧
    ((∀ s c v, named (lit "rFont") content = [(s, c)] → attrValues (lit "val") s = [v] →
        p.RFont = some { Val := v }) ∧
     (∀ s c v, named (lit "u") content = [(s, c)] → attrValues (lit "val") s = [v] →
        p.U = some { Val := v }) ∧
     (∀ s c v, named (lit "vertAlign") content = [(s, c)] → attrValues (lit "val") s = [v] →
        p.VertAlign = some { Val := v }) ∧
     (∀ s c v, named (lit "scheme") content = [(s, c)] → attrValues (lit "val") s = [v] →
        p.Scheme = some { Val := v }) ∧
     (∀ s c v, named (lit "charset") content = [(s, c)] → attrValues (lit "val") s = [v] →
        ∃ n, conv.copyInt v = .ok n ∧ p.Charset = some { Val := n }) ∧
     (∀ s c v, named (lit "family") content = [(s, c)] → attrValues (lit "val") s = [v] →
        ∃ n, conv.copyInt v = .ok n ∧ p.Family = some { Val := n }) ∧
     (∀ s c v, named (lit "sz") content = [(s, c)] → attrValues (lit "val") s = [v] →
        ∃ x, conv.copyFloat v = .ok x ∧ p.Sz = some { Val := x }) ∧
     (∀ s c v, named (lit "color") content = [(s, c)] → attrValues (lit "rgb") s = [v] →
        ∃ col, p.Color = some col ∧ col.RGB = v) ∧
     (∀ s c v, named (lit "color") content = [(s, c)] → attrValues (lit "theme") s = [v] →
        ∃ col n, p.Color = some col ∧ conv.copyInt v = .ok n ∧ col.Theme = some n) ∧
     (∀ s c v, named (lit "color") content = [(s, c)] → attrValues (lit "indexed") s = [v] →
        ∃ col n, p.Color = some col ∧ conv.copyInt v = .ok n ∧ col.Indexed = some n)) := by
  unfold XLSXRunProperties.unmarshal at h
  refine ⟨⟨?_, ?_, ?_, ?_, ?_, ?_, ?_, ?_⟩, ?_, ?_, ?_, ?_, ?_, ?_, ?_, ?_, ?_, ?_⟩
  · exact (rPr_field_RFont conv content _ p h).1
  · exact (rPr_field_Charset conv content _ p h).1
  · intro hn
    have := (rPr_field_Family conv content _ p h).1 hn
    exact ⟨this, by rw [this]; simp⟩
  · exact (rPr_field_Color conv content _ p h).1
  · exact (rPr_field_Sz conv content _ p h).1
  · exact (rPr_field_U conv content _ p h).1
  · exact (rPr_field_VertAlign conv content _ p h).1
  · exact (rPr_field_Scheme conv content _ p h).1
  · intro s c v hn hv
    obtain ⟨w, hw, hp⟩ := (rPr_field_RFont conv content _ p h).2 s c hn
    rw [hp, XLSXVal_unmarshal_val _ _ s c v hw hv]
  · intro s c v hn hv
    obtain ⟨w, hw, hp⟩ := (rPr_field_U conv content _ p h).2 s c hn
    rw [hp, XLSXVal_unmarshal_val _ _ s c v hw hv]
  · intro s c v hn hv
    obtain ⟨w, hw, hp⟩ := (rPr_field_VertAlign conv content _ p h).2 s c hn
    rw [hp, XLSXVal_unmarshal_val _ _ s c v hw hv]
  · intro s c v hn hv
    obtain ⟨w, hw, hp⟩ := (rPr_field_Scheme conv content _ p h).2 s c hn
    rw [hp, XLSXVal_unmarshal_val _ _ s c v hw hv]
  · intro s c v hn hv
    obtain ⟨w, hw, hp⟩ := (rPr_field_Charset conv content _ p h).2 s c hn
    obtain ⟨n, hn1, rfl⟩ := XLSXIntVal_unmarshal_val conv _ _ s c v hw hv
    exact ⟨n, hn1, hp⟩
  · intro s c v hn hv
    obtain ⟨w, hw, hp⟩ := (rPr_field_Family conv content _ p h).2 s c hn
    obtain ⟨n, hn1, rfl⟩ := XLSXIntVal_unmarshal_val conv _ _ s c v hw hv
    exact ⟨n, hn1, hp⟩
  · intro s c v hn hv
    obtain ⟨w, hw, hp⟩ := (rPr_field_Sz conv content _ p h).2 s c hn
    obtain ⟨n, hn1, rfl⟩ := XLSXFloatVal_unmarshal_val conv _ _ s c v hw hv
    exact ⟨n, hn1, hp⟩
  · intro s c v hn hv
    obtain ⟨w, hw, hp⟩ := (rPr_field_Color conv content _ p h).2 s c hn
    exact ⟨w, hp, XLSXColor_unmarshal_rgb conv _ _ s c v hw hv⟩
  · intro s c v hn hv
    obtain ⟨w, hw, hp⟩ := (rPr_field_Color conv content _ p h).2 s c hn
    obtain ⟨n, hn1, hn2⟩ := XLSXColor_unmarshal_theme conv _ _ s c v hw hv
    exact ⟨w, n, hp, hn1, hn2⟩
  · intro s c v hn hv
    obtain ⟨w, hw, hp⟩ := (rPr_field_Color conv content _ p h).2 s c hn
    obtain ⟨n, hn1, hn2⟩ := XLSXColor_unmarshal_indexed conv _ _ s c v hw hv
    exact ⟨w, n, hp, hn1, hn2⟩

/-- The run properties of the fourth run of the test document: `u` and
`vertAlign` are absent and decode to nil; `rFont`, `family` and `sz` are
there and decode to their attribute texts. -/
theorem XLSXRunProperties_unmarshal_optional_witness :
    (fontSpecExpected.U = none ∧ fontSpecExpected.VertAlign = none) ∧
    fontSpecExpected.RFont = some { Val := lit "FontZ" } ∧
    (∃ n, testConv.copyInt (lit "2") = .ok n ∧ fontSpecExpected.Family = some { Val := n }) ∧
    (∃ x, testConv.copyFloat (lit "13.5") = .ok x ∧ fontSpecExpected.Sz = some { Val := x }) :=
  have h := XLSXRunProperties_unmarshal_optional testConv
    { Name := { Space := mainNamespace, Local := lit "rPr" } } fontSpecXML fontSpecExpected
    (by rfl)
  ⟨⟨h.1.2.2.2.2.2.1 (by rfl), h.1.2.2.2.2.2.2.1 (by rfl)⟩,
   h.2.1 _ _ (lit "FontZ") (by rfl) (by rfl),
   h.2.2.2.2.2.2.1 _ _ (lit "2") (by rfl) (by rfl),
   h.2.2.2.2.2.2.2.1 _ _ (lit "13.5") (by rfl) (by rfl)⟩

theorem bind_appends {x : Except GoError xml.Encoder}
    {g : xml.Encoder → Except GoError xml.Encoder} {e : xml.Encoder}
    (hx : ∃ ts, x = .ok { toks := e.toks ++ ts })
    (hg : ∀ e1, ∃ ts, g e1 = .ok { toks := e1.toks ++ ts }) :
    ∃ ts, (x >>= g) = .ok { toks := e.toks ++ ts } := by
  obtain ⟨ts, rfl⟩ := hx
  obtain ⟨ts2, h2⟩ := hg { toks := e.toks ++ ts }
  exact ⟨ts ++ ts2, by simp [bind, Except.bind, h2, List.append_assoc]⟩

theorem marshalEach_appends {α : Type}
    (item : α → xml.Encoder → Except GoError xml.Encoder)
    (hitem : ∀ x e, ∃ ts, item x e = .ok { toks := e.toks ++ ts }) (l : List α) :
    ∀ e, ∃ ts, marshalEach item l e = .ok { toks := e.toks ++ ts } := by
  induction l with
  | nil => intro e; exact ⟨[], by simp [marshalEach]⟩
  | cons x rest ih =>
    intro e
    obtain ⟨ts, hts⟩ := hitem x e
    obtain ⟨ts2, hts2⟩ := ih { toks := e.toks ++ ts }
    exact ⟨ts ++ ts2, by simp [marshalEach, hts, hts2]⟩

theorem XLSXT_MarshalXML_appends (t : XLSXT) (start : xml.StartElement) (e : xml.Encoder) :
    ∃ ts, XLSXT.MarshalXML t e start = .ok { toks := e.toks ++ ts } :=
  ⟨_, XLSXT_MarshalXML_tokens t e start⟩

theorem marshalPointer_appends {α : Type}
    (item : α → xml.Encoder → Except GoError xml.Encoder)
    (hitem : ∀ x e, ∃ ts, item x e = .ok { toks := e.toks ++ ts }) (x : Option α)
    (e : xml.Encoder) : ∃ ts, marshalPointer item x e = .ok { toks := e.toks ++ ts } := by
  cases x with
  | none => exact ⟨[], by simp [marshalPointer]⟩
  | some x => exact hitem x e

theorem XLSXR_marshal_appends (rPr : XLSXRunProperties → List xml.Token) (r : XLSXR)
    (e : xml.Encoder) : ∃ ts, XLSXR.marshal rPr r e = .ok { toks := e.toks ++ ts } := by
  unfold XLSXR.marshal
  exact bind_appends ⟨_, rfl⟩ fun e1 =>
    bind_appends (marshalPointer_appends _ (fun p e => ⟨rPr p, rfl⟩) r.RPr e1) fun e2 =>
      bind_appends (XLSXT_MarshalXML_appends _ _ e2) fun e3 => ⟨_, rfl⟩

theorem XLSXSI_marshal_appends (rPr : XLSXRunProperties → List xml.Token) (si : XLSXSI)
    (e : xml.Encoder) : ∃ ts, XLSXSI.marshal rPr si e = .ok { toks := e.toks ++ ts } := by
  unfold XLSXSI.marshal
  exact bind_appends ⟨_, rfl⟩ fun e1 =>
    bind_appends
      (marshalPointer_appends _ (fun t e => XLSXT_MarshalXML_appends t _ e) si.T e1) fun e2 =>
      bind_appends (marshalEach_appends _ (XLSXR_marshal_appends rPr) si.R e2) fun e3 =>
        ⟨_, rfl⟩

/-- C9, as the code has it: the `count` and `uniqueCount` attributes written
on the `sst` element are the texts of the stored fields `Count` and
`UniqueCount`. The start element does not depend on the entries in `SI`, so
the attributes give the number of entries when the stored fields do. -/
theorem XLSXSST_marshal_header (rPr : XLSXRunProperties → List xml.Token) (sst : XLSXSST)
    (e : xml.Encoder) :
    (∃ body, XLSXSST.marshal rPr sst e = .ok { toks := e.toks ++
        [xml.Token.StartElement sst.start] ++ body ++ [xml.Token.EndElement sst.start.Name] }) ∧
    sst.start.Name = { Space := mainNamespace, Local := lit "sst" } ∧
    attrValue sst.start (lit "count") = some (Itoa sst.Count) ∧
    attrValue sst.start (lit "uniqueCount") = some (Itoa sst.UniqueCount) ∧
    (∀ entries, ({ sst with SI := entries } : XLSXSST).start = sst.start) ∧
    (sst.Count = sst.SI.length →
      attrValue sst.start (lit "count") = some (Itoa sst.SI.length)) ∧
    (sst.UniqueCount = sst.SI.length →
      attrValue sst.start (lit "uniqueCount") = some (Itoa sst.SI.length)) := by
  have hc : attrValue sst.start (lit "count") = some (Itoa sst.Count) := by
    simp +decide [attrValue, XLSXSST.start, List.find?_cons]
  have hu : attrValue sst.start (lit "uniqueCount") = some (Itoa sst.UniqueCount) := by
    simp +decide [attrValue, XLSXSST.start, List.find?_cons]
  refine ⟨?_, rfl, hc, hu, fun _ => rfl, fun h => by rw [hc, h], fun h => by rw [hu, h]⟩
  obtain ⟨ts, hts⟩ := marshalEach_appends _ (XLSXSI_marshal_appends rPr) sst.SI
    { toks := e.toks ++ [.StartElement sst.start] }
  refine ⟨ts, ?_⟩
  unfold XLSXSST.marshal
  simp only [xml.Encoder.EncodeToken, bind, Except.bind, pure, Except.pure, hts,
    List.append_assoc]

/-- C9 fails as stated: a table with no entry whose stored `Count` is 7 and
`UniqueCount` is 3 is written with `count="7"` and `uniqueCount="3"`, not
with the number of entries, 0. -/
theorem XLSXSST_marshal_count_stale :
    XLSXSST.marshal (fun _ => []) { Count := 7, UniqueCount := 3, SI := [] } {} =
      .ok { toks :=
        [.StartElement
            { Name := { Space := mainNamespace, Local := lit "sst" }
              Attr := [{ Name := { Local := lit "count" }, Value := lit "7" },
                       { Name := { Local := lit "uniqueCount" }, Value := lit "3" }] },
         .EndElement { Space := mainNamespace, Local := lit "sst" }] } ∧
    attrValue (XLSXSST.start { Count := 7, UniqueCount := 3, SI := [] }) (lit "count") ≠
      some (Itoa (([] : List XLSXSI).length)) ∧
    attrValue (XLSXSST.start { Count := 7, UniqueCount := 3, SI := [] }) (lit "uniqueCount") ≠
      some (Itoa (([] : List XLSXSI).length)) := by
  refine ⟨by rfl, by decide, by decide⟩

/-- C10: for a cell format whose named-style reference resolves to a base
record in `cellStyleXfs`, `getStyle` returns a style, and each of its
apply-flags (border, font, fill, alignment, number format) is the logical OR
of the flag of the base record and the flag of the cell record. -/
theorem getStyle_apply_flags (styles : XLSXStyleSheet) (id ref : Int) (xf base : XLSXXf)
    (hxf : recordAt styles.CellXfs id = some xf) (href : xf.XfId = some ref)
    (hbase : recordAt (styles.CellStyleXfs.getD []) ref = some base) :
    ∃ style, styles.getStyle id = .ok style ∧
      style.ApplyBorder = (base.ApplyBorder || xf.ApplyBorder) ∧
      style.ApplyFont = (base.ApplyFont || xf.ApplyFont) ∧
      style.ApplyFill = (base.ApplyFill || xf.ApplyFill) ∧
      style.ApplyAlignment = (base.ApplyAlignment || xf.ApplyAlignment) ∧
      style.ApplyNumberFormat = (base.ApplyNumberFormat || xf.ApplyNumberFormat) := by
  refine ⟨cascade xf (some base), ?_, rfl, rfl, rfl, rfl, rfl⟩
  simp [XLSXStyleSheet.getStyle, hxf, href, hbase]

/-- The case of the test `NamedStyleWins`: base `ApplyBorder` true and
`ApplyFont` false, cell `ApplyBorder` false and `ApplyFont` true. -/
theorem getStyle_apply_flags_witness :
    ∃ style,
      XLSXStyleSheet.getStyle
        { CellStyleXfs := some [{ XfId := some 20, ApplyBorder := true, ApplyFont := false }]
          CellXfs := [{ XfId := some 0, ApplyBorder := false, ApplyFont := true }] } 0 =
        .ok style ∧
      style.ApplyBorder = (true || false) ∧ style.ApplyFont = (false || true) ∧
      style.ApplyFill = (false || false) ∧ style.ApplyAlignment = (false || false) ∧
      style.ApplyNumberFormat = (false || false) :=
  getStyle_apply_flags
    { CellStyleXfs := some [{ XfId := some 20, ApplyBorder := true, ApplyFont := false }]
      CellXfs := [{ XfId := some 0, ApplyBorder := false, ApplyFont := true }] }
    0 0 { XfId := some 0, ApplyBorder := false, ApplyFont := true }
    { XfId := some 20, ApplyBorder := true, ApplyFont := false } (by rfl) (by rfl) (by rfl)

/-! ## Style resolution: the named-style id and the absent cell format -/

/-- C11: the named-style id of the style that `getStyle` returns is the
named-style reference of the cell format record itself, unchanged. Whenever
`getStyle` returns a style for an id that has a cell format record, the
`NamedStyleIndex` of the style is the `XfId` of that record; with no
reference `getStyle` returns a style and the id is nil; with a reference that
resolves `getStyle` returns a style and the id is that reference, whatever
reference the base record carries itself. -/
theorem getStyle_named_style_index (styles : XLSXStyleSheet) (id : Int) (xf : XLSXXf)
    (hxf : recordAt styles.CellXfs id = some xf) :
    (∀ style, styles.getStyle id = .ok style → style.NamedStyleIndex = xf.XfId) ∧
    (xf.XfId = none →
      ∃ style, styles.getStyle id = .ok style ∧ style.NamedStyleIndex = none) ∧
    (∀ (ref : Int) (base : XLSXXf), xf.XfId = some ref →
      recordAt (styles.CellStyleXfs.getD []) ref = some base →
      ∃ style, styles.getStyle id = .ok style ∧ style.NamedStyleIndex = some ref) := by
  refine ⟨?_, ?_, ?_⟩
  · intro style h
    unfold XLSXStyleSheet.getStyle at h
    rw [hxf] at h
    cases hx : xf.XfId with
    | none =>
      simp only [hx] at h
      cases h
      simp [cascade, hx]
    | some ref =>
      simp only [hx] at h
      cases hb : recordAt (styles.CellStyleXfs.getD []) ref with
      | none => simp [hb] at h
      | some base =>
        simp only [hb] at h
        cases h
        simp [cascade, hx]
  · intro hx
    refine ⟨cascade xf none, ?_, ?_⟩
    · simp [XLSXStyleSheet.getStyle, hxf, hx]
    · simp [cascade, hx]
  · intro ref base hx hb
    refine ⟨cascade xf (some base), ?_, ?_⟩
    · simp [XLSXStyleSheet.getStyle, hxf, hx, hb]
    · simp [cascade, hx]

/-- The case of the test `GetStyle/NamedStyleIndex`: the base record carries
the reference 20, the cell record the reference 0, and the style has 0. -/
theorem getStyle_named_style_index_witness :
    ∃ style,
      XLSXStyleSheet.getStyle
        { CellStyleXfs := some [{ XfId := some 20 }], CellXfs := [{ XfId := some 0 }] } 0 =
        .ok style ∧
      style.NamedStyleIndex = some 0 :=
  (getStyle_named_style_index
    { CellStyleXfs := some [{ XfId := some 20 }], CellXfs := [{ XfId := some 0 }] }
    0 { XfId := some 0 } (by rfl)).2.2 0 { XfId := some 20 } (by rfl) (by rfl)

/-- There is no record at an id of an ordered sequence exactly when the id is
negative or not below the number of the records. -/
theorem recordAt_eq_none_iff {α : Type} (records : List α) (id : Int) :
    recordAt records id = none ↔ id < 0 ∨ (records.length : Int) ≤ id := by
  unfold recordAt
  by_cases h : id < 0
  · simp [h]
  · simp only [h, if_false, false_or, List.getElem?_eq_none_iff]
    omega

/-- C12, counterexample: a new style sheet has no cell format at the id 0, and
`getStyle` at 0 does not fail with `OutOfRange`: it returns a style, the
`NamedStyleIndex` of which is nil (the test `GetStyle/NoNamedStyleIndex`). -/
theorem getStyle_absent_not_OutOfRange :
    recordAt ({} : XLSXStyleSheet).CellXfs 0 = none ∧
    XLSXStyleSheet.getStyle {} 0 ≠ .error .OutOfRange ∧
    ∃ style, XLSXStyleSheet.getStyle {} 0 = .ok style ∧ style.NamedStyleIndex = none := by
  refine ⟨rfl, ?_, {}, rfl, rfl⟩
  intro h
  cases h

/-- C12, amended: style resolution does not fail when the cell format is
absent. For every style sheet and every id at which no cell format record
exists (an id that is negative or not below the number of the `cellXfs`
entries, which is every id on an empty style sheet), `getStyle` returns a
style and no error: the zero style, with every apply-flag false, no value
resolved and the named-style id nil. -/
theorem getStyle_absent (styles : XLSXStyleSheet) (id : Int)
    (h : id < 0 ∨ (styles.CellXfs.length : Int) ≤ id) :
    styles.getStyle id = .ok {} ∧
    (∀ style, styles.getStyle id = .ok style →
      style.NamedStyleIndex = none ∧ style.ApplyFont = false ∧ style.ApplyFill = false ∧
      style.ApplyBorder = false ∧ style.ApplyNumberFormat = false ∧
      style.ApplyAlignment = false) := by
  have hnone : recordAt styles.CellXfs id = none := (recordAt_eq_none_iff _ _).2 h
  have hget : styles.getStyle id = .ok {} := by
    simp [XLSXStyleSheet.getStyle, hnone]
  refine ⟨hget, ?_⟩
  intro style hs
  rw [hget] at hs
  cases hs
  exact ⟨rfl, rfl, rfl, rfl, rfl, rfl⟩

/-- The case of the id 5 on a style sheet with one cell format. -/
theorem getStyle_absent_witness :
    XLSXStyleSheet.getStyle { CellXfs := [{ ApplyFont := true }] } 5 = .ok {} :=
  (getStyle_absent { CellXfs := [{ ApplyFont := true }] } 5 (by decide)).1

/-! ## Structural equality and interning -/

/-- The comparison of an optional field holds exactly for two unset fields
and for two set fields with equal values. -/
theorem optionalEquals_iff {α : Type} (equals : α → α → Bool)
    (h : ∀ a b, equals a b = true ↔ a = b) (x y : Option α) :
    optionalEquals equals x y = true ↔ x = y := by
  cases x <;> cases y <;> simp [optionalEquals, h]

/-- `Equals` of `XLSXVal` is equality. -/
theorem XLSXVal_Equals_iff (a b : XLSXVal) : a.Equals b = true ↔ a = b := by
  cases a; cases b; simp [XLSXVal.Equals]

/-- `Equals` of `XLSXColor` is equality. -/
theorem XLSXColor_Equals_iff (a b : XLSXColor) : a.Equals b = true ↔ a = b := by
  cases a; cases b
  simp [XLSXColor.Equals, optionalEquals_iff, and_assoc]

/-- `Equals` of `XLSXLine` is equality. -/
theorem XLSXLine_Equals_iff (a b : XLSXLine) : a.Equals b = true ↔ a = b := by
  cases a; cases b
  simp [XLSXLine.Equals, XLSXColor_Equals_iff]

/-- `Equals` of `XLSXPatternFill` is equality. -/
theorem XLSXPatternFill_Equals_iff (a b : XLSXPatternFill) : a.Equals b = true ↔ a = b := by
  cases a; cases b
  simp [XLSXPatternFill.Equals, XLSXColor_Equals_iff, and_assoc]

/-- `Equals` of `XLSXAlignment` is equality. -/
theorem XLSXAlignment_Equals_iff (a b : XLSXAlignment) : a.Equals b = true ↔ a = b := by
  cases a; cases b
  simp [XLSXAlignment.Equals, and_assoc]

/-- `Equals` of `XLSXFont` is equality. -/
theorem XLSXFont_Equals_iff (a b : XLSXFont) : a.Equals b = true ↔ a = b := by
  cases a; cases b
  simp [XLSXFont.Equals, XLSXVal_Equals_iff, XLSXColor_Equals_iff,
    optionalEquals_iff _ XLSXVal_Equals_iff, and_assoc]

/-- `Equals` of `XLSXFill` is equality. -/
theorem XLSXFill_Equals_iff (a b : XLSXFill) : a.Equals b = true ↔ a = b := by
  cases a; cases b
  simp [XLSXFill.Equals, XLSXPatternFill_Equals_iff]

/-- `Equals` of `XLSXBorder` is equality. -/
theorem XLSXBorder_Equals_iff (a b : XLSXBorder) : a.Equals b = true ↔ a = b := by
  cases a; cases b
  simp [XLSXBorder.Equals, XLSXLine_Equals_iff, and_assoc]

/-- `Equals` of `XLSXXf` is equality. -/
theorem XLSXXf_Equals_iff (a b : XLSXXf) : a.Equals b = true ↔ a = b := by
  cases a; cases b
  simp [XLSXXf.Equals, XLSXAlignment_Equals_iff, optionalEquals_iff, and_assoc]

/-- C13: `Equals` of `XLSXFont`, `XLSXFill`, `XLSXBorder` and `XLSXXf` is
structural equality. `a.Equals(b)` is true exactly when every corresponding
field of `a` and `b` is equal, which is when the two records are the same
value; the optional fields (`B`, `I`, `U`, `Strike` of a font, `XfId` of a
format record) are compared as options, so that an unset one is equal to an
unset one only and two set ones are equal when the values they hold are. -/
theorem Equals_structural :
    (∀ a b : XLSXFont, (a.Equals b = true ↔ a = b) ∧
      (a.Equals b = true ↔
        a.Sz = b.Sz ∧ a.Name = b.Name ∧ a.Family = b.Family ∧ a.Charset = b.Charset ∧
        a.Color = b.Color ∧ a.B = b.B ∧ a.I = b.I ∧ a.U = b.U ∧ a.Strike = b.Strike)) ∧
    (∀ a b : XLSXFill, (a.Equals b = true ↔ a = b) ∧
      (a.Equals b = true ↔ a.PatternFill = b.PatternFill)) ∧
    (∀ a b : XLSXBorder, (a.Equals b = true ↔ a = b) ∧
      (a.Equals b = true ↔
        a.Left = b.Left ∧ a.Right = b.Right ∧ a.Top = b.Top ∧ a.Bottom = b.Bottom)) ∧
    (∀ a b : XLSXXf, (a.Equals b = true ↔ a = b) ∧
      (a.Equals b = true ↔
        a.ApplyAlignment = b.ApplyAlignment ∧ a.ApplyBorder = b.ApplyBorder ∧
        a.ApplyFont = b.ApplyFont ∧ a.ApplyFill = b.ApplyFill ∧
        a.ApplyNumberFormat = b.ApplyNumberFormat ∧
        a.ApplyProtection = b.ApplyProtection ∧ a.BorderId = b.BorderId ∧
        a.FillId = b.FillId ∧ a.FontId = b.FontId ∧ a.NumFmtId = b.NumFmtId ∧
        a.XfId = b.XfId ∧ a.Alignment = b.Alignment)) ∧
    (∀ (a b : XLSXFont) (v : XLSXVal),
      (a.B = none → b.B = some v → a.Equals b = false) ∧
      (a.I = none → b.I = some v → a.Equals b = false) ∧
      (a.U = none → b.U = some v → a.Equals b = false) ∧
      (a.Strike = none → b.Strike = some v → a.Equals b = false)) ∧
    (∀ (a b : XLSXXf) (i : Int), a.XfId = none → b.XfId = some i → a.Equals b = false) ∧
    (∀ (a : XLSXXf) (i j : Int),
      XLSXXf.Equals { a with XfId := some i } { a with XfId := some j } = decide (i = j)) := by
  refine ⟨?_, ?_, ?_, ?_, ?_, ?_, ?_⟩
  · intro a b
    refine ⟨XLSXFont_Equals_iff a b, ?_⟩
    rw [XLSXFont_Equals_iff]
    cases a; cases b; simp
  · intro a b
    refine ⟨XLSXFill_Equals_iff a b, ?_⟩
    rw [XLSXFill_Equals_iff]
    cases a; cases b; simp
  · intro a b
    refine ⟨XLSXBorder_Equals_iff a b, ?_⟩
    rw [XLSXBorder_Equals_iff]
    cases a; cases b; simp
  · intro a b
    refine ⟨XLSXXf_Equals_iff a b, ?_⟩
    rw [XLSXXf_Equals_iff]
    cases a; cases b; simp
  · intro a b v
    have key : ∀ (a b : XLSXFont), a ≠ b → a.Equals b = false := by
      intro a b hne
      cases h : a.Equals b
      · rfl
      · exact absurd ((XLSXFont_Equals_iff a b).1 h) hne
    refine ⟨?_, ?_, ?_, ?_⟩ <;>
    · intro ha hb
      apply key
      intro hab
      rw [hab] at ha
      rw [ha] at hb
      cases hb
  · intro a b i ha hb
    cases h : a.Equals b
    · rfl
    · have hab := (XLSXXf_Equals_iff a b).1 h
      rw [hab] at ha
      rw [ha] at hb
      cases hb
  · intro a i j
    by_cases hij : i = j
    · subst hij
      simp [XLSXXf_Equals_iff]
    · have hne : ¬ (({ a with XfId := some i } : XLSXXf) = { a with XfId := some j }) := by
        intro h
        have := congrArg XLSXXf.XfId h
        simp at this
        exact hij this
      cases h : XLSXXf.Equals { a with XfId := some i } { a with XfId := some j }
      · simp [hij]
      · exact absurd ((XLSXXf_Equals_iff _ _).1 h) hne

/-- A position found is the position of the first entry the comparison holds
equal to the value. -/
theorem position_some {α : Type} (equals : α → α → Bool) (value : α) :
    ∀ (entries : List α) (i : Nat), position equals value entries = some i →
      (∃ e, entries[i]? = some e ∧ equals e value = true) ∧
      ∀ j e, j < i → entries[j]? = some e → equals e value = false := by
  intro entries
  induction entries with
  | nil => intro i h; simp [position] at h
  | cons x rest ih =>
    intro i h
    unfold position at h
    by_cases hx : equals x value = true
    · simp only [hx, if_true, Option.some.injEq] at h
      subst h
      exact ⟨⟨x, by simp, hx⟩, fun j e hj => absurd hj (Nat.not_lt_zero j)⟩
    · simp only [hx] at h
      cases hp : position equals value rest with
      | none => simp [hp] at h
      | some k =>
        simp [hp] at h
        subst h
        obtain ⟨⟨e, he, hee⟩, hfirst⟩ := ih k hp
        refine ⟨⟨e, by simpa using he, hee⟩, ?_⟩
        intro j e' hj hj'
        cases j with
        | zero =>
          simp at hj'
          subst hj'
          simpa using hx
        | succ j =>
          simp at hj'
          exact hfirst j e' (by omega) hj'

/-- A position is found where an entry is equal to the value. -/
theorem position_of_mem {α : Type} (equals : α → α → Bool) (value : α) :
    ∀ (entries : List α), (∃ e ∈ entries, equals e value = true) →
      ∃ i, position equals value entries = some i := by
  intro entries
  induction entries with
  | nil => intro h; simp at h
  | cons x rest ih =>
    intro h
    unfold position
    by_cases hx : equals x value = true
    · exact ⟨0, by simp [hx]⟩
    · obtain ⟨e, he, hee⟩ := h
      have hrest : ∃ e ∈ rest, equals e value = true := by
        rcases List.mem_cons.1 he with rfl | hmem
        · exact absurd hee hx
        · exact ⟨e, hmem, hee⟩
      obtain ⟨i, hi⟩ := ih hrest
      exact ⟨i + 1, by simp [hx, hi]⟩

/-- No position is found only where no entry is equal to the value. -/
theorem position_none {α : Type} (equals : α → α → Bool) (value : α)
    (entries : List α) (h : position equals value entries = none) :
    ∀ e ∈ entries, equals e value = false := by
  intro e he
  cases hee : equals e value
  · rfl
  · obtain ⟨i, hi⟩ := position_of_mem equals value entries ⟨e, he, hee⟩
    rw [h] at hi
    cases hi

/-- After a value is appended to a list that has no entry equal to it, the
value is found at the position it was appended at. -/
theorem position_append_self {α : Type} (equals : α → α → Bool) (value : α)
    (hrefl : equals value value = true) :
    ∀ (entries : List α), position equals value entries = none →
      position equals value (entries ++ [value]) = some entries.length := by
  intro entries
  induction entries with
  | nil => intro _; simp [position, hrefl]
  | cons x rest ih =>
    intro h
    unfold position at h
    by_cases hx : equals x value = true
    · simp [hx] at h
    · simp only [hx] at h
      have hrest : position equals value rest = none := by
        cases hp : position equals value rest with
        | none => rfl
        | some k => simp [hp] at h
      simp [position, hx, ih hrest]

/-- The interning of §4.4 is idempotent under a comparison that holds every
value equal to itself. -/
theorem intern_idempotent {α : Type} (equals : α → α → Bool)
    (hrefl : ∀ a, equals a a = true) : InternsIdempotently equals (intern equals) := by
  constructor
  · intro entries value h
    obtain ⟨i, hi⟩ := position_of_mem equals value entries h
    have hp := position_some equals value entries i hi
    refine ⟨by simp [intern, hi], i, by simp [intern, hi], hp.1, hp.2⟩
  · intro entries value
    have key : intern equals (intern equals entries value).2 value =
        intern equals entries value := by
      cases hp : position equals value entries with
      | some i => simp [intern, hp]
      | none =>
        have := position_append_self equals value (hrefl value) entries hp
        simp [intern, hp, this]
    exact ⟨key, by rw [key]⟩

/-- C14: interning is idempotent for each of the font, fill, border and
cell-format lists. Adding, by `addFont`, `addFill`, `addBorder` or `addXf`, a
value that is structurally equal to an entry of the list returns the position
of the existing entry (the first such entry) and leaves the list, its length
and its contents, unchanged; and adding the same value twice returns the same
id both times, the second call leaving the list as the first call left it. -/
theorem add_interns_idempotently :
    InternsIdempotently XLSXFont.Equals addFont ∧
    InternsIdempotently XLSXFill.Equals addFill ∧
    InternsIdempotently XLSXBorder.Equals addBorder ∧
    InternsIdempotently XLSXXf.Equals addXf :=
  ⟨intern_idempotent _ fun a => (XLSXFont_Equals_iff a a).2 rfl,
   intern_idempotent _ fun a => (XLSXFill_Equals_iff a a).2 rfl,
   intern_idempotent _ fun a => (XLSXBorder_Equals_iff a a).2 rfl,
   intern_idempotent _ fun a => (XLSXXf_Equals_iff a a).2 rfl⟩

/-! ## Number formats -/

/-- An entry found by its format code is an entry of the list and has the
code. -/
theorem findFormatCode_some (entries : List XLSXNumFmt) (code : GoString) (e : XLSXNumFmt)
    (h : findFormatCode entries code = some e) : e ∈ entries ∧ e.FormatCode = code := by
  unfold findFormatCode at h
  exact ⟨List.mem_of_find?_eq_some h, by simpa using List.find?_some h⟩

/-- In a list with no code twice, each entry is the one found by its code. -/
theorem findFormatCode_of_mem :
    ∀ (entries : List XLSXNumFmt), (entries.map fun e => e.FormatCode).Nodup →
      ∀ e ∈ entries, findFormatCode entries e.FormatCode = some e := by
  intro entries
  induction entries with
  | nil => intro _ e he; simp at he
  | cons x rest ih =>
    intro hnodup e he
    simp only [List.map_cons, List.nodup_cons] at hnodup
    rcases List.mem_cons.1 he with rfl | hmem
    · simp [findFormatCode]
    · have hne : ¬ (x.FormatCode = e.FormatCode) := by
        intro hx
        exact hnodup.1 (hx ▸ List.mem_map_of_mem (fun e => e.FormatCode) hmem)
      have := ih hnodup.2 e hmem
      unfold findFormatCode at this ⊢
      simp [List.find?, hne, this]

/-- C15: for every format code that exactly matches an entry of the table of
the built-in number formats, `newNumFmt` returns the built-in id paired with
that code and leaves the style sheet, and with it the list of the custom
number formats, as it was. With the entries the specification names, "0"
gives 1, "0.00e+00" gives 11 and "mm-dd-yy" gives 14. -/
theorem newNumFmt_built_in :
    (∀ (builtIn : List XLSXNumFmt) (styles : XLSXStyleSheet) (code : GoString)
        (b : XLSXNumFmt), findFormatCode builtIn code = some b →
      styles.newNumFmt builtIn code = ({ NumFmtId := b.NumFmtId, FormatCode := code }, styles)) ∧
    (∀ (builtIn : List XLSXNumFmt) (styles : XLSXStyleSheet),
      (builtIn.map fun e => e.FormatCode).Nodup → ∀ b ∈ builtIn,
      styles.newNumFmt builtIn b.FormatCode = (b, styles) ∧
      (styles.newNumFmt builtIn b.FormatCode).2.NumFmts = styles.NumFmts) ∧
    (∀ styles : XLSXStyleSheet,
      styles.newNumFmt namedBuiltInNumFmts (lit "0") =
        ({ NumFmtId := 1, FormatCode := lit "0" }, styles) ∧
      styles.newNumFmt namedBuiltInNumFmts (lit "0.00e+00") =
        ({ NumFmtId := 11, FormatCode := lit "0.00e+00" }, styles) ∧
      styles.newNumFmt namedBuiltInNumFmts (lit "mm-dd-yy") =
        ({ NumFmtId := 14, FormatCode := lit "mm-dd-yy" }, styles)) := by
  have first : ∀ (builtIn : List XLSXNumFmt) (styles : XLSXStyleSheet) (code : GoString)
      (b : XLSXNumFmt), findFormatCode builtIn code = some b →
      styles.newNumFmt builtIn code =
        ({ NumFmtId := b.NumFmtId, FormatCode := code }, styles) := by
    intro builtIn styles code b h
    simp [XLSXStyleSheet.newNumFmt, h]
  refine ⟨first, ?_, ?_⟩
  · intro builtIn styles hnodup b hb
    have h := first builtIn styles b.FormatCode b (findFormatCode_of_mem builtIn hnodup b hb)
    rw [h]
    exact ⟨rfl, rfl⟩
  · intro styles
    exact ⟨first _ styles _ _ (by rfl), first _ styles _ _ (by rfl), first _ styles _ _ (by rfl)⟩

/-- The maximum folded over a list of ids is at least its start and at least
each id of the list. -/
theorem le_foldl_max : ∀ (ids : List Int) (id : Int),
    id ≤ ids.foldl max id ∧ ∀ x ∈ ids, x ≤ ids.foldl max id := by
  intro ids
  induction ids with
  | nil => intro id; simp
  | cons y rest ih =>
    intro id
    obtain ⟨h1, h2⟩ := ih (max id y)
    simp only [List.foldl_cons, List.mem_cons]
    refine ⟨le_trans (le_max_left id y) h1, ?_⟩
    rintro x (rfl | hx)
    · exact le_trans (le_max_right id x) h1
    · exact h2 x hx

/-- The id of a new custom number format is at least 164 and above the id of
every entry of the list. -/
theorem nextNumFmtId_fresh (entries : List XLSXNumFmt) :
    firstCustomNumFmtId ≤ nextNumFmtId entries ∧
    ∀ e ∈ entries, e.NumFmtId < nextNumFmtId entries := by
  unfold nextNumFmtId
  cases entries with
  | nil => simp
  | cons x rest =>
    simp only [List.map_cons]
    obtain ⟨h1, h2⟩ := le_foldl_max (rest.map fun e => e.NumFmtId) x.NumFmtId
    refine ⟨le_max_left _ _, ?_⟩
    intro e he
    have hle : e.NumFmtId ≤ (rest.map fun e => e.NumFmtId).foldl max x.NumFmtId := by
      rcases List.mem_cons.1 he with rfl | hmem
      · exact h1
      · exact h2 _ (List.mem_map_of_mem (fun e => e.NumFmtId) hmem)
    have := le_max_right firstCustomNumFmtId
      ((rest.map fun e => e.NumFmtId).foldl max x.NumFmtId + 1)
    omega

/-- What `addNumFmt` does with an entry whose id is at least 164 and is the id
of no entry of the list: the entry is appended and counted. -/
theorem addNumFmt_appends (styles : XLSXStyleSheet) (x : XLSXNumFmt)
    (hid : firstCustomNumFmtId ≤ x.NumFmtId)
    (hnew : ∀ e ∈ styles.NumFmts.NumFmt, e.NumFmtId ≠ x.NumFmtId) :
    styles.addNumFmt x =
      { styles with
        NumFmts :=
          { Count := styles.NumFmts.Count + 1, NumFmt := styles.NumFmts.NumFmt ++ [x] } } := by
  unfold XLSXStyleSheet.addNumFmt
  have h1 : ¬ (x.NumFmtId < firstCustomNumFmtId) := by omega
  have h2 : (styles.NumFmts.NumFmt.any fun e => decide (e.NumFmtId = x.NumFmtId)) = false := by
    rw [List.any_eq_false]
    intro e he
    simpa using hnew e he
  simp [h1, h2]

/-- What `addNumFmt` does with any other entry: nothing. -/
theorem addNumFmt_unchanged (styles : XLSXStyleSheet) (x : XLSXNumFmt)
    (h : x.NumFmtId < firstCustomNumFmtId ∨
      ∃ e ∈ styles.NumFmts.NumFmt, e.NumFmtId = x.NumFmtId) :
    styles.addNumFmt x = styles := by
  unfold XLSXStyleSheet.addNumFmt
  by_cases h1 : x.NumFmtId < firstCustomNumFmtId
  · simp [h1]
  · rcases h with h | ⟨e, he, hee⟩
    · exact absurd h h1
    · have h2 : (styles.NumFmts.NumFmt.any fun e => decide (e.NumFmtId = x.NumFmtId)) = true := by
        rw [List.any_eq_true]
        exact ⟨e, he, by simpa using hee⟩
      simp [h1, h2]

/-- What `newNumFmt` does with a code that is neither built in nor
registered: the code is registered under the next id. -/
theorem newNumFmt_new (builtIn : List XLSXNumFmt) (styles : XLSXStyleSheet) (code : GoString)
    (hb : findFormatCode builtIn code = none)
    (hc : findFormatCode styles.NumFmts.NumFmt code = none) :
    styles.newNumFmt builtIn code =
      ({ NumFmtId := nextNumFmtId styles.NumFmts.NumFmt, FormatCode := code },
       { styles with
         NumFmts :=
           { Count := styles.NumFmts.Count + 1
             NumFmt := styles.NumFmts.NumFmt ++
               [{ NumFmtId := nextNumFmtId styles.NumFmts.NumFmt, FormatCode := code }] } }) := by
  obtain ⟨h1, h2⟩ := nextNumFmtId_fresh styles.NumFmts.NumFmt
  have := addNumFmt_appends styles
    { NumFmtId := nextNumFmtId styles.NumFmts.NumFmt, FormatCode := code } h1
    (fun e he => ne_of_lt (h2 e he))
  simp only [XLSXStyleSheet.newNumFmt, hb, hc, this]

/-- What `newNumFmt` does with a code that is not built in and is registered:
the registered entry is returned. -/
theorem newNumFmt_registered (builtIn : List XLSXNumFmt) (styles : XLSXStyleSheet)
    (code : GoString) (e : XLSXNumFmt) (hb : findFormatCode builtIn code = none)
    (hc : findFormatCode styles.NumFmts.NumFmt code = some e) :
    styles.newNumFmt builtIn code = (e, styles) := by
  simp only [XLSXStyleSheet.newNumFmt, hb, hc]

/-- The list of the custom number formats after `newNumFmt` starts with the
list before. -/
theorem newNumFmt_extends (builtIn : List XLSXNumFmt) (styles : XLSXStyleSheet)
    (code : GoString) :
    ∃ more, (styles.newNumFmt builtIn code).2.NumFmts.NumFmt =
      styles.NumFmts.NumFmt ++ more := by
  cases hb : findFormatCode builtIn code with
  | some b => exact ⟨[], by simp [XLSXStyleSheet.newNumFmt, hb]⟩
  | none =>
    cases hc : findFormatCode styles.NumFmts.NumFmt code with
    | some e => exact ⟨[], by rw [newNumFmt_registered builtIn styles code e hb hc]; simp⟩
    | none => exact ⟨_, by rw [newNumFmt_new builtIn styles code hb hc]⟩

/-- An entry found by its code is still the one found after entries are
appended. -/
theorem findFormatCode_append (entries more : List XLSXNumFmt) (code : GoString)
    (e : XLSXNumFmt) (h : findFormatCode entries code = some e) :
    findFormatCode (entries ++ more) code = some e := by
  unfold findFormatCode at h ⊢
  simp [List.find?_append, h]

/-- An entry found by its code is still the one found after any requests. -/
theorem findFormatCode_newNumFmts (builtIn : List XLSXNumFmt) (code : GoString)
    (e : XLSXNumFmt) :
    ∀ (later : List GoString) (styles : XLSXStyleSheet),
      findFormatCode styles.NumFmts.NumFmt code = some e →
      findFormatCode (newNumFmts builtIn styles later).NumFmts.NumFmt code = some e := by
  intro later
  induction later with
  | nil => intro styles h; exact h
  | cons c rest ih =>
    intro styles h
    obtain ⟨more, hmore⟩ := newNumFmt_extends builtIn styles c
    have := ih (styles.newNumFmt builtIn c).2
      (by rw [hmore]; exact findFormatCode_append _ _ _ _ h)
    simpa [newNumFmts] using this

/-- After a request of a code that is not built in, the number format
returned is the entry registered for the code. -/
theorem newNumFmt_finds (builtIn : List XLSXNumFmt) (styles : XLSXStyleSheet)
    (code : GoString) (hb : findFormatCode builtIn code = none) :
    findFormatCode (styles.newNumFmt builtIn code).2.NumFmts.NumFmt code =
      some (styles.newNumFmt builtIn code).1 := by
  cases hc : findFormatCode styles.NumFmts.NumFmt code with
  | some e => rw [newNumFmt_registered builtIn styles code e hb hc]; exact hc
  | none =>
    rw [newNumFmt_new builtIn styles code hb hc]
    unfold findFormatCode at hc ⊢
    simp [List.find?_append, hc]

/-- C16: on a style sheet with no custom number formats, the first format
code that matches no built-in code receives the id 164 and is appended, so
that the list has one entry; a second, distinct code that matches no built-in
code receives 165; and each of the two codes, requested again, is answered
with its existing id and the list does not grow. In general the same code
never receives two different ids: after any further requests on the style
sheet a code is answered as it was the first time, and that request leaves
the style sheet as it is. -/
theorem newNumFmt_custom (builtIn : List XLSXNumFmt) :
    (∀ (styles : XLSXStyleSheet) (c1 c2 : GoString),
      styles.NumFmts.NumFmt = [] →
      findFormatCode builtIn c1 = none → findFormatCode builtIn c2 = none → c1 ≠ c2 →
      ∃ s1 s2 : XLSXStyleSheet,
        styles.newNumFmt builtIn c1 = ({ NumFmtId := 164, FormatCode := c1 }, s1) ∧
        s1.NumFmts.NumFmt = [{ NumFmtId := 164, FormatCode := c1 }] ∧
        s1.NumFmts.NumFmt.length = 1 ∧
        s1.newNumFmt builtIn c2 = ({ NumFmtId := 165, FormatCode := c2 }, s2) ∧
        s2.NumFmts.NumFmt =
          [{ NumFmtId := 164, FormatCode := c1 }, { NumFmtId := 165, FormatCode := c2 }] ∧
        s2.newNumFmt builtIn c1 = ({ NumFmtId := 164, FormatCode := c1 }, s2) ∧
        s2.newNumFmt builtIn c2 = ({ NumFmtId := 165, FormatCode := c2 }, s2)) ∧
    (∀ (styles : XLSXStyleSheet) (code : GoString) (later : List GoString),
      (newNumFmts builtIn (styles.newNumFmt builtIn code).2 later).newNumFmt builtIn code =
        ((styles.newNumFmt builtIn code).1,
         newNumFmts builtIn (styles.newNumFmt builtIn code).2 later)) := by
  constructor
  · intro styles c1 c2 hempty hb1 hb2 hne
    have hne' : ¬ (c2 = c1) := fun h => hne h.symm
    have h1 := newNumFmt_new builtIn styles c1 hb1 (by rw [hempty]; rfl)
    rw [hempty] at h1
    have h2 := newNumFmt_new builtIn
      { styles with
        NumFmts :=
          { Count := styles.NumFmts.Count + 1
            NumFmt := [{ NumFmtId := 164, FormatCode := c1 }] } }
      c2 hb2 (by simp [findFormatCode, hne])
    refine ⟨{ styles with
              NumFmts :=
                { Count := styles.NumFmts.Count + 1
                  NumFmt := [{ NumFmtId := 164, FormatCode := c1 }] } },
            { styles with
              NumFmts :=
                { Count := styles.NumFmts.Count + 1 + 1
                  NumFmt := [{ NumFmtId := 164, FormatCode := c1 },
                             { NumFmtId := 165, FormatCode := c2 }] } },
            h1, rfl, rfl, h2, rfl, ?_, ?_⟩
    · apply newNumFmt_registered builtIn _ c1 _ hb1
      simp [findFormatCode]
    · apply newNumFmt_registered builtIn _ c2 _ hb2
      simp [findFormatCode, hne]
  · intro styles code later
    cases hb : findFormatCode builtIn code with
    | some b => simp [XLSXStyleSheet.newNumFmt, hb]
    | none =>
      exact newNumFmt_registered builtIn _ code _ hb
        (findFormatCode_newNumFmts builtIn code _ later _
          (newNumFmt_finds builtIn styles code hb))

/-- The requests of the test `NewNumFmt`, with a second custom code after
them: "hh:mm:ss" receives 164 and "yyyy/mm/dd" receives 165. -/
theorem newNumFmt_custom_witness :
    ∃ s1 s2 : XLSXStyleSheet,
      XLSXStyleSheet.newNumFmt namedBuiltInNumFmts {} (lit "hh:mm:ss") =
        ({ NumFmtId := 164, FormatCode := lit "hh:mm:ss" }, s1) ∧
      s1.NumFmts.NumFmt = [{ NumFmtId := 164, FormatCode := lit "hh:mm:ss" }] ∧
      s1.NumFmts.NumFmt.length = 1 ∧
      s1.newNumFmt namedBuiltInNumFmts (lit "yyyy/mm/dd") =
        ({ NumFmtId := 165, FormatCode := lit "yyyy/mm/dd" }, s2) ∧
      s2.NumFmts.NumFmt =
        [{ NumFmtId := 164, FormatCode := lit "hh:mm:ss" },
         { NumFmtId := 165, FormatCode := lit "yyyy/mm/dd" }] ∧
      s2.newNumFmt namedBuiltInNumFmts (lit "hh:mm:ss") =
        ({ NumFmtId := 164, FormatCode := lit "hh:mm:ss" }, s2) ∧
      s2.newNumFmt namedBuiltInNumFmts (lit "yyyy/mm/dd") =
        ({ NumFmtId := 165, FormatCode := lit "yyyy/mm/dd" }, s2) :=
  (newNumFmt_custom namedBuiltInNumFmts).1 {} (lit "hh:mm:ss") (lit "yyyy/mm/dd")
    (by rfl) (by rfl) (by rfl) (by decide)

/-- One call of `addNumFmt` keeps the ids of the list at 164 or above and
distinct, and keeps `Count` equal to the number of the entries. -/
theorem addNumFmt_invariant (styles : XLSXStyleSheet) (x : XLSXNumFmt)
    (hids : ∀ e ∈ styles.NumFmts.NumFmt, firstCustomNumFmtId ≤ e.NumFmtId)
    (hnodup : (styles.NumFmts.NumFmt.map fun e => e.NumFmtId).Nodup)
    (hcount : styles.NumFmts.Count = styles.NumFmts.NumFmt.length) :
    (∀ e ∈ (styles.addNumFmt x).NumFmts.NumFmt, firstCustomNumFmtId ≤ e.NumFmtId) ∧
    ((styles.addNumFmt x).NumFmts.NumFmt.map fun e => e.NumFmtId).Nodup ∧
    (styles.addNumFmt x).NumFmts.Count = (styles.addNumFmt x).NumFmts.NumFmt.length := by
  by_cases h : firstCustomNumFmtId ≤ x.NumFmtId ∧
      ∀ e ∈ styles.NumFmts.NumFmt, e.NumFmtId ≠ x.NumFmtId
  · rw [addNumFmt_appends styles x h.1 h.2]
    refine ⟨?_, ?_, ?_⟩
    · intro e he
      rcases List.mem_append.1 he with he | he
      · exact hids e he
      · rw [List.mem_singleton.1 he]
        exact h.1
    · simp only [List.map_append, List.map_cons, List.map_nil]
      rw [List.nodup_append]
      refine ⟨hnodup, List.nodup_singleton _, ?_⟩
      intro a ha hb
      rw [List.mem_singleton] at hb
      obtain ⟨e, he, hee⟩ := List.mem_map.1 ha
      exact h.2 e he (hee.trans hb)
    · simp [hcount]
  · have hun : styles.addNumFmt x = styles := by
      apply addNumFmt_unchanged
      by_cases h1 : x.NumFmtId < firstCustomNumFmtId
      · exact Or.inl h1
      · right
        by_contra hno
        apply h
        refine ⟨by omega, ?_⟩
        intro e he hee
        exact hno ⟨e, he, hee⟩
    rw [hun]
    exact ⟨hids, hnodup, hcount⟩

/-- C17: `addNumFmt` keeps the list of the custom number formats free of
built-in and of duplicate ids. It appends the entry and increases `Count` by
exactly one when the id of the entry is at least 164 and no entry with that
id is in the list; otherwise it leaves the list and `Count` as they are.
Hence, from a style sheet with no custom number format and `Count` 0, after
any calls of `addNumFmt` every id of the list is at least 164, no id is there
twice and `Count` is the number of the entries. -/
theorem addNumFmt_registers :
    (∀ (styles : XLSXStyleSheet) (x : XLSXNumFmt),
      164 ≤ x.NumFmtId → (∀ e ∈ styles.NumFmts.NumFmt, e.NumFmtId ≠ x.NumFmtId) →
      (styles.addNumFmt x).NumFmts.NumFmt = styles.NumFmts.NumFmt ++ [x] ∧
      (styles.addNumFmt x).NumFmts.Count = styles.NumFmts.Count + 1) ∧
    (∀ (styles : XLSXStyleSheet) (x : XLSXNumFmt),
      (x.NumFmtId < 164 ∨ ∃ e ∈ styles.NumFmts.NumFmt, e.NumFmtId = x.NumFmtId) →
      styles.addNumFmt x = styles) ∧
    (∀ (styles : XLSXStyleSheet) (entries : List XLSXNumFmt),
      styles.NumFmts = { Count := 0, NumFmt := [] } →
      (∀ e ∈ (addNumFmts styles entries).NumFmts.NumFmt, 164 ≤ e.NumFmtId) ∧
      ((addNumFmts styles entries).NumFmts.NumFmt.map fun e => e.NumFmtId).Nodup ∧
      (addNumFmts styles entries).NumFmts.Count =
        (addNumFmts styles entries).NumFmts.NumFmt.length) := by
  refine ⟨?_, ?_, ?_⟩
  · intro styles x hid hnew
    rw [addNumFmt_appends styles x hid hnew]
    exact ⟨rfl, rfl⟩
  · intro styles x h
    exact addNumFmt_unchanged styles x h
  · intro styles entries hstart
    have step : ∀ (entries : List XLSXNumFmt) (s : XLSXStyleSheet),
        ((∀ e ∈ s.NumFmts.NumFmt, firstCustomNumFmtId ≤ e.NumFmtId) ∧
          (s.NumFmts.NumFmt.map fun e => e.NumFmtId).Nodup ∧
          s.NumFmts.Count = s.NumFmts.NumFmt.length) →
        (∀ e ∈ (addNumFmts s entries).NumFmts.NumFmt, firstCustomNumFmtId ≤ e.NumFmtId) ∧
          ((addNumFmts s entries).NumFmts.NumFmt.map fun e => e.NumFmtId).Nodup ∧
          (addNumFmts s entries).NumFmts.Count =
            (addNumFmts s entries).NumFmts.NumFmt.length := by
      intro entries
      induction entries with
      | nil => intro s h; exact h
      | cons x rest ih =>
        intro s h
        have := ih (s.addNumFmt x) (addNumFmt_invariant s x h.1 h.2.1 h.2.2)
        simpa [addNumFmts] using this
    apply step
    rw [hstart]
    simp

/-! ## Indexed colours -/

/-- C18, counterexample: the override palette is not read 0-based. In the
palette of the one entry "00FF00FF" there is no entry at the 0-based position
1, yet `indexedColor(1)` is that entry and not the default "FF000000" (the
test `TestIndexedColor`). -/
theorem indexedColor_not_zero_based :
    recordAt ([{ Rgb := lit "00FF00FF" }] : List XLSXRgbColor) 1 = none ∧
    XLSXColors.indexedColor { IndexedColors := [{ Rgb := lit "00FF00FF" }] } 1 =
      lit "00FF00FF" ∧
    XLSXColors.indexedColor { IndexedColors := [{ Rgb := lit "00FF00FF" }] } 1 ≠
      lit "FF000000" := by
  decide

/-- C18, amended: indexed colour resolution never fails: for every override
palette and every integer index `indexedColor` returns a string. The index
counts the entries of the palette from 1: the entry at the 0-based position n
is returned for the index n + 1, and the fixed default "FF000000" is returned
when the palette is empty or the index is below 1 or above the number of the
entries. -/
theorem indexedColor_total :
    (∀ (c : XLSXColors) (index : Int), ∃ color : GoString, c.indexedColor index = color) ∧
    (∀ (c : XLSXColors) (n : Nat) (entry : XLSXRgbColor),
      c.IndexedColors[n]? = some entry → c.indexedColor (n + 1) = entry.Rgb) ∧
    (∀ (c : XLSXColors) (index : Int),
      (index < 1 ∨ (c.IndexedColors.length : Int) < index) →
      c.indexedColor index = lit "FF000000") ∧
    (∀ (c : XLSXColors) (index : Int),
      c.IndexedColors = [] → c.indexedColor index = lit "FF000000") := by
  have out : ∀ (c : XLSXColors) (index : Int),
      (index < 1 ∨ (c.IndexedColors.length : Int) < index) →
      c.indexedColor index = lit "FF000000" := by
    intro c index h
    have hnone : recordAt c.IndexedColors (index - 1) = none := by
      rw [recordAt_eq_none_iff]
      omega
    simp only [XLSXColors.indexedColor, hnone]
    rfl
  refine ⟨fun c index => ⟨_, rfl⟩, ?_, out, ?_⟩
  · intro c n entry h
    have hsome : recordAt c.IndexedColors ((n : Int) + 1 - 1) = some entry := by
      unfold recordAt
      have h0 : ¬ ((n : Int) + 1 - 1 < 0) := by omega
      have h1 : ((n : Int) + 1 - 1).toNat = n := by omega
      simp only [h0, if_false, h1]
      exact h
    simp only [XLSXColors.indexedColor, hsome]
  · intro c index hempty
    apply out
    rw [hempty]
    simp only [List.length_nil]
    omega

/-- C19: a populated override palette takes precedence over the default for
the index 1. With no override palette `indexedColor(1)` is "FF000000"; and
for every colour c, with the override palette of the one entry c,
`indexedColor(1)` is c, so "00FF00FF" for the palette of "00FF00FF". -/
theorem indexedColor_one :
    XLSXColors.indexedColor {} 1 = lit "FF000000" ∧
    (∀ c : GoString, XLSXColors.indexedColor { IndexedColors := [{ Rgb := c }] } 1 = c) ∧
    XLSXColors.indexedColor { IndexedColors := [{ Rgb := lit "00FF00FF" }] } 1 =
      lit "00FF00FF" :=
  ⟨by rfl, fun _ => by rfl, by rfl⟩

/-! ## The markup of a border -/

/-- The element of a side of a border is a side element. -/
theorem XLSXLine_Marshal_side (color : XLSXColor → List xml.Token) (name : GoString)
    (line : XLSXLine) : IsSideElement name line (XLSXLine.Marshal color name line) := by
  unfold IsSideElement XLSXLine.Marshal
  by_cases h : line.Style = []
  · exact ⟨[], [], by simp [h], fun hne => absurd h hne, fun _ => ⟨rfl, rfl⟩⟩
  · exact ⟨_, color line.Color, by simp [h], fun _ => rfl, fun he => absurd he h⟩

/-- The element of each border of a list is part of the content of the
`borders` element. -/
theorem marshalBorders_contains (color : XLSXColor → List xml.Token) :
    ∀ (borders : List XLSXBorder), ∀ border ∈ borders,
      border.Marshal color <:+: marshalBorders color borders := by
  intro borders
  induction borders with
  | nil => intro b hb; simp at hb
  | cons x rest ih =>
    intro b hb
    unfold marshalBorders
    rcases List.mem_cons.1 hb with rfl | hmem
    · exact ⟨[], marshalBorders color rest, by simp⟩
    · obtain ⟨pre, post, h⟩ := ih b hmem
      exact ⟨x.Marshal color ++ pre, post, by simp [← h]⟩

/-- C20: for every border of a style sheet, `Marshal` emits all four side
elements `left`, `right`, `top` and `bottom`, in that order, inside the
`border` element, whatever the sides contain: the element of a border is made
of the start of `border`, the four side elements and the end of `border`,
where a side with a style is written with its attribute `style` and a side
with no style is written as an empty element; and the element of each border
of the list is in the output for the list. -/
theorem XLSXBorder_Marshal_four_sides (color : XLSXColor → List xml.Token) :
    (∀ border : XLSXBorder, ∃ left right top bottom : List xml.Token,
      border.Marshal color =
        [xml.Token.StartElement { Name := { Local := lit "border" } }] ++
        left ++ right ++ top ++ bottom ++
        [xml.Token.EndElement { Local := lit "border" }] ∧
      IsSideElement (lit "left") border.Left left ∧
      IsSideElement (lit "right") border.Right right ∧
      IsSideElement (lit "top") border.Top top ∧
      IsSideElement (lit "bottom") border.Bottom bottom) ∧
    (∀ (borders : List XLSXBorder), ∀ border ∈ borders,
      border.Marshal color <:+: marshalBorders color borders) :=
  ⟨fun border =>
    ⟨_, _, _, _, rfl, XLSXLine_Marshal_side color _ border.Left,
      XLSXLine_Marshal_side color _ border.Right, XLSXLine_Marshal_side color _ border.Top,
      XLSXLine_Marshal_side color _ border.Bottom⟩,
   marshalBorders_contains color⟩

/-! ## The boolean property: the attributes read and the round trip -/

/-- An attribute that is not named `val` with an empty namespace adds nothing
to the attributes `UnmarshalXML` looks at. -/
theorem valAttrs_skip (pre post : List xml.Attr) (a : xml.Attr)
    (h : ¬ (a.Name.Space = lit "" ∧ a.Name.Local = lit "val")) :
    valAttrs (pre ++ a :: post) = valAttrs (pre ++ post) := by
  simp [valAttrs, List.filterMap_append, List.filterMap_cons, h]

/-- `UnmarshalXML` reads nothing of the start element but the attributes named
`val` with an empty namespace. -/
theorem UnmarshalXML_valAttrs (b : XLSXBoolProp) (d : xml.Decoder)
    (start1 start2 : xml.StartElement) (h : valAttrs start1.Attr = valAttrs start2.Attr) :
    XLSXBoolProp.UnmarshalXML b d start1 = XLSXBoolProp.UnmarshalXML b d start2 := by
  unfold XLSXBoolProp.UnmarshalXML
  rw [scanAttrs_eq_scanVals, scanAttrs_eq_scanVals, h]

/-- C21: the result of `XLSXBoolProp.UnmarshalXML` is determined only by the
attributes named `val` with an empty namespace. Two start elements with the
same sequence of such attributes decode to the same outcome, for the same
property and decoder: the same value, decoder and error from the method, and
the same value or error when the decoder calls it on an element, whatever
the names and the contents of the two elements. An attribute with another
local name, or named `val` in a namespace that is not empty, can be taken
away without a change of the outcome, and an element that carries only such
attributes decodes as true. -/
theorem XLSXBoolProp_UnmarshalXML_only_val (b : XLSXBoolProp) (d : xml.Decoder)
    (start1 start2 : xml.StartElement) (h : valAttrs start1.Attr = valAttrs start2.Attr) :
    XLSXBoolProp.UnmarshalXML b d start1 = XLSXBoolProp.UnmarshalXML b d start2 ∧
    (∀ content1 content2 : List Node,
      unmarshalInterface b start1 content1 = unmarshalInterface b start2 content2) ∧
    (∀ (pre post : List xml.Attr) (a : xml.Attr),
      (a.Name.Local ≠ lit "val" ∨ a.Name.Space ≠ lit "") →
      XLSXBoolProp.UnmarshalXML b d { start1 with Attr := pre ++ a :: post } =
        XLSXBoolProp.UnmarshalXML b d { start1 with Attr := pre ++ post }) ∧
    ((∀ a ∈ start1.Attr, a.Name.Local ≠ lit "val" ∨ a.Name.Space ≠ lit "") →
      XLSXBoolProp.UnmarshalXML b d start1 =
        { b := { Val := true }, d := d.Skip.2, err := d.Skip.1 } ∧
      ∀ content : List Node, unmarshalInterface b start1 content = .ok { Val := true }) := by
  refine ⟨UnmarshalXML_valAttrs b d start1 start2 h, ?_, ?_, ?_⟩
  · intro content1 content2
    rw [unmarshalInterface_eq, unmarshalInterface_eq, scanAttrs_eq_scanVals,
      scanAttrs_eq_scanVals, h]
  · intro pre post a ha
    apply UnmarshalXML_valAttrs
    apply valAttrs_skip
    rintro ⟨h1, h2⟩
    rcases ha with ha | ha
    · exact ha h2
    · exact ha h1
  · intro hall
    have hnil : valAttrs start1.Attr = [] := by
      unfold valAttrs
      rw [List.filterMap_eq_nil_iff]
      intro a ha
      have hno : ¬ (a.Name.Space = lit "" ∧ a.Name.Local = lit "val") := by
        rintro ⟨h1, h2⟩
        rcases hall a ha with h3 | h3
        · exact h3 h2
        · exact h3 h1
      simp [hno]
    constructor
    · simp [XLSXBoolProp.UnmarshalXML, scanAttrs_eq_scanVals, hnil, scanVals]
    · intro content
      rw [unmarshalInterface_eq, scanAttrs_eq_scanVals, hnil]
      rfl

/-- Two elements with the one attribute `val` of the text `0`: the one also has
an attribute `id` and a `val` in a namespace, the other has another name. -/
theorem XLSXBoolProp_UnmarshalXML_only_val_witness :
    XLSXBoolProp.UnmarshalXML {} { toks := [.EndElement { Local := lit "b" }] }
        { Name := { Local := lit "b" }
          Attr := [{ Name := { Local := lit "id" }, Value := lit "true" },
                   { Name := { Local := lit "val" }, Value := lit "0" },
                   { Name := { Space := lit "urn:x", Local := lit "val" }, Value := lit "no" }] } =
      XLSXBoolProp.UnmarshalXML {} { toks := [.EndElement { Local := lit "b" }] }
        { Name := { Local := lit "i" }
          Attr := [{ Name := { Local := lit "val" }, Value := lit "0" }] } :=
  (XLSXBoolProp_UnmarshalXML_only_val {} { toks := [.EndElement { Local := lit "b" }] }
    { Name := { Local := lit "b" }
      Attr := [{ Name := { Local := lit "id" }, Value := lit "true" },
               { Name := { Local := lit "val" }, Value := lit "0" },
               { Name := { Space := lit "urn:x", Local := lit "val" }, Value := lit "no" }] }
    { Name := { Local := lit "i" }
      Attr := [{ Name := { Local := lit "val" }, Value := lit "0" }] }
    (by decide)).1

/-- What the decoding of the tokens written for a true property yields: the
outcome of the attribute loop on the start element that was given to
`MarshalXML`, which is written with the attributes it has. -/
theorem decodeBoolField_written (e : xml.Encoder) (start : xml.StartElement)
    (fail : GoString) :
    ∃ e1, XLSXBoolProp.MarshalXML { Val := true } e start = .ok e1 ∧
      decodeBoolField (e1.toks.drop e.toks.length) fail =
        (scanVals (valAttrs start.Attr) true).map fun v => ({ Val := v }, []) := by
  refine ⟨_, (XLSXBoolProp_MarshalXML_tokens e start).2, ?_⟩
  simp only [List.drop_left, decodeBoolField, XLSXBoolProp.UnmarshalXML,
    scanAttrs_eq_scanVals]
  cases h : scanVals (valAttrs start.Attr) true with
  | error err => rfl
  | ok v =>
    have hs := Skip_tokensList [] start.Name [] fail
    simp only [Node.tokensList, List.nil_append] at hs
    simp only [hs]
    rfl

/-- C22, counterexample: a true property written with a start element that
carries the attribute `val` of the text `false` does not read back as true.
`MarshalXML` writes the start element as it is given, and the decoding of the
two tokens yields false. -/
theorem XLSXBoolProp_roundtrip_val_attr :
    XLSXBoolProp.MarshalXML { Val := true } {}
        { Name := { Local := lit "b" }
          Attr := [{ Name := { Local := lit "val" }, Value := lit "false" }] } =
      .ok { toks :=
        [.StartElement
          { Name := { Local := lit "b" }
            Attr := [{ Name := { Local := lit "val" }, Value := lit "false" }] },
         .EndElement { Local := lit "b" }] } ∧
    decodeBoolField
        [.StartElement
          { Name := { Local := lit "b" }
            Attr := [{ Name := { Local := lit "val" }, Value := lit "false" }] },
         .EndElement { Local := lit "b" }] (lit "EOF") =
      .ok ({ Val := false }, []) := by
  constructor <;> rfl

/-- C22, amended: boolean properties round-trip through their own codec when
the start element given to `MarshalXML` carries no attribute named `val` with
an empty namespace, as is the start element the encoder makes for a field.
For every boolean b, the tokens `MarshalXML` writes for b, decoded (no element
written means that the field keeps its zero value false; an element written
is handed to `UnmarshalXML`), yield b again, without error and with no token
left. With any start element a false property reads back as false, and a true
one reads back as what the `val` attributes of the start element say. -/
theorem XLSXBoolProp_roundtrip (b : XLSXBoolProp) (e : xml.Encoder)
    (start : xml.StartElement) (fail : GoString) (h : valAttrs start.Attr = []) :
    (∃ e1, b.MarshalXML e start = .ok e1 ∧
      decodeBoolField (e1.toks.drop e.toks.length) fail = .ok (b, [])) ∧
    (∀ start1 : xml.StartElement, ∃ e1,
      XLSXBoolProp.MarshalXML { Val := false } e start1 = .ok e1 ∧
      decodeBoolField (e1.toks.drop e.toks.length) fail = .ok ({ Val := false }, [])) ∧
    (∀ start1 : xml.StartElement, ∃ e1,
      XLSXBoolProp.MarshalXML { Val := true } e start1 = .ok e1 ∧
      decodeBoolField (e1.toks.drop e.toks.length) fail =
        (scanVals (valAttrs start1.Attr) true).map fun v => ({ Val := v }, [])) := by
  have hfalse : ∀ start1 : xml.StartElement, ∃ e1,
      XLSXBoolProp.MarshalXML { Val := false } e start1 = .ok e1 ∧
      decodeBoolField (e1.toks.drop e.toks.length) fail = .ok ({ Val := false }, []) := by
    intro start1
    refine ⟨e, (XLSXBoolProp_MarshalXML_tokens e start1).1, ?_⟩
    simp [decodeBoolField]
  refine ⟨?_, hfalse, fun start1 => decodeBoolField_written e start1 fail⟩
  obtain ⟨v⟩ := b
  cases v with
  | false => exact hfalse start
  | true =>
    obtain ⟨e1, h1, h2⟩ := decodeBoolField_written e start fail
    refine ⟨e1, h1, ?_⟩
    rw [h2, h]
    rfl

/-- A true property written as the element `b` with no attribute, behind the
tokens of an element `i`, reads back as true. -/
theorem XLSXBoolProp_roundtrip_witness :
    ∃ e1,
      XLSXBoolProp.MarshalXML { Val := true }
          { toks := [.StartElement { Name := { Local := lit "i" } },
                     .EndElement { Local := lit "i" }] }
          { Name := { Local := lit "b" } } = .ok e1 ∧
      decodeBoolField (e1.toks.drop 2) (lit "EOF") = .ok ({ Val := true }, []) :=
  (XLSXBoolProp_roundtrip { Val := true }
    { toks := [.StartElement { Name := { Local := lit "i" } },
               .EndElement { Local := lit "i" }] }
    { Name := { Local := lit "b" } } (lit "EOF") (by rfl)).1

/-! ## The worksheet file of a sheet -/

/-- C23: `worksheetFileForSheet` resolves the worksheet part by a fixed order
of fallbacks. If `sheet.Id` is a key of `sheetXMLMap` the result is what
`worksheets` has under the name stored for it, whatever `sheet.SheetId` is
and whatever `worksheets` has under other names; otherwise, if `sheet.SheetId`
is not empty, the result is what `worksheets` has under `sheet` followed by
`sheet.SheetId`, else what it has under `sheet` followed by `sheet.Id`. The
result is nil exactly when the chosen name is not a key of `worksheets` or is
a key that maps to nil. -/
theorem worksheetFileForSheet_order {File : Type} (sheet : XLSXSheet)
    (worksheets : GoMap (Option File)) (sheetXMLMap : GoMap GoString) :
    (∀ name, sheetXMLMap sheet.Id = some name →
      worksheetFileForSheet sheet worksheets sheetXMLMap = worksheets.index name ∧
      ∀ sheetId : GoString,
        worksheetFileForSheet { sheet with SheetId := sheetId } worksheets sheetXMLMap =
          worksheets.index name) ∧
    (sheetXMLMap sheet.Id = none → sheet.SheetId ≠ [] →
      worksheetFileForSheet sheet worksheets sheetXMLMap =
        worksheets.index (lit "sheet" ++ sheet.SheetId)) ∧
    (sheetXMLMap sheet.Id = none → sheet.SheetId = [] →
      worksheetFileForSheet sheet worksheets sheetXMLMap =
        worksheets.index (lit "sheet" ++ sheet.Id)) ∧
    (worksheetFileForSheet sheet worksheets sheetXMLMap = none ↔
      worksheets (sheetNameForSheet sheet sheetXMLMap) = none ∨
      worksheets (sheetNameForSheet sheet sheetXMLMap) = some none) ∧
    (∀ f, worksheetFileForSheet sheet worksheets sheetXMLMap = some f ↔
      worksheets (sheetNameForSheet sheet sheetXMLMap) = some (some f)) := by
  have hlit : lit "" = ([] : GoString) := by decide
  refine ⟨?_, ?_, ?_, ?_, ?_⟩
  · intro name h
    constructor
    · simp [worksheetFileForSheet, sheetNameForSheet, h]
    · intro sheetId
      simp [worksheetFileForSheet, sheetNameForSheet, h]
  · intro h hne
    simp [worksheetFileForSheet, sheetNameForSheet, h, hlit, hne]
  · intro h he
    simp [worksheetFileForSheet, sheetNameForSheet, h, hlit, he]
  · unfold worksheetFileForSheet GoMap.index
    cases worksheets (sheetNameForSheet sheet sheetXMLMap) with
    | none => simp
    | some f => cases f <;> simp
  · intro f
    unfold worksheetFileForSheet GoMap.index
    cases worksheets (sheetNameForSheet sheet sheetXMLMap) with
    | none => simp
    | some g => cases g <;> simp

/-! ## The text of an `XLSXT` through the markup -/

/-- What `utf8.DecodeRune` yields on bytes: an invalid first byte; or a rune
below 128 that is the first byte; or a rune of 128 or more whose bytes are
there and are 128 or more. -/
theorem DecodeRune_cases (b : Nat) (rest : List Nat) :
    ((utf8.DecodeRune (b :: rest)).1 = utf8.RuneError ∧ (utf8.DecodeRune (b :: rest)).2 = 1) ∨
    ((utf8.DecodeRune (b :: rest)).2 = 1 ∧ (utf8.DecodeRune (b :: rest)).1 = b ∧ b < 128) ∨
    (2 ≤ (utf8.DecodeRune (b :: rest)).2 ∧
      (utf8.DecodeRune (b :: rest)).2 ≤ (b :: rest).length ∧
      128 ≤ (utf8.DecodeRune (b :: rest)).1 ∧
      ∀ x ∈ (b :: rest).take (utf8.DecodeRune (b :: rest)).2, 128 ≤ x) := by
  unfold utf8.DecodeRune
  by_cases h1 : b < 0x80
  · right; left
    simp [h1]
  by_cases h2 : b < 0xC2
  · left
    simp [h1, h2]
  by_cases h3 : b < 0xE0
  · simp only [h1, h2, h3, if_true, if_false]
    cases rest with
    | nil => left; exact ⟨rfl, rfl⟩
    | cons b1 r1 =>
      by_cases hc : 0x80 ≤ b1 ∧ b1 ≤ 0xBF
      · right; right
        simp only [hc, and_self, if_true]
        refine ⟨le_refl _, by simp, by omega, ?_⟩
        intro x hx
        simp at hx
        omega
      · left
        simp [hc]
  by_cases h4 : b < 0xF0
  · simp only [h1, h2, h3, h4, if_true, if_false]
    rcases rest with _ | ⟨b1, _ | ⟨b2, r2⟩⟩
    · left; exact ⟨rfl, rfl⟩
    · left; exact ⟨rfl, rfl⟩
    · by_cases hc : (if b = 0xE0 then 0xA0 else 0x80) ≤ b1 ∧
          b1 ≤ (if b = 0xED then 0x9F else 0xBF) ∧ 0x80 ≤ b2 ∧ b2 ≤ 0xBF
      · right; right
        simp only [hc, and_self, if_true]
        obtain ⟨hc1, hc2, hc3, hc4⟩ := hc
        have hb1 : 0x80 ≤ b1 := by split_ifs at hc1 <;> omega
        refine ⟨by omega, by simp, ?_, ?_⟩
        · split_ifs at hc1 <;> omega
        · intro x hx
          simp at hx
          omega
      · left
        simp [hc]
  by_cases h5 : b < 0xF5
  · simp only [h1, h2, h3, h4, h5, if_true, if_false]
    rcases rest with _ | ⟨b1, _ | ⟨b2, _ | ⟨b3, r3⟩⟩⟩
    · left; exact ⟨rfl, rfl⟩
    · left; exact ⟨rfl, rfl⟩
    · left; exact ⟨rfl, rfl⟩
    · by_cases hc : (if b = 0xF0 then 0x90 else 0x80) ≤ b1 ∧
          b1 ≤ (if b = 0xF4 then 0x8F else 0xBF) ∧ 0x80 ≤ b2 ∧ b2 ≤ 0xBF ∧
          0x80 ≤ b3 ∧ b3 ≤ 0xBF
      · right; right
        simp only [hc, and_self, if_true]
        obtain ⟨hc1, hc2, hc3, hc4, hc5, hc6⟩ := hc
        have hb1 : 0x80 ≤ b1 := by split_ifs at hc1 <;> omega
        refine ⟨by omega, by simp, ?_, ?_⟩
        · split_ifs at hc1 <;> omega
        · intro x hx
          simp at hx
          omega
      · left
        simp [hc]
  · left
    simp [h1, h2, h3, h4, h5]

/-- The decoder takes bytes that are neither `&`, `<`, `>` nor a carriage
return into the text as they are. -/
theorem textLoop_plain (hs : List Nat) :
    (∀ x ∈ hs, x ≠ 38 ∧ x ≠ 60 ∧ x ≠ 62 ∧ x ≠ 13) →
    ∀ (fuel : Nat) (tail : List Nat) (b0 b1 : Nat) (buf : GoString),
      hs.length ≤ fuel → b1 ≠ 13 →
      ∃ c0 c1, c1 ≠ 13 ∧
        xml.Decoder.textLoop fuel (hs ++ tail) b0 b1 buf =
          xml.Decoder.textLoop (fuel - hs.length) tail c0 c1 (buf ++ hs) := by
  induction hs with
  | nil =>
    intro _ fuel tail b0 b1 buf _ hb1
    exact ⟨b0, b1, hb1, by simp⟩
  | cons x xs ih =>
    intro hplain fuel tail b0 b1 buf hfuel hb1
    obtain ⟨h38, h60, h62, h13⟩ := hplain x (List.mem_cons_self _ _)
    have hrest : ∀ y ∈ xs, y ≠ 38 ∧ y ≠ 60 ∧ y ≠ 62 ∧ y ≠ 13 :=
      fun y hy => hplain y (List.mem_cons_of_mem _ hy)
    cases fuel with
    | zero => simp at hfuel
    | succ fuel =>
      simp only [List.length_cons] at hfuel
      obtain ⟨c0, c1, hc1, hstep⟩ := ih hrest fuel tail b1 x (buf ++ [x]) (by omega) h13
      refine ⟨c0, c1, hc1, ?_⟩
      have hunfold : xml.Decoder.textLoop (fuel + 1) (x :: (xs ++ tail)) b0 b1 buf =
          xml.Decoder.textLoop fuel (xs ++ tail) b1 x (buf ++ [x]) := by
        simp only [xml.Decoder.textLoop, h38, h60, h62, h13, hb1, and_false, false_and,
          if_false]
      rw [List.cons_append, hunfold, hstep]
      simp

/-- The entities `escapeText` writes, byte by byte. -/
theorem escapeRune_entities (w : Nat) :
    xml.escapeRune 34 w false = some [38, 35, 51, 52, 59] ∧
    xml.escapeRune 39 w false = some [38, 35, 51, 57, 59] ∧
    xml.escapeRune 38 w false = some [38, 97, 109, 112, 59] ∧
    xml.escapeRune 60 w false = some [38, 108, 116, 59] ∧
    xml.escapeRune 62 w false = some [38, 103, 116, 59] ∧
    xml.escapeRune 9 w false = some [38, 35, 120, 57, 59] ∧
    xml.escapeRune 13 w false = some [38, 35, 120, 68, 59] ∧
    xml.escapeRune 10 w false = none :=
  ⟨rfl, rfl, rfl, rfl, rfl, rfl, rfl, rfl⟩

/-- The decoder reads each of these entities as the rune it was written
for. -/
theorem readEntity_entities (tail : List Nat) :
    xml.Decoder.readEntity ([35, 51, 52, 59] ++ tail) = .ok ([34], tail) ∧
    xml.Decoder.readEntity ([35, 51, 57, 59] ++ tail) = .ok ([39], tail) ∧
    xml.Decoder.readEntity ([97, 109, 112, 59] ++ tail) = .ok ([38], tail) ∧
    xml.Decoder.readEntity ([108, 116, 59] ++ tail) = .ok ([60], tail) ∧
    xml.Decoder.readEntity ([103, 116, 59] ++ tail) = .ok ([62], tail) ∧
    xml.Decoder.readEntity ([35, 120, 57, 59] ++ tail) = .ok ([9], tail) ∧
    xml.Decoder.readEntity ([35, 120, 68, 59] ++ tail) = .ok ([13], tail) :=
  ⟨rfl, rfl, rfl, rfl, rfl, rfl, rfl⟩

/-- The entity written for a rune of the XML character range is read by the
decoder as that rune, which is a single byte. -/
theorem readEntity_escapeRune (r w : Nat) (esc : GoString)
    (h : xml.escapeRune r w false = some esc) (hr : xml.isInCharacterRange r = true)
    (hv : ¬ (r = 0xFFFD ∧ w = 1)) :
    r < 128 ∧ ∃ t, esc = 38 :: t ∧
      ∀ tail, xml.Decoder.readEntity (t ++ tail) = .ok ([r], tail) := by
  obtain ⟨e1, e2, e3, e4, e5, e6, e7, e8⟩ := escapeRune_entities w
  by_cases h1 : r = 34
  · subst h1; rw [e1] at h; cases h
    exact ⟨by decide, _, rfl, fun tail => (readEntity_entities tail).1⟩
  by_cases h2 : r = 39
  · subst h2; rw [e2] at h; cases h
    exact ⟨by decide, _, rfl, fun tail => (readEntity_entities tail).2.1⟩
  by_cases h3 : r = 38
  · subst h3; rw [e3] at h; cases h
    exact ⟨by decide, _, rfl, fun tail => (readEntity_entities tail).2.2.1⟩
  by_cases h4 : r = 60
  · subst h4; rw [e4] at h; cases h
    exact ⟨by decide, _, rfl, fun tail => (readEntity_entities tail).2.2.2.1⟩
  by_cases h5 : r = 62
  · subst h5; rw [e5] at h; cases h
    exact ⟨by decide, _, rfl, fun tail => (readEntity_entities tail).2.2.2.2.1⟩
  by_cases h6 : r = 9
  · subst h6; rw [e6] at h; cases h
    exact ⟨by decide, _, rfl, fun tail => (readEntity_entities tail).2.2.2.2.2.1⟩
  by_cases h7 : r = 13
  · subst h7; rw [e7] at h; cases h
    exact ⟨by decide, _, rfl, fun tail => (readEntity_entities tail).2.2.2.2.2.2⟩
  by_cases h8 : r = 10
  · subst h8; rw [e8] at h; cases h
  · exfalso
    have hw : ¬ (r = 65533 ∧ w = 1) := hv
    simp [xml.escapeRune, h1, h2, h3, h4, h5, h6, h7, h8, hr, hw] at h

/-- A rune that `escapeText` writes as it is, is none of the runes the
decoder treats apart. -/
theorem escapeRune_none (r w : Nat) (h : xml.escapeRune r w false = none) :
    r ≠ 38 ∧ r ≠ 60 ∧ r ≠ 62 ∧ r ≠ 13 := by
  obtain ⟨e1, e2, e3, e4, e5, e6, e7, e8⟩ := escapeRune_entities w
  refine ⟨?_, ?_, ?_, ?_⟩ <;> intro hc <;> subst hc
  · rw [e3] at h; cases h
  · rw [e4] at h; cases h
  · rw [e5] at h; cases h
  · rw [e7] at h; cases h

/-- One round of the loop of `escapeText`. -/
theorem escapeLoop_succ (fuel b : Nat) (rest : List Nat) :
    xml.escapeLoop false (fuel + 1) (b :: rest) =
      (match xml.escapeRune (utf8.DecodeRune (b :: rest)).1 (utf8.DecodeRune (b :: rest)).2
          false with
        | some esc => esc
        | none => (b :: rest).take (utf8.DecodeRune (b :: rest)).2) ++
      xml.escapeLoop false fuel ((b :: rest).drop (utf8.DecodeRune (b :: rest)).2) := rfl

/-- One round of the check of the runes of a text that passes it. -/
theorem checkRunes_succ (fuel b : Nat) (rest : List Nat)
    (h : xml.checkRunes (fuel + 1) (b :: rest) = none) :
    ¬ ((utf8.DecodeRune (b :: rest)).1 = utf8.RuneError ∧ (utf8.DecodeRune (b :: rest)).2 = 1) ∧
    xml.isInCharacterRange (utf8.DecodeRune (b :: rest)).1 = true ∧
    xml.checkRunes fuel ((b :: rest).drop (utf8.DecodeRune (b :: rest)).2) = none := by
  unfold xml.checkRunes at h
  simp only at h
  by_cases h1 : (utf8.DecodeRune (b :: rest)).1 = utf8.RuneError ∧
      (utf8.DecodeRune (b :: rest)).2 = 1
  · rw [if_pos h1] at h; cases h
  · rw [if_neg h1] at h
    by_cases h2 : xml.isInCharacterRange (utf8.DecodeRune (b :: rest)).1 = false
    · rw [if_pos h2] at h; cases h
    · rw [if_neg h2] at h
      exact ⟨h1, by simpa using h2, h⟩

/-- The decoder reads the bytes written for a text that passes its check as
that text: the loop of `text`, started anywhere behind a byte that is no
carriage return, adds the text to what it has read and stops in front of
the `<` that follows. -/
theorem textLoop_escapeLoop :
    ∀ (n : Nat) (s : GoString), s.length ≤ n → xml.checkRunes n s = none →
      ∀ (fuel : Nat) (tail : List Nat) (b0 b1 : Nat) (buf : GoString),
        (xml.escapeLoop false n s).length + 1 ≤ fuel → b1 ≠ 13 →
        xml.Decoder.textLoop fuel (xml.escapeLoop false n s ++ 60 :: tail) b0 b1 buf =
          .ok (buf ++ s, 60 :: tail) := by
  intro n
  induction n with
  | zero =>
    intro s hs _ fuel tail b0 b1 buf hfuel _
    have : s = [] := List.length_eq_zero.1 (Nat.le_zero.1 hs)
    subst this
    cases fuel with
    | zero => simp at hfuel
    | succ fuel => simp [xml.escapeLoop, xml.Decoder.textLoop]
  | succ n ih =>
    intro s hs hcheck fuel tail b0 b1 buf hfuel hb1
    cases s with
    | nil =>
      cases fuel with
      | zero => simp at hfuel
      | succ fuel => simp [xml.escapeLoop, xml.Decoder.textLoop]
    | cons b rest =>
      obtain ⟨hvalid, hrange, hnext⟩ := checkRunes_succ n b rest hcheck
      rw [escapeLoop_succ] at hfuel ⊢
      have hcases := DecodeRune_cases b rest
      -- the width of the rune and the bytes it covers
      have hw : 1 ≤ (utf8.DecodeRune (b :: rest)).2 ∧
          (utf8.DecodeRune (b :: rest)).2 ≤ (b :: rest).length := by
        rcases hcases with h | h | h
        · exact absurd h hvalid
        · rw [h.1]; simp
        · exact ⟨by omega, h.2.1⟩
      have hdrop : ((b :: rest).drop (utf8.DecodeRune (b :: rest)).2).length ≤ n := by
        rw [List.length_drop]
        simp only [List.length_cons] at hs hw ⊢
        omega
      have hsplit : (b :: rest).take (utf8.DecodeRune (b :: rest)).2 ++
          (b :: rest).drop (utf8.DecodeRune (b :: rest)).2 = b :: rest :=
        List.take_append_drop _ _
      cases hesc : xml.escapeRune (utf8.DecodeRune (b :: rest)).1
          (utf8.DecodeRune (b :: rest)).2 false with
      | some esc =>
        rw [hesc] at hfuel
        obtain ⟨hlt, t, ht, hread⟩ := readEntity_escapeRune _ _ esc hesc hrange hvalid
        -- the rune is a single byte, the first one
        have hone : (utf8.DecodeRune (b :: rest)).2 = 1 ∧ (utf8.DecodeRune (b :: rest)).1 = b := by
          rcases hcases with h | h | h
          · exact absurd h hvalid
          · exact ⟨h.1, h.2.1⟩
          · omega
        subst ht
        cases fuel with
        | zero => simp at hfuel
        | succ fuel =>
          simp only [List.cons_append, List.append_assoc]
          have hstep : xml.Decoder.textLoop (fuel + 1)
              (38 :: (t ++ (xml.escapeLoop false n
                ((b :: rest).drop (utf8.DecodeRune (b :: rest)).2) ++ 60 :: tail))) b0 b1 buf =
              xml.Decoder.textLoop fuel
                (xml.escapeLoop false n ((b :: rest).drop (utf8.DecodeRune (b :: rest)).2) ++
                  60 :: tail) 0 0 (buf ++ [(utf8.DecodeRune (b :: rest)).1]) := by
            simp only [xml.Decoder.textLoop, hread]
            simp
          rw [hstep, ih _ hdrop hnext fuel tail 0 0 _ (by
            simp only [List.length_cons, List.length_append] at hfuel ⊢
            omega) (by decide)]
          rw [hone.1] at hsplit ⊢
          rw [hone.2]
          simp
      | none =>
        rw [hesc] at hfuel
        simp only [List.append_assoc]
        have hplain : ∀ x ∈ (b :: rest).take (utf8.DecodeRune (b :: rest)).2,
            x ≠ 38 ∧ x ≠ 60 ∧ x ≠ 62 ∧ x ≠ 13 := by
          rcases hcases with h | h | h
          · exact absurd h hvalid
          · intro x hx
            rw [h.1] at hx
            simp at hx
            subst hx
            have := escapeRune_none _ _ hesc
            rw [h.2.1] at this
            exact this
          · intro x hx
            have := h.2.2.2 x hx
            omega
        obtain ⟨c0, c1, hc1, hstep⟩ := textLoop_plain _ hplain fuel
          (xml.escapeLoop false n ((b :: rest).drop (utf8.DecodeRune (b :: rest)).2) ++
            60 :: tail) b0 b1 buf
          (by simp only [List.length_append] at hfuel; omega) hb1
        rw [hstep, ih _ hdrop hnext _ tail c0 c1 _ (by
          simp only [List.length_append] at hfuel ⊢
          omega) hc1]
        rw [List.append_assoc, hsplit]

/-- The decoder reads the bytes the encoder wrote for a text that passes the
check of the decoder, a `<` standing behind them, as that text. -/
theorem text_escapeText (s : GoString) (tail : List Nat) (h : xml.checkText s = none) :
    xml.Decoder.text (xml.escapeText s false ++ 60 :: tail) = .ok (s, 60 :: tail) := by
  unfold xml.Decoder.text
  have hloop := textLoop_escapeLoop s.length s (le_refl _) h
    (xml.escapeText s false ++ 60 :: tail).length tail 0 0 []
    (by simp [xml.escapeText]) (by decide)
  unfold xml.escapeText at hloop ⊢
  rw [hloop]
  simp only [List.nil_append, h]

/-- No byte is written for the empty text only, among the texts that pass the
check of the decoder. -/
theorem escapeText_eq_nil (s : GoString) (h : xml.checkText s = none)
    (he : xml.escapeText s false = []) : s = [] := by
  have hloop := textLoop_escapeLoop s.length s (le_refl _) h 1 [] 0 0 []
    (by unfold xml.escapeText at he; simp [he]) (by decide)
  unfold xml.escapeText at he
  rw [he] at hloop
  simp [xml.Decoder.textLoop] at hloop
  exact hloop

/-- What the decoder delivers for the character data written for a text that
passes its check: nothing for the empty text, the text as one token
otherwise. -/
theorem readBack_valid (s : GoString) (h : xml.checkText s = none) :
    xml.readBack s = .ok (if s = [] then [] else [.CharData s]) := by
  unfold xml.readBack
  cases he : xml.escapeText s false with
  | nil =>
    have := escapeText_eq_nil s h he
    simp [this]
  | cons b markup =>
    have hne : s ≠ [] := by
      intro hs
      subst hs
      simp [xml.escapeText, xml.escapeLoop] at he
    have ht := text_escapeText s [] h
    rw [he] at ht
    simp only [List.cons_append] at ht ⊢
    rw [ht]
    simp [hne]

/-- A text of bytes below 128 that are tab, line feed, carriage return or 32
and more passes the check of the decoder: white space and line feeds
included. -/
theorem checkText_ascii :
    ∀ (n : Nat) (s : GoString),
      (∀ b ∈ s, b < 128 ∧ (32 ≤ b ∨ b = 9 ∨ b = 10 ∨ b = 13)) → xml.checkRunes n s = none := by
  intro n
  induction n with
  | zero => intro s _; rfl
  | succ n ih =>
    intro s hs
    cases s with
    | nil => rfl
    | cons b rest =>
      obtain ⟨hlt, hb⟩ := hs b (List.mem_cons_self _ _)
      have hd : utf8.DecodeRune (b :: rest) = (b, 1) := by
        simp [utf8.DecodeRune, hlt]
      have hrange : xml.isInCharacterRange b = true := by
        unfold xml.isInCharacterRange
        rcases hb with hb | hb | hb | hb
        · have : b ≤ 0xD7FF := by omega
          simp [hb, this]
        · simp [hb]
        · simp [hb]
        · simp [hb]
      have hne : ¬ (b = utf8.RuneError) := by
        unfold utf8.RuneError
        omega
      unfold xml.checkRunes
      simp only [hd, hne, false_and, if_false, hrange, Bool.true_eq_false, List.drop_succ_cons,
        List.drop_zero]
      exact ih rest fun x hx => hs x (List.mem_cons_of_mem _ hx)

set_option maxRecDepth 100000 in
/-- The masks of the UTF-8 encoder, on a byte, as arithmetic. -/
theorem mask_or_fin :
    ∀ x : Fin 256,
      (UInt8.mk (BitVec.ofFin x) &&& 0x1f ||| 0xc0).toNat = 0xC0 + x.val % 32 ∧
      (UInt8.mk (BitVec.ofFin x) &&& 0x3f ||| 0x80).toNat = 0x80 + x.val % 64 ∧
      (UInt8.mk (BitVec.ofFin x) &&& 0x0f ||| 0xe0).toNat = 0xE0 + x.val % 16 ∧
      (UInt8.mk (BitVec.ofFin x) &&& 0x07 ||| 0xf0).toNat = 0xF0 + x.val % 8 := by
  decide

/-- The masks of the UTF-8 encoder, on a byte, as arithmetic. -/
theorem mask_or (x : UInt8) :
    (x &&& 0x1f ||| 0xc0).toNat = 0xC0 + x.toNat % 32 ∧
    (x &&& 0x3f ||| 0x80).toNat = 0x80 + x.toNat % 64 ∧
    (x &&& 0x0f ||| 0xe0).toNat = 0xE0 + x.toNat % 16 ∧
    (x &&& 0x07 ||| 0xf0).toNat = 0xF0 + x.toNat % 8 := by
  cases x with
  | mk v =>
    cases v with
    | ofFin f => exact mask_or_fin f

/-- The low byte of a 32-bit word shifted right, as arithmetic. -/
theorem shift_byte (v : UInt32) :
    (v.toUInt8).toNat = v.toNat % 256 ∧
    ((v >>> 6).toUInt8).toNat = v.toNat / 64 % 256 ∧
    ((v >>> 12).toUInt8).toNat = v.toNat / 4096 % 256 ∧
    ((v >>> 18).toUInt8).toNat = v.toNat / 262144 % 256 := by
  refine ⟨rfl, ?_, ?_, ?_⟩
  · show (v.toBitVec >>> ((6 : UInt32).toBitVec.toNat % 32)).toNat % 256 = _
    simp [BitVec.toNat_ushiftRight, Nat.shiftRight_eq_div_pow]
    rfl
  · show (v.toBitVec >>> ((12 : UInt32).toBitVec.toNat % 32)).toNat % 256 = _
    simp [BitVec.toNat_ushiftRight, Nat.shiftRight_eq_div_pow]
    rfl
  · show (v.toBitVec >>> ((18 : UInt32).toBitVec.toNat % 32)).toNat % 256 = _
    simp [BitVec.toNat_ushiftRight, Nat.shiftRight_eq_div_pow]
    rfl

/-- The bytes of a character in UTF-8, as arithmetic on its code. -/
theorem charBytes_eq (c : Char) :
    (c.toNat < 0x80 ∧ charBytes c = [c.toNat]) ∨
    (0x80 ≤ c.toNat ∧ c.toNat < 0x800 ∧
      charBytes c = [0xC0 + c.toNat / 64, 0x80 + c.toNat % 64]) ∨
    (0x800 ≤ c.toNat ∧ c.toNat < 0x10000 ∧
      charBytes c = [0xE0 + c.toNat / 4096, 0x80 + c.toNat / 64 % 64, 0x80 + c.toNat % 64]) ∨
    (0x10000 ≤ c.toNat ∧ c.toNat < 0x110000 ∧
      charBytes c = [0xF0 + c.toNat / 262144, 0x80 + c.toNat / 4096 % 64,
        0x80 + c.toNat / 64 % 64, 0x80 + c.toNat % 64]) := by
  have hv : c.toNat = c.val.toNat := rfl
  have hvalid : c.val.toNat < 0x110000 := by
    have := c.valid
    rcases this with h | h
    · have : c.val.toNat < 0xd800 := h
      omega
    · exact h.2
  obtain ⟨s0, s6, s12, s18⟩ := shift_byte c.val
  unfold charBytes String.utf8EncodeChar
  simp only
  by_cases h1 : c.val ≤ 0x7f
  · left
    have h1' : c.val.toNat ≤ 0x7f := h1
    refine ⟨by omega, ?_⟩
    simp only [h1, if_true, List.map_cons, List.map_nil, s0, hv]
    congr 1
    omega
  have h1' : ¬ c.val.toNat ≤ 0x7f := h1
  by_cases h2 : c.val ≤ 0x7ff
  · right; left
    have h2' : c.val.toNat ≤ 0x7ff := h2
    refine ⟨by omega, by omega, ?_⟩
    simp only [h1, h2, if_true, if_false, List.map_cons, List.map_nil, (mask_or _).1,
      (mask_or _).2.1, s0, s6, hv]
    congr 1
    · omega
    · congr 1
      omega
  have h2' : ¬ c.val.toNat ≤ 0x7ff := h2
  by_cases h3 : c.val ≤ 0xffff
  · right; right; left
    have h3' : c.val.toNat ≤ 0xffff := h3
    refine ⟨by omega, by omega, ?_⟩
    simp only [h1, h2, h3, if_true, if_false, List.map_cons, List.map_nil, (mask_or _).2.1,
      (mask_or _).2.2.1, s0, s6, s12, hv]
    congr 1
    · omega
    · congr 1
      · omega
      · congr 1
        omega
  · right; right; right
    have h3' : ¬ c.val.toNat ≤ 0xffff := h3
    refine ⟨by omega, by omega, ?_⟩
    simp only [h1, h2, h3, if_false, List.map_cons, List.map_nil, (mask_or _).2.1,
      (mask_or _).2.2.2, s0, s6, s12, s18, hv]
    congr 1
    · omega
    · congr 1
      · omega
      · congr 1
        · omega
        · congr 1
          omega

/-- Go `utf8.DecodeRune` on the UTF-8 of a character gives the character and
the number of its bytes. -/
theorem DecodeRune_charBytes (c : Char) (rest : List Nat) :
    utf8.DecodeRune (charBytes c ++ rest) = (c.toNat, (charBytes c).length) := by
  have hvalid : c.toNat < 0xd800 ∨ (0xdfff < c.toNat ∧ c.toNat < 0x110000) := c.valid
  rcases charBytes_eq c with ⟨h1, hb⟩ | ⟨h1, h2, hb⟩ | ⟨h1, h2, hb⟩ | ⟨h1, h2, hb⟩
  · rw [hb]
    simp [utf8.DecodeRune, h1]
  · rw [hb]
    have a1 : ¬ (0xC0 + c.toNat / 64 < 0x80) := by omega
    have a2 : ¬ (0xC0 + c.toNat / 64 < 0xC2) := by omega
    have a3 : 0xC0 + c.toNat / 64 < 0xE0 := by omega
    have a4 : 0x80 ≤ 0x80 + c.toNat % 64 ∧ 0x80 + c.toNat % 64 ≤ 0xBF := by omega
    simp only [List.cons_append, List.nil_append, utf8.DecodeRune, a1, a2, a3, a4, and_self,
      if_true, if_false, List.length_cons, List.length_nil]
    rw [Prod.mk.injEq]
    exact ⟨by omega, rfl⟩
  · rw [hb]
    have a1 : ¬ (0xE0 + c.toNat / 4096 < 0x80) := by omega
    have a2 : ¬ (0xE0 + c.toNat / 4096 < 0xC2) := by omega
    have a3 : ¬ (0xE0 + c.toNat / 4096 < 0xE0) := by omega
    have a4 : 0xE0 + c.toNat / 4096 < 0xF0 := by omega
    have a5 : (if 0xE0 + c.toNat / 4096 = 0xE0 then 0xA0 else 0x80) ≤ 0x80 + c.toNat / 64 % 64 ∧
        0x80 + c.toNat / 64 % 64 ≤ (if 0xE0 + c.toNat / 4096 = 0xED then 0x9F else 0xBF) ∧
        0x80 ≤ 0x80 + c.toNat % 64 ∧ 0x80 + c.toNat % 64 ≤ 0xBF := by
      refine ⟨?_, ?_, by omega, by omega⟩
      · split_ifs <;> omega
      · split_ifs <;> omega
    simp only [List.cons_append, List.nil_append, utf8.DecodeRune, a1, a2, a3, a4, a5, and_self,
      if_true, if_false, List.length_cons, List.length_nil]
    rw [Prod.mk.injEq]
    exact ⟨by omega, rfl⟩
  · rw [hb]
    have a1 : ¬ (0xF0 + c.toNat / 262144 < 0x80) := by omega
    have a2 : ¬ (0xF0 + c.toNat / 262144 < 0xC2) := by omega
    have a3 : ¬ (0xF0 + c.toNat / 262144 < 0xE0) := by omega
    have a4 : ¬ (0xF0 + c.toNat / 262144 < 0xF0) := by omega
    have a5 : 0xF0 + c.toNat / 262144 < 0xF5 := by omega
    have a6 : (if 0xF0 + c.toNat / 262144 = 0xF0 then 0x90 else 0x80) ≤
          0x80 + c.toNat / 4096 % 64 ∧
        0x80 + c.toNat / 4096 % 64 ≤ (if 0xF0 + c.toNat / 262144 = 0xF4 then 0x8F else 0xBF) ∧
        0x80 ≤ 0x80 + c.toNat / 64 % 64 ∧ 0x80 + c.toNat / 64 % 64 ≤ 0xBF ∧
        0x80 ≤ 0x80 + c.toNat % 64 ∧ 0x80 + c.toNat % 64 ≤ 0xBF := by
      refine ⟨?_, ?_, by omega, by omega, by omega, by omega⟩
      · split_ifs <;> omega
      · split_ifs <;> omega
    simp only [List.cons_append, List.nil_append, utf8.DecodeRune, a1, a2, a3, a4, a5, a6,
      and_self, if_true, if_false, List.length_cons, List.length_nil]
    rw [Prod.mk.injEq]
    exact ⟨by omega, rfl⟩

/-- The bytes of characters of the XML character range pass the check of the
decoder. -/
theorem checkRunes_chars :
    ∀ (cs : List Char), (∀ c ∈ cs, xml.isInCharacterRange c.toNat = true) →
      ∀ n, xml.checkRunes n (cs.flatMap charBytes) = none := by
  intro cs
  induction cs with
  | nil => intro _ n; cases n <;> rfl
  | cons c cs ih =>
    intro hcs n
    cases n with
    | zero => rfl
    | succ n =>
      have hd := DecodeRune_charBytes c (cs.flatMap charBytes)
      have hne := charBytes_ne_nil c
      have hrange := hcs c (List.mem_cons_self _ _)
      simp only [List.flatMap_cons]
      cases hcb : charBytes c with
      | nil => exact absurd hcb hne
      | cons b bs =>
        rw [hcb] at hd
        simp only [List.cons_append] at hd ⊢
        unfold xml.checkRunes
        simp only [hd, hrange, Bool.true_eq_false, if_false]
        have hnot : ¬ (c.toNat = utf8.RuneError ∧ (b :: bs).length = 1) := by
          rintro ⟨hr, hl⟩
          rcases charBytes_eq c with ⟨h1, _⟩ | ⟨_, _, hb⟩ | ⟨_, _, hb⟩ | ⟨_, _, hb⟩
          · unfold utf8.RuneError at hr; omega
          · rw [hcb] at hb; rw [hb] at hl; simp at hl
          · rw [hcb] at hb; rw [hb] at hl; simp at hl
          · rw [hcb] at hb; rw [hb] at hl; simp at hl
        rw [if_neg hnot]
        have : List.drop (b :: bs).length (b :: (bs ++ cs.flatMap charBytes)) =
            cs.flatMap charBytes := by
          rw [← List.cons_append]
          exact List.drop_left _ _
        rw [this]
        exact ih (fun x hx => hcs x (List.mem_cons_of_mem _ hx)) n

/-- The text of a string whose characters are all of the XML character range
is valid UTF-8 that passes the check of the decoder. -/
theorem checkText_lit (s : String)
    (h : ∀ c ∈ s.data, xml.isInCharacterRange c.toNat = true) :
    xml.checkText (lit s) = none := by
  unfold xml.checkText
  rw [lit_eq_flatMap]
  exact checkRunes_chars s.data h _

/-- The decoder delivers no character data but such as passes its check. -/
theorem readBack_checked (s : GoString) (read : List xml.Token)
    (h : xml.readBack s = .ok read) :
    read = [] ∨ ∃ text, read = [.CharData text] ∧ xml.checkText text = none := by
  unfold xml.readBack at h
  cases he : xml.escapeText s false with
  | nil =>
    rw [he] at h
    simp only [Except.ok.injEq] at h
    exact Or.inl h.symm
  | cons b markup =>
    rw [he] at h
    simp only at h
    unfold xml.Decoder.text at h
    cases hl : xml.Decoder.textLoop (b :: markup ++ [60]).length (b :: markup ++ [60]) 0 0 [] with
    | error err => rw [hl] at h; cases h
    | ok r =>
      obtain ⟨data, rest⟩ := r
      rw [hl] at h
      simp only at h
      cases hc : xml.checkText data with
      | some err => rw [hc] at h; cases h
      | none =>
        rw [hc] at h
        simp only [Except.ok.injEq] at h
        exact Or.inr ⟨data, h.symm, hc⟩

/-- A rune XML does not allow, and a byte that is no valid UTF-8, is written
as U+FFFD. -/
theorem escapeRune_replaced (r w : Nat) (escapeNewline : Bool)
    (h : xml.isInCharacterRange r = false ∨ (r = 0xFFFD ∧ w = 1)) :
    xml.escapeRune r w escapeNewline = some [0xEF, 0xBF, 0xBD] := by
  have hne : r ≠ 34 ∧ r ≠ 39 ∧ r ≠ 38 ∧ r ≠ 60 ∧ r ≠ 62 ∧ r ≠ 9 ∧ r ≠ 10 ∧ r ≠ 13 := by
    rcases h with h | h
    · refine ⟨?_, ?_, ?_, ?_, ?_, ?_, ?_, ?_⟩ <;> intro hc <;> subst hc <;>
        exact absurd h (by decide)
    · omega
  obtain ⟨n1, n2, n3, n4, n5, n6, n7, n8⟩ := hne
  unfold xml.escapeRune
  simp only [n1, n2, n3, n4, n5, n6, n7, n8, if_false]
  rcases h with h | h
  · simp [h]
  · simp [h.1, h.2]

/-- C6, counterexample: the text of the three bytes `a`, NUL, `b` does not
come back from the markup. `MarshalXML` writes it as one `CharData` token;
the encoder writes U+FFFD for the NUL, which XML does not allow, so the bytes
of the document are those of `a`, U+FFFD, `b`; the decoder reads them as that
text, and the `XLSXT` decoded holds U+FFFD where the NUL was. -/
theorem XLSXT_roundtrip_NUL :
    XLSXT.MarshalXML { Text := [97, 0, 98] } {} { Name := { Local := lit "t" } } =
      .ok { toks := [.StartElement { Name := { Local := lit "t" } }, .CharData [97, 0, 98],
                     .EndElement { Local := lit "t" }] } ∧
    xml.escapeText [97, 0, 98] false = [97, 0xEF, 0xBF, 0xBD, 98] ∧
    xml.readBack [97, 0, 98] = .ok [.CharData [97, 0xEF, 0xBF, 0xBD, 98]] ∧
    XLSXT.DecodeElement {}
        { toks := [.CharData [97, 0xEF, 0xBF, 0xBD, 98], .EndElement { Local := lit "t" }]
          fail := lit "EOF" }
        { Name := { Local := lit "t" } } =
      .ok ({ Text := [97, 0xEF, 0xBF, 0xBD, 98] }, { toks := [], fail := lit "EOF" }) ∧
    ([97, 0xEF, 0xBF, 0xBD, 98] : GoString) ≠ [97, 0, 98] ∧
    xml.checkText [97, 0, 98] = some (.Token (lit "illegal character code U+0000")) := by
  refine ⟨rfl, rfl, rfl, rfl, by decide, rfl⟩

/-- C6, amended: for every text that is valid UTF-8 of characters of the XML
character range (tab, line feed, carriage return, U+0020 to U+D7FF, U+E000 to
U+FFFD, U+10000 to U+10FFFF), which are the texts that pass the check of the
decoder, decoding the markup produced by encoding an `XLSXT` that holds the
text yields the text: `MarshalXML` writes it as one `CharData` token, the
encoder writes the token escaped, the decoder reads the bytes back as the
text, and the `XLSXT` decoded holds it, whatever start and end element the
decoder delivers around it. The text of every string of such characters is
such a text, with leading, trailing or embedded white space and line feeds.
No other text comes back: a text that is decoded from what the decoder
delivers for it passes the check, and the encoder writes U+FFFD for a rune
outside the range and for a byte that is no valid UTF-8. -/
theorem XLSXT_roundtrip_markup (t : XLSXT) (e : xml.Encoder) (start : xml.StartElement)
    (t0 : XLSXT) (fail : GoString) (h : xml.checkText t.Text = none) :
    (∃ (e1 : xml.Encoder) (start0 : xml.StartElement) (read : List xml.Token),
      XLSXT.MarshalXML t e start = .ok e1 ∧
      e1.toks = e.toks ++ [.StartElement start0, .CharData t.Text, .EndElement start.Name] ∧
      xml.readBack t.Text = .ok read ∧
      ∀ (start1 : xml.StartElement) (name1 : xml.Name) (rest : List xml.Token),
        XLSXT.DecodeElement t0 { toks := read ++ .EndElement name1 :: rest, fail := fail }
            start1 =
          .ok (t, { toks := rest, fail := fail })) ∧
    (∀ s : String, (∀ c ∈ s.data, xml.isInCharacterRange c.toNat = true) →
      xml.checkText (lit s) = none) ∧
    (∀ s : GoString, (∀ b ∈ s, b < 128 ∧ (32 ≤ b ∨ b = 9 ∨ b = 10 ∨ b = 13)) →
      xml.checkText s = none) ∧
    (∀ (s : GoString) (read : List xml.Token) (start1 : xml.StartElement) (name1 : xml.Name)
        (rest : List xml.Token), xml.readBack s = .ok read →
      XLSXT.DecodeElement t0 { toks := read ++ .EndElement name1 :: rest, fail := fail }
          start1 =
        .ok ({ Text := s }, { toks := rest, fail := fail }) →
      xml.checkText s = none) ∧
    (∀ (r w : Nat) (escapeNewline : Bool),
      (xml.isInCharacterRange r = false ∨ (r = 0xFFFD ∧ w = 1)) →
      xml.escapeRune r w escapeNewline = some [0xEF, 0xBF, 0xBD]) := by
  refine ⟨?_, checkText_lit, fun s hs => checkText_ascii _ s hs, ?_, escapeRune_replaced⟩
  · refine ⟨_, _, _, XLSXT_MarshalXML_tokens t e start, rfl, readBack_valid t.Text h, ?_⟩
    intro start1 name1 rest
    have hdec := (XLSXT_roundtrip_tokens t e start t0 fail).2 start1 name1
      (if t.Text = [] then [] else [t.Text]) rest (by split_ifs with h0 <;> simp [h0])
    by_cases h0 : t.Text = []
    · simpa [h0] using hdec
    · simpa [h0] using hdec
  · intro s read start1 name1 rest hread hdec
    rcases readBack_checked s read hread with hnil | ⟨text, htext, hcheck⟩
    · subst hnil
      have hd := (XLSXT_roundtrip_tokens { Text := [] } e start t0 fail).2 start1 name1 [] rest
        (by simp)
      simp only [List.map_nil, List.nil_append] at hd hdec
      rw [hd] at hdec
      simp only [Except.ok.injEq, Prod.mk.injEq, XLSXT.mk.injEq, and_true] at hdec
      rw [← hdec]
      rfl
    · subst htext
      have hd := (XLSXT_roundtrip_tokens { Text := text } e start t0 fail).2 start1 name1 [text]
        rest (by simp)
      simp only [List.map_cons, List.map_nil, List.cons_append, List.nil_append] at hd hdec
      rw [hd] at hdec
      simp only [Except.ok.injEq, Prod.mk.injEq, XLSXT.mk.injEq, and_true] at hdec
      rw [← hdec]
      exact hcheck

/-- A text with white space at both ends, the markup characters, a tab, a
line feed, a carriage return and a character of two bytes comes back from
the markup. -/
theorem XLSXT_roundtrip_markup_witness :
    ∃ (e1 : xml.Encoder) (start0 : xml.StartElement) (read : List xml.Token),
      XLSXT.MarshalXML { Text := lit " a<b>&c" ++ [34, 39, 9, 10, 13, 0xC3, 0xA9, 32] } {}
          { Name := { Local := lit "t" } } = .ok e1 ∧
      e1.toks = ({} : xml.Encoder).toks ++
        [.StartElement start0,
         .CharData (lit " a<b>&c" ++ [34, 39, 9, 10, 13, 0xC3, 0xA9, 32]),
         .EndElement { Local := lit "t" }] ∧
      xml.readBack (lit " a<b>&c" ++ [34, 39, 9, 10, 13, 0xC3, 0xA9, 32]) = .ok read ∧
      ∀ (start1 : xml.StartElement) (name1 : xml.Name) (rest : List xml.Token),
        XLSXT.DecodeElement {} { toks := read ++ .EndElement name1 :: rest, fail := lit "EOF" }
            start1 =
          .ok ({ Text := lit " a<b>&c" ++ [34, 39, 9, 10, 13, 0xC3, 0xA9, 32] },
               { toks := rest, fail := lit "EOF" }) :=
  (XLSXT_roundtrip_markup { Text := lit " a<b>&c" ++ [34, 39, 9, 10, 13, 0xC3, 0xA9, 32] } {}
    { Name := { Local := lit "t" } } {} (lit "EOF") (by rfl)).1

/-! ## The tests of the repository -/

/-- The document of `TestUnmarshallSharedStrings` decodes to what the test
asserts (xmlSharedStrings_test.go, l. 72-135). -/
theorem TestUnmarshallSharedStrings :
    XLSXSST.unmarshal testConv {} sharedStringsStart sharedStringsXML =
      .ok sharedStringsExpected := by
  rfl

/-- The cases of `TestMarshalSI_T` (l. 138-146): which texts get the marker. -/
theorem TestMarshalSI_T :
    needPreserve (lit "") = false ∧ needPreserve (lit "a b c") = false ∧
    needPreserve (lit " abc") = true ∧ needPreserve (lit "abc ") = true ∧
    needPreserve ([10] ++ lit "abc") = true ∧ needPreserve (lit "abc" ++ [10]) = true ∧
    needPreserve (lit "ab" ++ [10] ++ lit "c") = true := by
  decide

/-- The boolean cases of `TestMarshalSI_R` (l. 171-172): a true property is
written as an empty element, a false one is not written. -/
theorem TestMarshalSI_R :
    XLSXBoolProp.MarshalXML { Val := true } {} { Name := { Local := lit "b" } } =
      .ok { toks := [.StartElement { Name := { Local := lit "b" } },
                     .EndElement { Local := lit "b" }] } ∧
    XLSXBoolProp.MarshalXML { Val := false } {} { Name := { Local := lit "i" } } =
      .ok { toks := [] } :=
  ⟨rfl, rfl⟩

/-- The assertions of the test `Fontqt.Equals` (xmlStyle_test.go l. 208-248):
two fonts with the same fields are equal, and a change of the size, the
colour, the name or the family, or an unset `B`, `I` or `U`, makes them
unequal. -/
theorem TestXMLStyle_FontEquals :
    let fontA : XLSXFont :=
      { Sz := { Val := lit "11" }, Color := { RGB := lit "FFFF0000" },
        Name := { Val := lit "Calibri" }, Family := { Val := lit "2" },
        B := some {}, I := some {}, U := some {} }
    fontA.Equals fontA = true ∧
    fontA.Equals { fontA with Sz := { Val := lit "12" } } = false ∧
    fontA.Equals { fontA with Color := { RGB := lit "12345678" } } = false ∧
    fontA.Equals { fontA with Name := { Val := lit "Arial" } } = false ∧
    fontA.Equals { fontA with Family := { Val := lit "1" } } = false ∧
    fontA.Equals { fontA with B := none } = false ∧
    fontA.Equals { fontA with I := none } = false ∧
    fontA.Equals { fontA with U := none } = false := by
  decide

/-- The assertions of the test `XfEquals` on the named-style reference
(xmlStyle_test.go l. 351-364): a set reference is not equal to an unset one,
two references to 1 are equal, the references 1 and 2 are not. -/
theorem TestXMLStyle_XfEquals_XfId :
    let xfA : XLSXXf :=
      { ApplyAlignment := true, ApplyBorder := true, ApplyFont := true, ApplyFill := true,
        ApplyProtection := true }
    XLSXXf.Equals { xfA with XfId := some 1 } xfA = false ∧
    XLSXXf.Equals { xfA with XfId := some 1 } { xfA with XfId := some 1 } = true ∧
    XLSXXf.Equals { xfA with XfId := some 1 } { xfA with XfId := some 2 } = false := by
  decide

/-- The requests of the test `NewNumFmt` (xmlStyle_test.go l. 372-382), in
order on a new style sheet: the three built-in codes are answered with their
ids, "hh:mm:ss" with 164, and the list then has one entry. -/
theorem TestStyleSheet_NewNumFmt :
    let r1 := XLSXStyleSheet.newNumFmt namedBuiltInNumFmts {} (lit "0")
    let r2 := r1.2.newNumFmt namedBuiltInNumFmts (lit "0.00e+00")
    let r3 := r2.2.newNumFmt namedBuiltInNumFmts (lit "mm-dd-yy")
    let r4 := r3.2.newNumFmt namedBuiltInNumFmts (lit "hh:mm:ss")
    r1.1 = { NumFmtId := 1, FormatCode := lit "0" } ∧
    r2.1 = { NumFmtId := 11, FormatCode := lit "0.00e+00" } ∧
    r3.1 = { NumFmtId := 14, FormatCode := lit "mm-dd-yy" } ∧
    r4.1 = { NumFmtId := 164, FormatCode := lit "hh:mm:ss" } ∧
    r4.2.NumFmts.NumFmt.length = 1 := by
  decide

/-- The calls of the test `AddNumFmt`: the entries with the ids 1 and 14 are
not taken, those with 164 and 165 are, and 165 is not taken a second time. -/
theorem TestStyleSheet_AddNumFmt :
    (addNumFmts {} [{ NumFmtId := 1, FormatCode := lit "0" }]).NumFmts.Count = 0 ∧
    (addNumFmts {} [{ NumFmtId := 1, FormatCode := lit "0" },
      { NumFmtId := 14, FormatCode := lit "mm-dd-yy" }]).NumFmts.Count = 0 ∧
    (addNumFmts {} [{ NumFmtId := 1, FormatCode := lit "0" },
      { NumFmtId := 14, FormatCode := lit "mm-dd-yy" },
      { NumFmtId := 164, FormatCode := lit "hh:mm:ss" }]).NumFmts.Count = 1 ∧
    (addNumFmts {} [{ NumFmtId := 1, FormatCode := lit "0" },
      { NumFmtId := 14, FormatCode := lit "mm-dd-yy" },
      { NumFmtId := 164, FormatCode := lit "hh:mm:ss" },
      { NumFmtId := 165, FormatCode := lit "yyyy/mm/dd" }]).NumFmts.Count = 2 ∧
    (addNumFmts {} [{ NumFmtId := 1, FormatCode := lit "0" },
      { NumFmtId := 14, FormatCode := lit "mm-dd-yy" },
      { NumFmtId := 164, FormatCode := lit "hh:mm:ss" },
      { NumFmtId := 165, FormatCode := lit "yyyy/mm/dd" },
      { NumFmtId := 165, FormatCode := lit "yyyy/mm/dd" }]).NumFmts.Count = 2 := by
  decide

/-- The border of the test `MarshalXLSXStyleSheetWithABorder`: the left side
has the style "solid", the other sides have none, and all four are written. -/
theorem TestXMLStyle_MarshalXLSXStyleSheetWithABorder (color : XLSXColor → List xml.Token)
    (hcolor : color {} = []) :
    XLSXBorder.Marshal color { Left := { Style := lit "solid" }, Top := { Style := lit "" } } =
      [.StartElement { Name := { Local := lit "border" } },
       .StartElement
         { Name := { Local := lit "left" }
           Attr := [{ Name := { Local := lit "style" }, Value := lit "solid" }] },
       .EndElement { Local := lit "left" },
       .StartElement { Name := { Local := lit "right" } },
       .EndElement { Local := lit "right" },
       .StartElement { Name := { Local := lit "top" } },
       .EndElement { Local := lit "top" },
       .StartElement { Name := { Local := lit "bottom" } },
       .EndElement { Local := lit "bottom" },
       .EndElement { Local := lit "border" }] := by
  have hsolid : ¬ (lit "solid" = ([] : GoString)) := by decide
  have hnone : lit "" = ([] : GoString) := by decide
  simp [XLSXBorder.Marshal, XLSXLine.Marshal, hsolid, hnone, hcolor]

/-- A workbook with the relationship `rId1` for `sheet2` and the parts `sheet1`
and `sheet2`: the sheet with the id `rId1` and the sheet id 1 gets the part
`sheet2`, the relationship before the sheet id; a sheet with no relationship
gets the part named by its sheet id, or by its id where the sheet id is empty;
and a relationship to a part that is not there gives nil though the part named
by the sheet id is there. -/
theorem worksheetFileForSheet_cases :
    let worksheets : GoMap (Option Nat) := fun name =>
      if name = lit "sheet1" then some (some 1)
      else if name = lit "sheet2" then some (some 2)
      else if name = lit "sheetrId9" then some (some 9)
      else none
    let sheetXMLMap : GoMap GoString := fun id =>
      if id = lit "rId1" then some (lit "sheet2")
      else if id = lit "rId5" then some (lit "sheet5")
      else none
    worksheetFileForSheet { Id := lit "rId1", SheetId := lit "1" } worksheets sheetXMLMap =
      some 2 ∧
    worksheetFileForSheet { Id := lit "rId7", SheetId := lit "1" } worksheets sheetXMLMap =
      some 1 ∧
    worksheetFileForSheet { Id := lit "rId9", SheetId := lit "" } worksheets sheetXMLMap =
      some 9 ∧
    worksheetFileForSheet { Id := lit "rId5", SheetId := lit "1" } worksheets sheetXMLMap =
      none ∧
    worksheetFileForSheet { Id := lit "rId7", SheetId := lit "3" } worksheets sheetXMLMap =
      none := by
  decide

/-- The bytes the encoder writes for a text with the markup characters, a tab,
a line feed and a carriage return: the line feed is written as it is, the
others as entities. -/
theorem escapeText_cases :
    xml.escapeText (lit " a<b>&c" ++ [34, 39, 9, 10, 13]) false =
      lit " a&lt;b&gt;&amp;c&#34;&#39;&#x9;" ++ [10] ++ lit "&#xD;" := by
  rfl

/-- An `si` element is taken into `SI` in whatever namespace it is, the tag of
the field naming none. -/
theorem XLSXSST_child_any_namespace :
    XLSXSST.child testConv {} { Name := { Space := lit "urn:x", Local := lit "si" } } [] =
      .ok { SI := [{}] } ∧
    XLSXSST.child testConv {} { Name := { Space := mainNamespace, Local := lit "si" } } [] =
      .ok { SI := [{}] } :=
  ⟨rfl, rfl⟩

end Xlsx
